import Mathlib

/-
  Verification development for the diy-costmap repository: a 2D occupancy
  grid ("costmap") with three planners (A*, Dijkstra, RRT).

  The embedding follows `src/costmap/costmap.py` (the Costmap class used by
  the planners) and `src/planner/planners.py`.  Grids are row-major lists of
  byte values (`grid[y][x]`, numpy uint8), coordinates are integers.
-/

namespace DiyCostmap

/-- Modelled from the spec: the `const` module imported by
`planner/planners.py` (names FREE, OBSTACLE, UNKNOWN, VISITED, START, GOAL)
is not present under `src/`; the byte values follow spec section 6 and the
docstring of `src/costmap/costmap.py`:
FREE=255, OBSTACLE=0, UNKNOWN=128, VISITED=254, START=200, GOAL=50. -/
def FREE : ℕ := 255

def OBSTACLE : ℕ := 0

def UNKNOWN : ℕ := 128

def VISITED : ℕ := 254

def START : ℕ := 200

def GOAL : ℕ := 50

/-- A search node: an `(x, y)` integer coordinate pair. -/
abbrev Node := ℤ × ℤ

/-- A grid: a list of rows, each row a list of byte cell states;
`grid[y][x]` is cell `(x, y)`. -/
abbrev Grid := List (List ℕ)

/-- Read entry `i` of a row; out-of-range reads give the junk default `0`
(the planners only read in bounds, guarded by `is_within_bounds`-style
checks; theorems carry the bounds hypotheses). -/
def rowGet : List ℕ → ℕ → ℕ
  | [], _ => 0
  | a :: _, 0 => a
  | _ :: t, n + 1 => rowGet t n

/-- Read row `i` of a grid (junk default: the empty row). -/
def gridRow : Grid → ℕ → List ℕ
  | [], _ => []
  | r :: _, 0 => r
  | _ :: t, n + 1 => gridRow t n

/-- Write entry `i` of a row (no-op when out of range, as `List.set`). -/
def rowSet : List ℕ → ℕ → ℕ → List ℕ
  | [], _, _ => []
  | _ :: t, 0, v => v :: t
  | a :: t, n + 1, v => a :: rowSet t n v

/-- Replace row `i` of a grid. -/
def gridSetRow : Grid → ℕ → List ℕ → Grid
  | [], _, _ => []
  | _ :: t, 0, r => r :: t
  | a :: t, n + 1, r => a :: gridSetRow t n r

/-- `grid[y][x]` for a node `p = (x, y)` (negative coordinates clamp to 0
via `Int.toNat`; all verified accesses are at non-negative in-bounds
coordinates). -/
def cellGet (g : Grid) (p : Node) : ℕ := rowGet (gridRow g p.2.toNat) p.1.toNat

/-- `grid[y][x] = v` for a node `p = (x, y)`. -/
def cellSet (g : Grid) (p : Node) (v : ℕ) : Grid :=
  gridSetRow g p.2.toNat (rowSet (gridRow g p.2.toNat) p.1.toNat v)

/-- The Costmap data (`src/costmap/costmap.py`): dimensions, the grid, and
the optional start/goal markers. -/
structure Costmap where
  width : ℕ
  height : ℕ
  grid : Grid
  start : Option Node
  goal : Option Node
  deriving DecidableEq

/-- Well-formed costmap: the grid really is `height` rows of `width` cells. -/
def Wf (cm : Costmap) : Prop :=
  cm.grid.length = cm.height ∧ ∀ r ∈ cm.grid, r.length = cm.width

/-- `Costmap.is_within_bounds(x, y)`: `0 <= x < width and 0 <= y < height`. -/
def isWithinBounds (cm : Costmap) (x y : ℤ) : Bool :=
  decide (0 ≤ x ∧ x < (cm.width : ℤ) ∧ 0 ≤ y ∧ y < (cm.height : ℤ))

/-- `Costmap.is_free(x, y)`: `grid[y][x] != OBSTACLE`.  This is the total
version used at call sites that have already checked bounds (the planners
guard with `is_within_bounds`). -/
def isFreeB (cm : Costmap) (x y : ℤ) : Bool :=
  cellGet cm.grid (x, y) != OBSTACLE

/-- Single-axis numpy indexing: index `i` into a length-`n` list is valid
for `-n ≤ i < n` (negative indices wrap), and raises `IndexError`
otherwise (modelled as `none`). -/
def npIndex {α : Type} (l : List α) (i : ℤ) : Option α :=
  if 0 ≤ i then l.get? i.toNat
  else if 0 ≤ i + l.length then l.get? (i + l.length).toNat
  else none

/-- `Costmap.is_free(x, y)` as Python executes it: `self.grid[y][x]` with
no bounds check, so numpy indexing semantics apply; `none` models an
`IndexError` escaping the call. -/
def isFreeIdx (cm : Costmap) (x y : ℤ) : Option Bool :=
  (npIndex cm.grid y).bind fun row => (npIndex row x).map fun v => v ≠ OBSTACLE

/-- `Costmap.toggle_obstacle(x, y)`: flip `UNKNOWN ↔ OBSTACLE` in bounds,
leave every other state (and out-of-bounds requests) untouched. -/
def toggleObstacle (cm : Costmap) (x y : ℤ) : Costmap :=
  if isWithinBounds cm x y then
    let v := cellGet cm.grid (x, y)
    if v = OBSTACLE then { cm with grid := cellSet cm.grid (x, y) UNKNOWN }
    else if v = UNKNOWN then { cm with grid := cellSet cm.grid (x, y) OBSTACLE }
    else cm
  else cm

/-- `Costmap.set_start(x, y)`: if in bounds and free, revert the previous
start cell to UNKNOWN when it still holds START, then mark `(x, y)` START
and store the marker; otherwise a silent no-op. -/
def setStart (cm : Costmap) (x y : ℤ) : Costmap :=
  if isWithinBounds cm x y && isFreeB cm x y then
    let cm1 :=
      match cm.start with
      | some s =>
          if cellGet cm.grid s = START then
            { cm with grid := cellSet cm.grid s UNKNOWN }
          else cm
      | none => cm
    { cm1 with start := some (x, y), grid := cellSet cm1.grid (x, y) START }
  else cm

/-- `Costmap.set_goal(x, y)`: symmetric to `set_start`. -/
def setGoal (cm : Costmap) (x y : ℤ) : Costmap :=
  if isWithinBounds cm x y && isFreeB cm x y then
    let cm1 :=
      match cm.goal with
      | some p =>
          if cellGet cm.grid p = GOAL then
            { cm with grid := cellSet cm.grid p UNKNOWN }
          else cm
      | none => cm
    { cm1 with goal := some (x, y), grid := cellSet cm1.grid (x, y) GOAL }
  else cm

/-- `Costmap.reset()`: every cell back to UNKNOWN, markers cleared. -/
def resetCm (cm : Costmap) : Costmap :=
  { cm with
    grid := List.replicate cm.height (List.replicate cm.width UNKNOWN)
    start := none
    goal := none }

/-- `Costmap.load_map(filename)` with the decoded raster given as a grid
`img` (file I/O is out of scope): copy the overlapping top-left
sub-rectangle of `min(width, img-width) × min(height, img-height)`
cell-for-cell into the grid. -/
def loadMap (cm : Costmap) (img : Grid) : Costmap :=
  let mh := min img.length cm.height
  let mw := min (gridRow img 0).length cm.width
  { cm with
    grid :=
      (List.range cm.height).map fun y =>
        (List.range cm.width).map fun x =>
          if y < mh ∧ x < mw then rowGet (gridRow img y) x
          else rowGet (gridRow cm.grid y) x }

/-- `Costmap.reset_path(map_file)`: reload the map (content `img`), then
re-assign the remembered start/goal when they are still in bounds and
free, else clear them. -/
def resetPath (cm : Costmap) (img : Grid) : Costmap :=
  let cm1 := loadMap cm img
  let cm2 :=
    match cm.start with
    | some s =>
        if isWithinBounds cm1 s.1 s.2 && isFreeB cm1 s.1 s.2 then
          setStart cm1 s.1 s.2
        else { cm1 with start := none }
    | none => cm1
  match cm.goal with
  | some p =>
      if isWithinBounds cm2 p.1 p.2 && isFreeB cm2 p.1 p.2 then
        setGoal cm2 p.1 p.2
      else { cm2 with goal := none }
  | none => cm2

/-! ## The A* / Dijkstra search skeleton (`planner/planners.py`)

`AStarPlanner.plan` and `DijkstraPlanner.plan` are the same loop up to the
heuristic term: A* keys the frontier by `g + manhattan(·, goal)` and
Dijkstra by `g` alone (heuristic 0).  We embed the shared skeleton once,
parameterised by the heuristic `hf`, and instantiate it twice.  A*'s
`fscore` dict is write-only (each stored value is pushed immediately and
the dict is never read back apart from `fscore[start]` at initialisation,
recomputed here), so it is elided from the state.

`heapq` holds `(key, node)` tuples ordered by Python tuple comparison
(key, then node, lexicographically); `heappop` returns the least tuple
value of the multiset, which is what `minEntry` computes.  The dicts
`came_from` and `gscore` are association lists with first-match lookup and
in-place update (Python dict semantics). -/

/-- First-match lookup in an association list (Python `d[k]` / `k in d`). -/
def lookupA {α : Type} : List (Node × α) → Node → Option α
  | [], _ => none
  | (k', v') :: t, k => if k' = k then some v' else lookupA t k

/-- Python dict update `d[k] = v`: replace the (unique) existing binding in
place, else append the new binding (insertion order preserved). -/
def updEntry {α : Type} : List (Node × α) → Node → α → List (Node × α)
  | [], k, v => [(k, v)]
  | (k', v') :: t, k, v =>
      if k' = k then (k, v) :: t else (k', v') :: updEntry t k v

/-- `AStarPlanner.heuristic`: Manhattan distance. -/
def manhattan (a b : Node) : ℤ := |a.1 - b.1| + |a.2 - b.2|

/-- In-bounds test for a node against grid dimensions. -/
def inBoundsB (w h : ℕ) (p : Node) : Bool :=
  decide (0 ≤ p.1 ∧ p.1 < (w : ℤ) ∧ 0 ≤ p.2 ∧ p.2 < (h : ℤ))

/-- The four neighbour candidates, in the source's direction order
`[(-1,0), (1,0), (0,-1), (0,1)]`. -/
def neighborCands (n : Node) : List Node :=
  [(n.1 - 1, n.2), (n.1 + 1, n.2), (n.1, n.2 - 1), (n.1, n.2 + 1)]

/-- `get_neighbors`: 4-connected neighbours that are in bounds and not
OBSTACLE (identical in `AStarPlanner` and `DijkstraPlanner`). -/
def getNeighbors (w h : ℕ) (g : Grid) (n : Node) : List Node :=
  (neighborCands n).filter fun q => inBoundsB w h q && (cellGet g q != OBSTACLE)

/-- Python tuple comparison on heap entries `(key, (x, y))`. -/
def entryLt (a b : ℤ × Node) : Bool :=
  a.1 < b.1 ||
    (a.1 = b.1 && (a.2.1 < b.2.1 || (a.2.1 = b.2.1 && a.2.2 < b.2.2)))

/-- The least tuple of the frontier multiset (what `heappop` returns);
`none` iff the frontier is empty. -/
def minEntry (l : List (ℤ × Node)) : Option (ℤ × Node) :=
  l.foldl
    (fun acc e =>
      match acc with
      | none => some e
      | some m => if entryLt e m then some e else some m)
    none

/-- Remove one occurrence of a value from the frontier (the popped entry). -/
def removeFirst : List (ℤ × Node) → (ℤ × Node) → List (ℤ × Node)
  | [], _ => []
  | e' :: t, e => if e' = e then t else e' :: removeFirst t e

/-- Search state: the (mutated) grid, the frontier, and the `came_from` /
`gscore` dicts. -/
structure SState where
  grid : Grid
  frontier : List (ℤ × Node)
  came : List (Node × Node)
  gsc : List (Node × ℤ)
  deriving DecidableEq

/-- `_reconstruct_path(came_from, current)` (identical in both planners):
`path = [current]; while current in came_from: current = came_from[current];
path.append(current); path.reverse()`.  The Python loop has no bound; the
fuel argument makes the recursion structural, and the caller passes
`came.length + 1`, which suffices exactly when the Python walk terminates
(an acyclic predecessor chain visits distinct keys). -/
def reconGo : ℕ → List (Node × Node) → Node → List Node → Option (List Node)
  | 0, _, _, _ => none
  | f + 1, cf, cur, path =>
      match lookupA cf cur with
      | some p => reconGo f cf p (path ++ [p])
      | none => some path.reverse

/-- One relaxation (the body of `for nbr in self.get_neighbors(current)`):
`tentative = gscore[current] + 1`; on a strictly better (or first) value,
set `came_from[nbr]`, `gscore[nbr]` and push `(tentative + hf nbr, nbr)`. -/
def relaxOne (hf : Node → ℤ) (cur : Node) (s : SState) (nbr : Node) : SState :=
  match lookupA s.gsc cur with
  | none => s
  | some gc =>
      let tg := gc + 1
      let better :=
        match lookupA s.gsc nbr with
        | none => true
        | some gn => decide (tg < gn)
      if better then
        { s with
          came := updEntry s.came nbr cur
          gsc := updEntry s.gsc nbr tg
          frontier := (tg + hf nbr, nbr) :: s.frontier }
      else s
/- (The `none` branch of `gscore[current]` is unreachable: every popped
entry's node has a gscore binding; Python would raise `KeyError`.) -/

/-- The search loop shared by `AStarPlanner.plan` and
`DijkstraPlanner.plan`.  Per iteration: pop the least entry; if it is the
goal, reconstruct and return; otherwise mark the cell VISITED unless it
currently holds START or GOAL, then relax the four neighbours.  Result:
`(none, grid)` = fuel exhausted mid-search (the Python loop would keep
running), `(some none, grid)` = frontier emptied, "no path",
`(some (some p), grid)` = path found. -/
def searchLoop (w h : ℕ) (hf : Node → ℤ) (goal : Node) :
    ℕ → SState → Option (Option (List Node)) × Grid
  | 0, s => (none, s.grid)
  | f + 1, s =>
      match minEntry s.frontier with
      | none => (some none, s.grid)
      | some e =>
          let s1 : SState := { s with frontier := removeFirst s.frontier e }
          let cur := e.2
          if cur = goal then
            match reconGo (s1.came.length + 1) s1.came cur [cur] with
            | some p => (some (some p), s1.grid)
            | none => (none, s1.grid)
          else
            let c := cellGet s1.grid cur
            let g2 := if c = START ∨ c = GOAL then s1.grid
                      else cellSet s1.grid cur VISITED
            let s2 : SState := { s1 with grid := g2 }
            let s3 := (getNeighbors w h g2 cur).foldl (relaxOne hf cur) s2
            searchLoop w h hf goal f s3

/-- `AStarPlanner.plan(start, goal)`: frontier seeded with
`(fscore[start], start) = (manhattan start goal, start)`, `gscore = {start: 0}`. -/
def astarPlan (fuel : ℕ) (cm : Costmap) (start goal : Node) :
    Option (Option (List Node)) × Grid :=
  let hf := fun n => manhattan n goal
  searchLoop cm.width cm.height hf goal fuel
    ⟨cm.grid, [(hf start, start)], [], [(start, 0)]⟩

/-- `DijkstraPlanner.plan(start, goal)`: the same skeleton with a zero
heuristic; frontier seeded with `(0, start)`, `dist = {start: 0}`. -/
def dijkstraPlan (fuel : ℕ) (cm : Costmap) (start goal : Node) :
    Option (Option (List Node)) × Grid :=
  searchLoop cm.width cm.height (fun _ => 0) goal fuel
    ⟨cm.grid, [(0, start)], [], [(start, 0)]⟩

/-! ## The RRT planner (`planner/planners.py`, class `RRTPlanner`)

Randomness is made explicit: each growth step consumes one `Draw` from a
stream `draws : ℕ → Draw`, which records the outcome of
`random.random() < goal_bias` (constructor `toGoal`) or the sampled cell
(constructor `sample`).  Theorems quantify over all streams.

Floating point: `_distance` is `np.hypot` and `_steer` divides by it and
rounds with Python's `round` (round-half-to-even).  We model the float
expressions by their exact real values: comparisons
`dist ≤ step_size` become `dist² ≤ step_size²` on integers (exact for the
grid-scale integers involved), and the rounded coordinate
`round(x1 + dx/dist · step)` is computed exactly over ℤ/ℚ by `steerCoord`
(see its derivation comment). -/

/-- Squared Euclidean distance; `_distance a b ≤ c` (for `c ≥ 0`) is
`dist2 a b ≤ c²`. -/
def dist2 (a b : Node) : ℤ := (a.1 - b.1) ^ 2 + (a.2 - b.2) ^ 2

/-- Binary-search integer square root (kernel-computable, unlike
`Nat.sqrt`'s well-founded recursion); maintains `lo² ≤ n < (hi+1)²`. -/
def isqrtAux (n : ℕ) : ℕ → ℕ → ℕ → ℕ
  | 0, lo, _ => lo
  | f + 1, lo, hi =>
      if hi ≤ lo then lo
      else
        let mid := (lo + hi + 1) / 2
        if mid * mid ≤ n then isqrtAux n f mid hi else isqrtAux n f lo (mid - 1)

/-- `⌊√n⌋`, computable by the kernel; proven equal to `Nat.sqrt`. -/
def isqrt (n : ℕ) : ℕ := isqrtAux n (n + 1) 0 n

/-- `⌊c · √m⌋` computed exactly: for `c ≥ 0` this is `⌊√(c²m)⌋ = isqrt (c²m)`,
and for `c < 0` it is `-⌈|c|·√m⌉`, i.e. `-isqrt(c²m)` when `c²m` is a
perfect square and `-isqrt(c²m) - 1` otherwise. -/
def floorMulSqrt (c : ℤ) (m : ℕ) : ℤ :=
  if 0 ≤ c then (isqrt (c.toNat ^ 2 * m) : ℤ)
  else
    let k := c.natAbs ^ 2 * m
    if isqrt k * isqrt k = k then -(isqrt k : ℤ)
    else -(isqrt k : ℤ) - 1

/-- Python `round` (round half to even) on an exact rational. -/
def rheRat (q : ℚ) : ℤ :=
  let n := ⌊q⌋
  let r := q - n
  if r < 1 / 2 then n
  else if 1 / 2 < r then n + 1
  else if n % 2 = 0 then n else n + 1

/-- One coordinate of `_steer`'s `int(round(x1 + (dx/dist)*step_size))`
with `dist = √m`, `m = dist2 from to > step²`, computed exactly.
When `m` is a perfect square `s²` the value `x1 + dx·step/s` is rational
and Python's round-half-even applies directly.  Otherwise the value is
irrational, so no tie can occur and rounding is
`⌊x1 + dx·step/√m + 1/2⌋ = x1 + ⌊(m + ⌊2·dx·step·√m⌋) / (2m)⌋`
(multiply `1/2 + dx·step/√m` through by `√m/√m`). -/
def steerCoord (x1 dx stepS : ℤ) (m : ℕ) : ℤ :=
  let s := isqrt m
  if s * s = m then rheRat ((x1 : ℚ) + ((dx * stepS : ℤ) : ℚ) / (s : ℚ))
  else x1 + Int.fdiv ((m : ℤ) + floorMulSqrt (2 * dx * stepS) m) (2 * m)

/-- `_steer(from_node, to_node, step_size)`: go straight to `to_node` when
it is within `step_size`, else move `step_size` along the normalised
direction and round each coordinate. -/
def steer (a b : Node) (stepS : ℤ) : Node :=
  let m := dist2 a b
  if m ≤ stepS ^ 2 then b
  else (steerCoord a.1 (b.1 - a.1) stepS m.toNat,
        steerCoord a.2 (b.2 - a.2) stepS m.toNat)

/-- One recorded random draw per growth step. -/
inductive Draw
  | toGoal
  | sample (p : Node)

/-- The sampled target of a growth step. -/
def drawNode (goal : Node) : Draw → Node
  | .toGoal => goal
  | .sample p => p

/-- The RRT tree `{node: parent-or-None}` as an insertion-ordered dict. -/
abbrev RTree := List (Node × Option Node)

/-- Keys of the tree in insertion order (`tree.keys()`). -/
def treeKeys (t : RTree) : List Node := t.map Prod.fst

/-- `_nearest(rand_node, nodes)`: `min(nodes, key=distance-to-rand)`.
Python's `min` keeps the earliest element among ties, and comparing
`np.hypot` values agrees with comparing squared distances. -/
def nearestNode (ks : List Node) (r : Node) : Option Node :=
  ks.foldl
    (fun acc n =>
      match acc with
      | none => some n
      | some m => if dist2 n r < dist2 m r then some n else some m)
    none

/-- Mark a cell VISITED unless it currently holds START or GOAL. -/
def markVisited (g : Grid) (p : Node) : Grid :=
  let c := cellGet g p
  if c = START ∨ c = GOAL then g else cellSet g p VISITED

/-- The post-success loop `for x, y in path: ... = FREE` (cells not
currently START/GOAL are overwritten with FREE). -/
def markPathFree (g : Grid) (path : List Node) : Grid :=
  path.foldl
    (fun g' p =>
      let c := cellGet g' p
      if c = START ∨ c = GOAL then g' else cellSet g' p FREE)
    g

/-- `RRTPlanner._reconstruct_path(tree, current)`:
`path = [current]; while tree[current] is not None: current = tree[current];
path.append(current); path.reverse()`.  Fuelled like `reconGo`; the
caller's fuel `tree.length + 1` suffices exactly when the Python walk
terminates.  A missing key (`none` lookup) is a Python `KeyError`,
unreachable for trees built by `plan`; it is folded into the `none`
result. -/
def rrtRecon : ℕ → RTree → Node → List Node → Option (List Node)
  | 0, _, _, _ => none
  | f + 1, t, cur, path =>
      match lookupA t cur with
      | some (some p) => rrtRecon f t p (path ++ [p])
      | some none => some path.reverse
      | none => none

/-- Result of one growth step. -/
inductive RStep where
  | success (p : List Node) (g : Grid)
  | diverged (g : Grid)
  | next (g : Grid) (t : RTree) (idx : ℕ)

/-- One iteration of the RRT growth loop: sample, find nearest, steer,
and if the new node is in bounds and not an obstacle, add it to the tree,
mark it VISITED, and when it is within `step_size` of the goal connect
the goal and reconstruct (marking the returned path FREE).
`diverged` records a reconstruction walk that never terminates. -/
def rrtIter (w h : ℕ) (stepS : ℤ) (goal : Node) (draws : ℕ → Draw)
    (g : Grid) (t : RTree) (idx : ℕ) : RStep :=
  let rand := drawNode goal (draws idx)
  match nearestNode (treeKeys t) rand with
  | none => .next g t (idx + 1)
  | some near =>
      let newN := steer near rand stepS
      if inBoundsB w h newN && (cellGet g newN != OBSTACLE) then
        let t1 := updEntry t newN (some near)
        let g1 := markVisited g newN
        if dist2 newN goal ≤ stepS ^ 2 then
          let t2 := updEntry t1 goal (some newN)
          match rrtRecon (t2.length + 1) t2 goal [goal] with
          | some path => .success path (markPathFree g1 path)
          | none => .diverged g1
        else .next g1 t1 (idx + 1)
      else .next g t (idx + 1)
/- (The `nearestNode = none` branch is unreachable: the tree always holds
at least the root.) -/

/-- Result of one attempt (`for _ in range(self.max_iter)`). -/
inductive RAttempt where
  | success (p : List Node) (g : Grid)
  | diverged (g : Grid)
  | exhausted (g : Grid) (idx : ℕ)

/-- Run up to `iters` growth steps of one attempt. -/
def rrtGrow (w h : ℕ) (stepS : ℤ) (goal : Node) (draws : ℕ → Draw) :
    ℕ → Grid → RTree → ℕ → RAttempt
  | 0, g, _, idx => .exhausted g idx
  | n + 1, g, t, idx =>
      match rrtIter w h stepS goal draws g t idx with
      | .success p g' => .success p g'
      | .diverged g' => .diverged g'
      | .next g' t' idx' => rrtGrow w h stepS goal draws n g' t' idx'

/-- The between-attempts cleanup: every VISITED cell back to UNKNOWN. -/
def clearVisited (g : Grid) : Grid :=
  g.map (List.map fun v => if v = VISITED then UNKNOWN else v)

/-- The attempt loop (`for attempt in range(max_attempts)`): each attempt
starts a fresh tree `{start: None}`; on failure the VISITED cells are
reverted and the next attempt continues the same draw stream.  Exhausting
all attempts returns `None` ("no path"). -/
def rrtAttempts (w h maxIter : ℕ) (stepS : ℤ) (start goal : Node)
    (draws : ℕ → Draw) : ℕ → Grid → ℕ → Option (Option (List Node)) × Grid
  | 0, g, _ => (some none, g)
  | a + 1, g, idx =>
      match rrtGrow w h stepS goal draws maxIter g [(start, none)] idx with
      | .success p g' => (some (some p), g')
      | .diverged g' => (none, g')
      | .exhausted g' idx' =>
          rrtAttempts w h maxIter stepS start goal draws a (clearVisited g') idx'

/-- The unconditional re-marking at the top of `RRTPlanner.plan`: write
START at the stored start coordinate and GOAL at the stored goal
coordinate, whenever those markers are set. -/
def rrtMarkEndpoints (cm : Costmap) : Grid :=
  let g1 := match cm.start with | some s => cellSet cm.grid s START | none => cm.grid
  match cm.goal with | some p => cellSet g1 p GOAL | none => g1

/-- `RRTPlanner.plan(start, goal)` with `max_iter` and `step_size` from the
constructor and the hard-coded `max_attempts = 50`; `goal_bias` is absorbed
into the draw stream.  First component: `none` = the call never returns
(the reconstruction walk cycles), `some none` = "no path" (`None`),
`some (some p)` = the returned path; second component: the grid at exit. -/
def rrtPlan (maxIter : ℕ) (stepS : ℤ) (draws : ℕ → Draw) (cm : Costmap)
    (start goal : Node) : Option (Option (List Node)) × Grid :=
  rrtAttempts cm.width cm.height maxIter stepS start goal draws 50
    (rrtMarkEndpoints cm) 0

/-! ## Specification-level predicates -/

/-- `p` is inside a `w × h` grid. -/
def NodeIn (w h : ℕ) (p : Node) : Prop :=
  0 ≤ p.1 ∧ p.1 < (w : ℤ) ∧ 0 ≤ p.2 ∧ p.2 < (h : ℤ)

instance (w h : ℕ) (p : Node) : Decidable (NodeIn w h p) := by
  unfold NodeIn; infer_instance

/-- `p` is a traversable node of grid `g`: in bounds and not OBSTACLE. -/
def validN (w h : ℕ) (g : Grid) (p : Node) : Prop :=
  NodeIn w h p ∧ cellGet g p ≠ OBSTACLE

instance (w h : ℕ) (g : Grid) (p : Node) : Decidable (validN w h g p) := by
  unfold validN; infer_instance

/-- One unit step along a single axis (4-connectivity). -/
def adjStep (a b : Node) : Prop :=
  (a.1 - b.1).natAbs + (a.2 - b.2).natAbs = 1

instance (a b : Node) : Decidable (adjStep a b) :=
  decidable_of_iff ((a.1 - b.1).natAbs + (a.2 - b.2).natAbs = 1) Iff.rfl

/-- `l` is a 4-connected path over traversable cells of `g` from `s` to `t`. -/
def validPath (w h : ℕ) (g : Grid) (s t : Node) (l : List Node) : Prop :=
  List.Chain' adjStep l ∧ l.head? = some s ∧ l.getLast? = some t ∧
    ∀ x ∈ l, validN w h g x

instance (w h : ℕ) (g : Grid) (s t : Node) (l : List Node) :
    Decidable (validPath w h g s t l) :=
  decidable_of_iff
    (List.Chain' adjStep l ∧ l.head? = some s ∧ l.getLast? = some t ∧
      ∀ x ∈ l, validN w h g x)
    Iff.rfl

/-- `t` is reachable from `s` by a valid path of at most `d` unit steps. -/
def connLe (w h : ℕ) (g : Grid) (s t : Node) (d : ℕ) : Prop :=
  ∃ l, validPath w h g s t l ∧ l.length ≤ d + 1

/-- Two grids carry the same obstacle pattern. -/
def obstEquiv (g g' : Grid) : Prop :=
  ∀ p : Node, cellGet g p = OBSTACLE ↔ cellGet g' p = OBSTACLE

/-- Number of OBSTACLE cells of a grid. -/
def countObs (g : Grid) : ℕ :=
  (g.map fun r => r.countP fun v => v == OBSTACLE).sum

/-- A grid has `h` rows of `w` cells each. -/
def gridShape (w h : ℕ) (g : Grid) : Prop :=
  g.length = h ∧ ∀ r ∈ g, r.length = w

/-- Both coordinates move by at most `stepS` (what RRT's steer actually
guarantees after rounding). -/
def stepOk (stepS : ℤ) (a b : Node) : Prop :=
  |a.1 - b.1| ≤ stepS ∧ |a.2 - b.2| ≤ stepS

instance (stepS : ℤ) (a b : Node) : Decidable (stepOk stepS a b) := by
  unfold stepOk; infer_instance

/-- Two nodes address the same grid entry (equal clamped indices). -/
def samePos (a b : Node) : Prop := a.1.toNat = b.1.toNat ∧ a.2.toNat = b.2.toNat

instance (a b : Node) : Decidable (samePos a b) := by
  unfold samePos; infer_instance

/-- The grid carried by an attempt result. -/
def raGrid : RAttempt → Grid
  | .success _ g => g
  | .diverged g => g
  | .exhausted g _ => g

/-- Cell-level effect of one A*/Dijkstra `plan` call: a cell is untouched
or overwritten with VISITED, and only when it did not hold START/GOAL. -/
def deltaSearch (gIn gOut : Grid) : Prop :=
  ∀ x : Node, cellGet gOut x = cellGet gIn x ∨
    (cellGet gOut x = VISITED ∧ cellGet gIn x ≠ START ∧ cellGet gIn x ≠ GOAL)

/-- Cell-level effect of the RRT growth/cleanup loops: cells are
untouched or overwritten with VISITED / UNKNOWN / FREE, and cells holding
START or GOAL are never overwritten. -/
def deltaRrt (gIn gOut : Grid) : Prop :=
  (∀ x : Node, cellGet gOut x = cellGet gIn x ∨ cellGet gOut x = VISITED ∨
    cellGet gOut x = UNKNOWN ∨ cellGet gOut x = FREE) ∧
  (∀ x : Node, (cellGet gIn x = START → cellGet gOut x = START) ∧
    (cellGet gIn x = GOAL → cellGet gOut x = GOAL))

/-- The stored start/goal markers (when set) point at in-bounds,
non-OBSTACLE cells — the precondition that keeps `RRTPlanner.plan`'s
unconditional re-marking of those cells from manufacturing or destroying
obstacles. -/
def MarksSafe (cm : Costmap) : Prop :=
  (∀ s, cm.start = some s → validN cm.width cm.height cm.grid s) ∧
  (∀ p, cm.goal = some p → validN cm.width cm.height cm.grid p)

/-- The Grid Store marker invariant: a set start marker points at an
in-bounds cell holding START, and symmetrically for goal. -/
def StartGoalInv (cm : Costmap) : Prop :=
  (∀ s, cm.start = some s →
    NodeIn cm.width cm.height s ∧ cellGet cm.grid s = START) ∧
  (∀ p, cm.goal = some p →
    NodeIn cm.width cm.height p ∧ cellGet cm.grid p = GOAL)

/-- Boolean evaluator for `StartGoalInv` (for concrete witnesses). -/
def sgInvB (cm : Costmap) : Bool :=
  (match cm.start with
   | some s =>
       decide (NodeIn cm.width cm.height s) && decide (cellGet cm.grid s = START)
   | none => true) &&
  (match cm.goal with
   | some p =>
       decide (NodeIn cm.width cm.height p) && decide (cellGet cm.grid p = GOAL)
   | none => true)

instance (cm : Costmap) : Decidable (StartGoalInv cm) :=
  decidable_of_iff (sgInvB cm = true)
    (by
      unfold sgInvB StartGoalInv
      cases cm.start <;> cases cm.goal <;> simp)

instance (w h : ℕ) (g : Grid) : Decidable (gridShape w h g) := by
  unfold gridShape; infer_instance

instance (cm : Costmap) : Decidable (Wf cm) := by
  unfold Wf; infer_instance

/-! ## Concrete scenario inputs -/

/-- The spec's concrete scenario: a 5×5 all-UNKNOWN grid with obstacles at
`(2,0), (2,1), (2,2), (2,3)` (cell `(2,4)` left open). -/
def c4grid : Grid :=
  [[UNKNOWN, UNKNOWN, OBSTACLE, UNKNOWN, UNKNOWN],
   [UNKNOWN, UNKNOWN, OBSTACLE, UNKNOWN, UNKNOWN],
   [UNKNOWN, UNKNOWN, OBSTACLE, UNKNOWN, UNKNOWN],
   [UNKNOWN, UNKNOWN, OBSTACLE, UNKNOWN, UNKNOWN],
   [UNKNOWN, UNKNOWN, UNKNOWN, UNKNOWN, UNKNOWN]]

/-- The scenario costmap (markers unset; start/goal are passed to `plan`). -/
def c4cm : Costmap := ⟨5, 5, c4grid, none, none⟩

/-- A 2×1 costmap whose cell `(0,0)` is an OBSTACLE and `(1,0)` UNKNOWN. -/
def cmObsStart : Costmap := ⟨2, 1, [[OBSTACLE, UNKNOWN]], none, none⟩

/-- A 9×9 all-UNKNOWN costmap. -/
def cm9 : Costmap := ⟨9, 9, List.replicate 9 (List.replicate 9 UNKNOWN), none, none⟩

/-- A draw stream that always samples `(7,7)`. -/
def draws77 : ℕ → Draw := fun _ => .sample (7, 7)

/-- A 4×1 all-UNKNOWN costmap. -/
def cm41 : Costmap := ⟨4, 1, [[UNKNOWN, UNKNOWN, UNKNOWN, UNKNOWN]], none, none⟩

/-- A draw stream that always samples `(1,0)`. -/
def draws10 : ℕ → Draw := fun _ => .sample (1, 0)

/-- A 3×3 all-UNKNOWN costmap. -/
def cm33 : Costmap :=
  ⟨3, 3, List.replicate 3 (List.replicate 3 UNKNOWN), none, none⟩

/-- The draw stream that always takes the goal-bias branch. -/
def drawsGoal : ℕ → Draw := fun _ => .toGoal

/-- A 2×2 all-UNKNOWN costmap (C8 counterexample input). -/
def cm22 : Costmap :=
  ⟨2, 2, [[UNKNOWN, UNKNOWN], [UNKNOWN, UNKNOWN]], none, none⟩

/-- A 2×2 costmap with distinct start/goal markers already placed
consistently (C8 witness input). -/
def cmSGw : Costmap :=
  ⟨2, 2, [[START, UNKNOWN], [UNKNOWN, GOAL]], some (0, 0), some (1, 1)⟩

/-- A 1×1 costmap whose stored start and goal markers collide (C10
counterexample input). -/
def cmColl : Costmap := ⟨1, 1, [[UNKNOWN]], some (0, 0), some (0, 0)⟩

/-! ## Basic grid lemmas -/

theorem rowSet_length (l : List ℕ) (n v : ℕ) : (rowSet l n v).length = l.length := by
  induction l generalizing n with
  | nil => rfl
  | cons a t ih =>
      cases n with
      | zero => rfl
      | succ m => simp [rowSet, ih]

theorem gridSetRow_length (g : Grid) (n : ℕ) (r : List ℕ) :
    (gridSetRow g n r).length = g.length := by
  induction g generalizing n with
  | nil => rfl
  | cons a t ih =>
      cases n with
      | zero => rfl
      | succ m => simp [gridSetRow, ih]

theorem rowGet_rowSet (l : List ℕ) (n m v : ℕ) :
    rowGet (rowSet l n v) m = if m = n ∧ n < l.length then v else rowGet l m := by
  induction l generalizing n m with
  | nil => simp [rowSet]
  | cons a t ih =>
      cases n with
      | zero =>
          cases m with
          | zero => simp [rowSet, rowGet]
          | succ k => simp [rowSet, rowGet]
      | succ n' =>
          cases m with
          | zero => simp [rowSet, rowGet]
          | succ k =>
              simp only [rowSet, rowGet, ih]
              by_cases hk : k = n' <;> simp [hk, List.length_cons, Nat.succ_lt_succ_iff]

theorem gridRow_gridSetRow (g : Grid) (n m : ℕ) (r : List ℕ) :
    gridRow (gridSetRow g n r) m = if m = n ∧ n < g.length then r else gridRow g m := by
  induction g generalizing n m with
  | nil => simp [gridSetRow]
  | cons a t ih =>
      cases n with
      | zero =>
          cases m with
          | zero => simp [gridSetRow, gridRow]
          | succ k => simp [gridSetRow, gridRow]
      | succ n' =>
          cases m with
          | zero => simp [gridSetRow, gridRow]
          | succ k =>
              simp only [gridSetRow, gridRow, ih]
              by_cases hk : k = n' <;> simp [hk, List.length_cons, Nat.succ_lt_succ_iff]

theorem cellGet_cellSet (g : Grid) (p q : Node) (v : ℕ) :
    cellGet (cellSet g p v) q =
      if q.2.toNat = p.2.toNat ∧ q.1.toNat = p.1.toNat ∧
          p.2.toNat < g.length ∧ p.1.toNat < (gridRow g p.2.toNat).length
      then v else cellGet g q := by
  unfold cellGet cellSet
  rw [gridRow_gridSetRow]
  by_cases hy : q.2.toNat = p.2.toNat
  · by_cases hyl : p.2.toNat < g.length
    · simp only [hy, hyl, and_true, if_pos rfl, if_pos (And.intro rfl hyl), rowGet_rowSet]
      by_cases hx : q.1.toNat = p.1.toNat
      · by_cases hxl : p.1.toNat < (gridRow g p.2.toNat).length
        · simp [rowGet_rowSet, hx, hxl, hy]
        · simp [rowGet_rowSet, hx, hxl, hy]
      · simp [rowGet_rowSet, hx, hy]
    · simp [hy, hyl, rowGet_rowSet]
  · have : ¬(q.2.toNat = p.2.toNat ∧ p.2.toNat < g.length) := fun h => hy h.1
    simp [this, hy]

theorem cellSet_length (g : Grid) (p : Node) (v : ℕ) :
    (cellSet g p v).length = g.length := by
  unfold cellSet; exact gridSetRow_length ..

theorem mem_gridSetRow {g : Grid} {n : ℕ} {r x : List ℕ}
    (hx : x ∈ gridSetRow g n r) : x ∈ g ∨ (x = r ∧ n < g.length) := by
  induction g generalizing n with
  | nil => simp [gridSetRow] at hx
  | cons a t ih =>
      cases n with
      | zero =>
          simp only [gridSetRow] at hx
          rcases List.mem_cons.mp hx with hx | hx
          · right; exact ⟨hx, by simp⟩
          · left; exact List.mem_cons_of_mem _ hx
      | succ m =>
          simp only [gridSetRow] at hx
          rcases List.mem_cons.mp hx with hx | hx
          · left; subst hx; exact List.mem_cons_self ..
          · rcases ih hx with h | h
            · left; exact List.mem_cons_of_mem _ h
            · right; exact ⟨h.1, by simpa using Nat.succ_lt_succ h.2⟩

theorem gridRow_mem {g : Grid} {n : ℕ} (hn : n < g.length) : gridRow g n ∈ g := by
  induction g generalizing n with
  | nil => simp at hn
  | cons a t ih =>
      cases n with
      | zero => exact List.mem_cons_self ..
      | succ m =>
          exact List.mem_cons_of_mem _ (ih (by simpa using hn))

theorem gridShape_cellSet {w h : ℕ} {g : Grid} (hs : gridShape w h g) (p : Node) (v : ℕ) :
    gridShape w h (cellSet g p v) := by
  obtain ⟨hl, hr⟩ := hs
  refine ⟨by rw [cellSet_length]; exact hl, ?_⟩
  intro r hrm
  rcases mem_gridSetRow hrm with h | h
  · exact hr r h
  · obtain ⟨he, hn⟩ := h
    subst he
    rw [rowSet_length]
    exact hr _ (gridRow_mem hn)

theorem toNat_fst_lt {w h : ℕ} {p : Node} (hp : NodeIn w h p) : p.1.toNat < w := by
  obtain ⟨h1, h2, _, _⟩ := hp; omega

theorem toNat_snd_lt {w h : ℕ} {p : Node} (hp : NodeIn w h p) : p.2.toNat < h := by
  obtain ⟨_, _, h3, h4⟩ := hp; omega

theorem cellGet_cellSet_self {w h : ℕ} {g : Grid} (hs : gridShape w h g)
    {p : Node} (hp : NodeIn w h p) (v : ℕ) : cellGet (cellSet g p v) p = v := by
  rw [cellGet_cellSet]
  have hy : p.2.toNat < g.length := by rw [hs.1]; exact toNat_snd_lt hp
  have hx : p.1.toNat < (gridRow g p.2.toNat).length := by
    rw [hs.2 _ (gridRow_mem hy)]; exact toNat_fst_lt hp
  simp [hy, hx]

theorem cellGet_cellSet_ne {g : Grid} {p q : Node} (v : ℕ)
    (hne : q.2.toNat ≠ p.2.toNat ∨ q.1.toNat ≠ p.1.toNat) :
    cellGet (cellSet g p v) q = cellGet g q := by
  rw [cellGet_cellSet]
  rcases hne with hne | hne <;> simp [hne]

theorem nodeIn_toNat_ne {w h : ℕ} {p q : Node} (hp : NodeIn w h p)
    (hq : NodeIn w h q) (hne : q ≠ p) :
    q.2.toNat ≠ p.2.toNat ∨ q.1.toNat ≠ p.1.toNat := by
  obtain ⟨hp1, _, hp3, _⟩ := hp
  obtain ⟨hq1, _, hq3, _⟩ := hq
  by_contra hc
  push_neg at hc
  apply hne
  have e2 : q.2 = p.2 := by omega
  have e1 : q.1 = p.1 := by omega
  exact Prod.ext e1 e2

/-- A non-OBSTACLE write never changes the obstacle pattern. -/
theorem obstEquiv_cellSet {g : Grid} {p : Node} {v : ℕ}
    (hv : v ≠ OBSTACLE) (hp : cellGet g p ≠ OBSTACLE) :
    obstEquiv g (cellSet g p v) := by
  intro q
  rw [cellGet_cellSet]
  by_cases hc : q.2.toNat = p.2.toNat ∧ q.1.toNat = p.1.toNat ∧
      p.2.toNat < g.length ∧ p.1.toNat < (gridRow g p.2.toNat).length
  · rw [if_pos hc]
    have : cellGet g q = cellGet g p := by
      unfold cellGet; rw [hc.1, hc.2.1]
    rw [this]
    exact ⟨fun hh => absurd hh hp, fun hh => absurd hh hv⟩
  · rw [if_neg hc]

theorem obstEquiv_refl (g : Grid) : obstEquiv g g := fun _ => Iff.rfl

theorem obstEquiv_trans {a b c : Grid} (h1 : obstEquiv a b) (h2 : obstEquiv b c) :
    obstEquiv a c := fun p => (h1 p).trans (h2 p)

theorem obstEquiv_symm {a b : Grid} (h1 : obstEquiv a b) : obstEquiv b a :=
  fun p => (h1 p).symm

/-- C4: the claim asserts a path of length 7; on the coded A* and Dijkstra
the returned path has 13 nodes (the wall at column 2 forces a 12-step
detour), so the claim is false at this very scenario. -/
theorem c4_counterexample :
    ((astarPlan 500 c4cm (0, 0) (4, 0)).1.map fun r => r.map List.length) =
        some (some 13) ∧
    ((dijkstraPlan 500 c4cm (0, 0) (4, 0)).1.map fun r => r.map List.length) =
        some (some 13) ∧ (13 : ℕ) ≠ 7 := by
  refine ⟨by decide, by decide, by decide⟩

/-- C4 (amended): on the 5×5 scenario grid with start `(0,0)` and goal
`(4,0)`, both `AStarPlanner.plan` and `DijkstraPlanner.plan` return a path
of 13 nodes (12 unit steps, the Manhattan-optimal detour) that passes
through `(2,4)`. -/
theorem c4_both_planners_length13_via_2_4 :
    ((astarPlan 500 c4cm (0, 0) (4, 0)).1.map fun r =>
        r.map fun l => (l.length, decide (((2 : ℤ), (4 : ℤ)) ∈ l))) =
      some (some (13, true)) ∧
    ((dijkstraPlan 500 c4cm (0, 0) (4, 0)).1.map fun r =>
        r.map fun l => (l.length, decide (((2 : ℤ), (4 : ℤ)) ∈ l))) =
      some (some (13, true)) := by
  refine ⟨by decide, by decide⟩

/-! ## Association-list, frontier and neighbour lemmas -/

theorem lookupA_updEntry {α : Type} (t : List (Node × α)) (k k' : Node) (v : α) :
    lookupA (updEntry t k v) k' = if k' = k then some v else lookupA t k' := by
  induction t with
  | nil =>
      simp only [updEntry, lookupA]
      by_cases h : k = k'
      · subst h; simp
      · rw [if_neg h, if_neg fun hc => h hc.symm]
  | cons e t ih =>
      obtain ⟨ek, ev⟩ := e
      simp only [updEntry]
      by_cases hek : ek = k
      · subst hek
        simp only [if_pos rfl, lookupA]
        by_cases h : ek = k'
        · subst h; simp
        · rw [if_neg h, if_neg fun hc => h hc.symm, if_neg h]
      · rw [if_neg hek]
        simp only [lookupA, ih]
        by_cases h : ek = k'
        · subst h
          rw [if_pos rfl, if_neg fun hc : ek = k => hek hc, if_pos rfl]
        · rw [if_neg h]
          by_cases hkk : k' = k
          · rw [if_pos hkk, if_pos hkk]
          · rw [if_neg hkk, if_neg hkk, if_neg h]

theorem lookupA_updEntry_self {α : Type} (t : List (Node × α)) (k : Node) (v : α) :
    lookupA (updEntry t k v) k = some v := by
  rw [lookupA_updEntry]; simp

theorem lookupA_updEntry_ne {α : Type} (t : List (Node × α)) {k k' : Node} (v : α)
    (h : k' ≠ k) : lookupA (updEntry t k v) k' = lookupA t k' := by
  rw [lookupA_updEntry]; simp [h]

theorem updEntry_length_ge {α : Type} (t : List (Node × α)) (k : Node) (v : α) :
    t.length ≤ (updEntry t k v).length := by
  induction t with
  | nil => simp [updEntry]
  | cons e t ih =>
      obtain ⟨ek, ev⟩ := e
      by_cases hek : ek = k
      · simp [updEntry, hek]
      · simp only [updEntry, if_neg hek, List.length_cons]
        omega

theorem updEntry_length_le {α : Type} (t : List (Node × α)) (k : Node) (v : α) :
    (updEntry t k v).length ≤ t.length + 1 := by
  induction t with
  | nil => simp [updEntry]
  | cons e t ih =>
      obtain ⟨ek, ev⟩ := e
      by_cases hek : ek = k
      · simp [updEntry, hek]
      · simp only [updEntry, if_neg hek, List.length_cons]
        omega

theorem updEntry_length_notMem {α : Type} {t : List (Node × α)} {k : Node}
    (hk : lookupA t k = none) (v : α) :
    (updEntry t k v).length = t.length + 1 := by
  induction t with
  | nil => simp [updEntry]
  | cons e t ih =>
      obtain ⟨ek, ev⟩ := e
      simp only [lookupA] at hk
      by_cases hek : ek = k
      · rw [if_pos hek] at hk
        cases hk
      · rw [if_neg hek] at hk
        simp [updEntry, hek, ih hk]

theorem minEntry_go_mem (l : List (ℤ × Node)) :
    ∀ acc e, l.foldl
        (fun acc e =>
          match acc with
          | none => some e
          | some m => if entryLt e m then some e else some m)
        acc = some e →
      acc = some e ∨ e ∈ l := by
  induction l with
  | nil => intro acc e h; exact Or.inl h
  | cons a t ih =>
      intro acc e h
      simp only [List.foldl_cons] at h
      rcases ih _ _ h with h' | h'
      · cases acc with
        | none =>
            simp at h'
            right; rw [h']; exact List.mem_cons_self ..
        | some m =>
            simp only at h'
            by_cases hlt : entryLt a m
            · rw [if_pos hlt] at h'
              right
              have : a = e := by injection h'
              rw [this] at *
              exact List.mem_cons_self ..
            · rw [if_neg hlt] at h'
              left; exact h'
      · right; exact List.mem_cons_of_mem _ h'

theorem minEntry_mem {l : List (ℤ × Node)} {e : ℤ × Node}
    (h : minEntry l = some e) : e ∈ l := by
  rcases minEntry_go_mem l none e h with h' | h'
  · cases h'
  · exact h'

theorem mem_removeFirst {l : List (ℤ × Node)} {e x : ℤ × Node}
    (hx : x ∈ removeFirst l e) : x ∈ l := by
  induction l with
  | nil => simp [removeFirst] at hx
  | cons a t ih =>
      by_cases ha : a = e
      · simp [removeFirst, ha] at hx
        exact List.mem_cons_of_mem _ hx
      · simp only [removeFirst, if_neg ha] at hx
        rcases List.mem_cons.mp hx with h | h
        · rw [h]; exact List.mem_cons_self ..
        · exact List.mem_cons_of_mem _ (ih h)

theorem mem_neighborCands_iff {n q : Node} : q ∈ neighborCands n ↔ adjStep n q := by
  constructor
  · intro h
    simp only [neighborCands, List.mem_cons, List.not_mem_nil, or_false] at h
    rcases h with h | h | h | h <;> subst h <;> simp [adjStep]
  · intro h
    unfold adjStep at h
    obtain ⟨x, y⟩ := n
    obtain ⟨a, b⟩ := q
    simp only [neighborCands, List.mem_cons, List.mem_singleton, Prod.mk.injEq]
    simp only at h
    omega

theorem getNeighbors_mem_iff {w h : ℕ} {g : Grid} {n q : Node} :
    q ∈ getNeighbors w h g n ↔
      adjStep n q ∧ NodeIn w h q ∧ cellGet g q ≠ OBSTACLE := by
  unfold getNeighbors
  rw [List.mem_filter]
  rw [mem_neighborCands_iff]
  constructor
  · intro ⟨h1, h2⟩
    simp only [Bool.and_eq_true, bne_iff_ne, ne_eq] at h2
    refine ⟨h1, ?_, h2.2⟩
    have := h2.1
    unfold inBoundsB at this
    exact of_decide_eq_true this
  · intro ⟨h1, h2, h3⟩
    refine ⟨h1, ?_⟩
    simp only [Bool.and_eq_true, bne_iff_ne, ne_eq]
    exact ⟨decide_eq_true h2, h3⟩

theorem adjStep_ne {n q : Node} (h : adjStep n q) : q ≠ n := by
  intro he
  subst he
  unfold adjStep at h
  simp at h

theorem adjStep_symm {n q : Node} (h : adjStep n q) : adjStep q n := by
  unfold adjStep at h ⊢
  omega

/-- The obstacle pattern determines the neighbour lists. -/
theorem getNeighbors_congr {w h : ℕ} {g g' : Grid} (he : obstEquiv g g') (n : Node) :
    getNeighbors w h g n = getNeighbors w h g' n := by
  unfold getNeighbors
  apply List.filter_congr
  intro q _
  have hiff := he q
  by_cases hq : cellGet g q = OBSTACLE
  · have hq' : cellGet g' q = OBSTACLE := hiff.mp hq
    have e1 : (cellGet g q != OBSTACLE) = false := by simp [hq]
    have e2 : (cellGet g' q != OBSTACLE) = false := by simp [hq']
    rw [e1, e2]
  · have hq' : cellGet g' q ≠ OBSTACLE := fun hc => hq (hiff.mpr hc)
    have e1 : (cellGet g q != OBSTACLE) = true := by simpa using hq
    have e2 : (cellGet g' q != OBSTACLE) = true := by simpa using hq'
    rw [e1, e2]

/-! ## Core search invariants (predecessor structure) -/

/-- The structural invariant of the A*/Dijkstra loop state that governs
path reconstruction:
gscore values are non-negative; `gscore[start] = 0`; every `came_from`
edge `n ↦ p` joins gscore-carrying nodes with `gscore[p] + 1 ≤ gscore[n]`
and `n ∈ get_neighbors(p)` shape facts recorded separately; the only
gscore-carrying node without a predecessor is `start`; every frontier
entry's node carries a gscore; and gscore values are bounded by the size
of `came_from` (which bounds the reconstruction walk). -/
def CoreInv (start : Node) (s : SState) : Prop :=
  (∀ n v, lookupA s.gsc n = some v → 0 ≤ v) ∧
  lookupA s.gsc start = some 0 ∧
  (∀ n p, lookupA s.came n = some p →
    ∃ vn vp, lookupA s.gsc n = some vn ∧ lookupA s.gsc p = some vp ∧ vp + 1 ≤ vn) ∧
  (∀ n, lookupA s.gsc n ≠ none → lookupA s.came n = none → n = start) ∧
  (∀ e, e ∈ s.frontier → lookupA s.gsc e.2 ≠ none) ∧
  (∀ n v, lookupA s.gsc n = some v → v ≤ (s.came.length : ℤ))

theorem coreInv_relaxOne {start : Node} {hf : Node → ℤ} {cur : Node} {s : SState}
    (hinv : CoreInv start s) (nbr : Node) (hne : nbr ≠ cur) :
    CoreInv start (relaxOne hf cur s nbr) := by
  obtain ⟨iNN, iA, iB2, iB3, iCg, iVb⟩ := hinv
  unfold relaxOne
  cases hcur : lookupA s.gsc cur with
  | none => exact ⟨iNN, iA, iB2, iB3, iCg, iVb⟩
  | some gc =>
      simp only
      set tg := gc + 1 with htg
      have hgc0 : 0 ≤ gc := iNN _ _ hcur
      by_cases hbet :
          (match lookupA s.gsc nbr with
           | none => true
           | some gn => decide (tg < gn)) = true
      · rw [if_pos hbet]
        -- facts about the improvement
        have himp : ∀ gn, lookupA s.gsc nbr = some gn → tg < gn := by
          intro gn hgn
          rw [hgn] at hbet
          simpa using hbet
        have hnbs : nbr ≠ start := by
          intro he
          subst he
          have := himp 0 iA
          omega
        refine ⟨?_, ?_, ?_, ?_, ?_, ?_⟩
        · intro n v hv
          rw [lookupA_updEntry] at hv
          by_cases hn : n = nbr
          · rw [if_pos hn] at hv
            injection hv with hv
            omega
          · rw [if_neg hn] at hv
            exact iNN _ _ hv
        · rw [lookupA_updEntry, if_neg hnbs.symm]
          exact iA
        · intro n p hp
          rw [lookupA_updEntry] at hp
          by_cases hn : n = nbr
          · rw [if_pos hn] at hp
            injection hp with hp
            subst hp
            subst hn
            refine ⟨tg, gc, ?_, ?_, by omega⟩
            · rw [lookupA_updEntry, if_pos rfl]
            · rw [lookupA_updEntry, if_neg fun hc => hne hc.symm]
              exact hcur
          · rw [if_neg hn] at hp
            obtain ⟨vn, vp, h1, h2, h3⟩ := iB2 _ _ hp
            by_cases hpn : p = nbr
            · subst hpn
              have hlt := himp _ h2
              refine ⟨vn, tg, ?_, ?_, by omega⟩
              · rw [lookupA_updEntry, if_neg hn]; exact h1
              · rw [lookupA_updEntry, if_pos rfl]
            · refine ⟨vn, vp, ?_, ?_, h3⟩
              · rw [lookupA_updEntry, if_neg hn]; exact h1
              · rw [lookupA_updEntry, if_neg hpn]; exact h2
        · intro n hgn hcn
          by_cases hn : n = nbr
          · subst hn
            rw [lookupA_updEntry, if_pos rfl] at hcn
            cases hcn
          · rw [lookupA_updEntry, if_neg hn] at hgn
            rw [lookupA_updEntry, if_neg hn] at hcn
            exact iB3 _ hgn hcn
        · intro e he
          rcases List.mem_cons.mp he with he | he
          · subst he
            rw [lookupA_updEntry, if_pos rfl]
            simp
          · have := iCg _ he
            rw [lookupA_updEntry]
            by_cases hn : e.2 = nbr
            · rw [if_pos hn]; simp
            · rw [if_neg hn]; exact this
        · intro n v hv
          show v ≤ ((updEntry s.came nbr cur).length : ℤ)
          rw [lookupA_updEntry] at hv
          by_cases hn : n = nbr
          · rw [if_pos hn] at hv
            injection hv with hv
            subst hv
            -- tg ≤ new came length
            cases hnb : lookupA s.gsc nbr with
            | none =>
                -- nbr is a fresh key for gsc hence also for came (came ⊆ gsc keys)
                have hcame : lookupA s.came nbr = none := by
                  cases hc : lookupA s.came nbr with
                  | none => rfl
                  | some p =>
                      obtain ⟨vn, vp, h1, _, _⟩ := iB2 _ _ hc
                      rw [hnb] at h1
                      cases h1
                have hvb := iVb _ _ hcur
                have hlen := updEntry_length_notMem hcame cur
                omega
            | some gn =>
                have hlt := himp _ hnb
                have hvb := iVb _ _ hnb
                have hge := updEntry_length_ge s.came nbr cur
                omega
          · rw [if_neg hn] at hv
            have hvb := iVb _ _ hv
            have hge := updEntry_length_ge s.came nbr cur
            omega
      · rw [if_neg hbet]
        exact ⟨iNN, iA, iB2, iB3, iCg, iVb⟩

theorem coreInv_foldRelax {start : Node} {hf : Node → ℤ} {cur : Node} {s : SState}
    (hinv : CoreInv start s) (l : List Node) (hne : ∀ n ∈ l, n ≠ cur) :
    CoreInv start (l.foldl (relaxOne hf cur) s) := by
  induction l generalizing s with
  | nil => exact hinv
  | cons a t ih =>
      simp only [List.foldl_cons]
      exact ih (coreInv_relaxOne hinv a (hne a (List.mem_cons_self ..)))
        fun n hn => hne n (List.mem_cons_of_mem _ hn)

/-- Frontier removal and grid replacement do not disturb `CoreInv`. -/
theorem coreInv_popUpdate {start : Node} {s : SState} (hinv : CoreInv start s)
    (e : ℤ × Node) (g : Grid) :
    CoreInv start { s with frontier := removeFirst s.frontier e, grid := g } := by
  obtain ⟨iNN, iA, iB2, iB3, iCg, iVb⟩ := hinv
  exact ⟨iNN, iA, iB2, iB3, fun e' he' => iCg _ (mem_removeFirst he'), iVb⟩

/-- Walking `came_from` from `cur`: if the walk returns, it ends at a
predecessor-less node, every node on the walk keeps any property `Q`
propagated by `came_from` edges, and the endpoints of the reversed result
are the walk's terminal node and the accumulator's head. -/
theorem reconGo_endpoints {cf : List (Node × Node)} (Q : Node → Prop)
    (hQ : ∀ n p, lookupA cf n = some p → Q n → Q p) :
    ∀ (f : ℕ) (cur : Node) (path l : List Node),
      reconGo f cf cur path = some l →
      Q cur → path ≠ [] → path.getLast? = some cur →
      ∃ r, lookupA cf r = none ∧ Q r ∧ l.head? = some r ∧ l.getLast? = path.head? := by
  intro f
  induction f with
  | zero => intro cur path l hh; cases hh
  | succ f ih =>
      intro cur path l hh hq hne hlast
      simp only [reconGo] at hh
      cases hc : lookupA cf cur with
      | none =>
          rw [hc] at hh
          injection hh with hh
          subst hh
          refine ⟨cur, hc, hq, ?_, ?_⟩
          · rw [List.head?_reverse]; exact hlast
          · rw [List.getLast?_reverse]
      | some p =>
          rw [hc] at hh
          obtain ⟨r, h1, h2, h3, h4⟩ :=
            ih p (path ++ [p]) l hh (hQ _ _ hc hq) (by simp) (by simp)
          refine ⟨r, h1, h2, h3, ?_⟩
          rw [h4]
          cases path with
          | nil => exact absurd rfl hne
          | cons a t => simp

/-- The reconstruction walk terminates within any fuel exceeding the
gscore of its starting node (gscores strictly decrease along
predecessors and stay non-negative). -/
theorem reconGo_terminates {cf : List (Node × Node)} {gsc : List (Node × ℤ)}
    (hB2 : ∀ n p, lookupA cf n = some p →
      ∃ vn vp, lookupA gsc n = some vn ∧ lookupA gsc p = some vp ∧ vp + 1 ≤ vn)
    (hNN : ∀ n v, lookupA gsc n = some v → 0 ≤ v) :
    ∀ (f : ℕ) (cur : Node) (vc : ℤ), lookupA gsc cur = some vc → vc < (f : ℤ) →
      ∀ path, ∃ l, reconGo f cf cur path = some l := by
  intro f
  induction f with
  | zero =>
      intro cur vc hvc hlt
      have := hNN _ _ hvc
      norm_num at hlt
      omega
  | succ f ih =>
      intro cur vc hvc hlt path
      simp only [reconGo]
      cases hc : lookupA cf cur with
      | none => exact ⟨_, rfl⟩
      | some p =>
          obtain ⟨vn, vp, h1, h2, h3⟩ := hB2 _ _ hc
          have hvv : vn = vc := by
            rw [hvc] at h1
            exact (Option.some.inj h1).symm
          refine ih p vp h2 ?_ (path ++ [p])
          omega

/-- C1 for the A*/Dijkstra skeleton: a returned path starts at `start` and
ends at `goal`. -/
theorem searchLoop_endpoints {w h : ℕ} {hf : Node → ℤ} {goal start : Node} :
    ∀ (f : ℕ) (s : SState), CoreInv start s →
      ∀ p g', searchLoop w h hf goal f s = (some (some p), g') →
        p.head? = some start ∧ p.getLast? = some goal := by
  intro f
  induction f with
  | zero =>
      intro s _ p g' hh
      simp [searchLoop] at hh
  | succ f ih =>
      intro s hinv p g' hh
      simp only [searchLoop] at hh
      cases hm : minEntry s.frontier with
      | none => rw [hm] at hh; simp at hh
      | some e =>
          rw [hm] at hh
          simp only at hh
          by_cases hg : e.2 = goal
          · rw [if_pos hg] at hh
            obtain ⟨iNN, iA, iB2, iB3, iCg, iVb⟩ := hinv
            cases hr : reconGo (s.came.length + 1) s.came e.2 [e.2] with
            | none => rw [hr] at hh; simp at hh
            | some l =>
                rw [hr] at hh
                simp only [Prod.mk.injEq] at hh
                have hl : l = p := by
                  have := hh.1
                  injection this with this
                  injection this
                subst hl
                have hgsc : lookupA s.gsc e.2 ≠ none := iCg _ (minEntry_mem hm)
                obtain ⟨r, hr1, hr2, hr3, hr4⟩ :=
                  reconGo_endpoints (fun n => lookupA s.gsc n ≠ none)
                    (fun n q hq hn => by
                      obtain ⟨vn, vp, h1, h2, _⟩ := iB2 _ _ hq
                      rw [h2]; simp)
                    (s.came.length + 1) e.2 [e.2] l hr hgsc (by simp) (by simp)
                have hrs : r = start := iB3 _ hr2 hr1
                subst hrs
                rw [hg] at hr4
                exact ⟨hr3, by simpa using hr4⟩
          · rw [if_neg hg] at hh
            refine ih _ ?_ p g' hh
            apply coreInv_foldRelax
            · exact coreInv_popUpdate hinv e _
            · intro n hn
              exact adjStep_ne (getNeighbors_mem_iff.mp hn).1


/-! ## RRT tree and reconstruction lemmas -/

/-- The only tree key whose parent is `None` is the root `start`. -/
def RootInv (start : Node) (t : RTree) : Prop :=
  ∀ k, lookupA t k = some none → k = start

theorem rootInv_init (start : Node) : RootInv start [(start, none)] := by
  intro k hk
  simp only [lookupA] at hk
  by_cases h : start = k
  · exact h.symm
  · rw [if_neg h] at hk; cases hk

theorem rootInv_updEntry {start : Node} {t : RTree} (hinv : RootInv start t)
    (k : Node) (v : Node) : RootInv start (updEntry t k (some v)) := by
  intro k' hk'
  rw [lookupA_updEntry] at hk'
  by_cases h : k' = k
  · rw [if_pos h] at hk'
    cases hk'
  · rw [if_neg h] at hk'
    exact hinv _ hk'

/-- Walking the RRT tree: a returned path starts (after the final
reversal) at a node with a `None` parent and ends at the accumulator's
head; walked nodes keep any property `Q` propagated by parent edges. -/
theorem rrtRecon_endpoints {t : RTree} (Q : Node → Prop)
    (hQ : ∀ n p, lookupA t n = some (some p) → Q n → Q p) :
    ∀ (f : ℕ) (cur : Node) (path l : List Node),
      rrtRecon f t cur path = some l →
      Q cur → path ≠ [] → path.getLast? = some cur →
      ∃ r, lookupA t r = some none ∧ Q r ∧
        l.head? = some r ∧ l.getLast? = path.head? := by
  intro f
  induction f with
  | zero => intro cur path l hh; cases hh
  | succ f ih =>
      intro cur path l hh hq hne hlast
      simp only [rrtRecon] at hh
      cases hc : lookupA t cur with
      | none => rw [hc] at hh; cases hh
      | some par =>
          rw [hc] at hh
          cases par with
          | none =>
              injection hh with hh
              subst hh
              refine ⟨cur, hc, hq, ?_, ?_⟩
              · rw [List.head?_reverse]; exact hlast
              · rw [List.getLast?_reverse]
          | some p =>
              obtain ⟨r, h1, h2, h3, h4⟩ :=
                ih p (path ++ [p]) l hh (hQ _ _ hc hq) (by simp) (by simp)
              refine ⟨r, h1, h2, h3, ?_⟩
              rw [h4]
              cases path with
              | nil => exact absurd rfl hne
              | cons a tl => simp

/-- Endpoints of a successful RRT growth phase. -/
theorem rrtGrow_endpoints {w h : ℕ} {stepS : ℤ} {start goal : Node}
    {draws : ℕ → Draw} :
    ∀ (iters : ℕ) (g : Grid) (t : RTree) (idx : ℕ), RootInv start t →
      ∀ p g', rrtGrow w h stepS goal draws iters g t idx = .success p g' →
        p.head? = some start ∧ p.getLast? = some goal := by
  intro iters
  induction iters with
  | zero => intro g t idx _ p g' hh; cases hh
  | succ n ih =>
      intro g t idx hinv p g' hh
      simp only [rrtGrow] at hh
      cases hit : rrtIter w h stepS goal draws g t idx with
      | next g1 t1 idx1 =>
          rw [hit] at hh
          refine ih g1 t1 idx1 ?_ p g' hh
          -- the new tree is either unchanged or an `updEntry _ _ (some _)`
          simp only [rrtIter] at hit
          cases hnear : nearestNode (treeKeys t) (drawNode goal (draws idx)) with
          | none =>
              rw [hnear] at hit
              simp only [RStep.next.injEq] at hit
              rw [← hit.2.1]
              exact hinv
          | some near =>
              rw [hnear] at hit
              simp only at hit
              by_cases hfree : (inBoundsB w h (steer near (drawNode goal (draws idx)) stepS) &&
                  (cellGet g (steer near (drawNode goal (draws idx)) stepS) != OBSTACLE)) = true
              · rw [if_pos hfree] at hit
                by_cases hd : dist2 (steer near (drawNode goal (draws idx)) stepS) goal ≤ stepS ^ 2
                · rw [if_pos hd] at hit
                  cases hrec : rrtRecon
                      ((updEntry (updEntry t (steer near (drawNode goal (draws idx)) stepS) (some near))
                          goal (some (steer near (drawNode goal (draws idx)) stepS))).length + 1)
                      (updEntry (updEntry t (steer near (drawNode goal (draws idx)) stepS) (some near))
                          goal (some (steer near (drawNode goal (draws idx)) stepS)))
                      goal [goal] with
                  | some pp => rw [hrec] at hit; cases hit
                  | none => rw [hrec] at hit; cases hit
                · rw [if_neg hd] at hit
                  simp only [RStep.next.injEq] at hit
                  rw [← hit.2.1]
                  exact rootInv_updEntry hinv _ _
              · rw [if_neg (by simpa using hfree)] at hit
                simp only [RStep.next.injEq] at hit
                rw [← hit.2.1]
                exact hinv
      | diverged g1 => rw [hit] at hh; cases hh
      | success pp g1 =>
          rw [hit] at hh
          simp only [RAttempt.success.injEq] at hh
          obtain ⟨hp, hg⟩ := hh
          subst hp
          -- the successful iteration reconstructed from the connected tree
          simp only [rrtIter] at hit
          cases hnear : nearestNode (treeKeys t) (drawNode goal (draws idx)) with
          | none => rw [hnear] at hit; cases hit
          | some near =>
              rw [hnear] at hit
              simp only at hit
              by_cases hfree : (inBoundsB w h (steer near (drawNode goal (draws idx)) stepS) &&
                  (cellGet g (steer near (drawNode goal (draws idx)) stepS) != OBSTACLE)) = true
              · rw [if_pos hfree] at hit
                by_cases hd : dist2 (steer near (drawNode goal (draws idx)) stepS) goal ≤ stepS ^ 2
                · rw [if_pos hd] at hit
                  set t2 := updEntry (updEntry t (steer near (drawNode goal (draws idx)) stepS)
                      (some near)) goal (some (steer near (drawNode goal (draws idx)) stepS)) with ht2
                  cases hrec : rrtRecon (t2.length + 1) t2 goal [goal] with
                  | some pp2 =>
                      rw [hrec] at hit
                      simp only [RStep.success.injEq] at hit
                      have hpeq : pp2 = pp := hit.1
                      have hinv2 : RootInv start t2 := by
                        rw [ht2]
                        exact rootInv_updEntry (rootInv_updEntry hinv _ _) _ _
                      obtain ⟨r, h1, _, h3, h4⟩ :=
                        rrtRecon_endpoints (fun _ => True) (fun _ _ _ _ => trivial)
                          (t2.length + 1) goal [goal] pp2 hrec trivial (by simp) (by simp)
                      rw [← hpeq]
                      exact ⟨by rw [h3, hinv2 _ h1], by simpa using h4⟩
                  | none => rw [hrec] at hit; cases hit
                · rw [if_neg hd] at hit; cases hit
              · rw [if_neg (by simpa using hfree)] at hit; cases hit

/-- Endpoints of a successful `rrtPlan` across attempts. -/
theorem rrtAttempts_endpoints {w h maxIter : ℕ} {stepS : ℤ} {start goal : Node}
    {draws : ℕ → Draw} :
    ∀ (a : ℕ) (g : Grid) (idx : ℕ) (p : List Node) (g' : Grid),
      rrtAttempts w h maxIter stepS start goal draws a g idx = (some (some p), g') →
      p.head? = some start ∧ p.getLast? = some goal := by
  intro a
  induction a with
  | zero => intro g idx p g' hh; simp [rrtAttempts] at hh
  | succ n ih =>
      intro g idx p g' hh
      simp only [rrtAttempts] at hh
      cases hgr : rrtGrow w h stepS goal draws maxIter g [(start, none)] idx with
      | success pp g1 =>
          rw [hgr] at hh
          simp only [Prod.mk.injEq] at hh
          have : pp = p := by
            have := hh.1
            injection this with this
            injection this
          subst this
          exact rrtGrow_endpoints maxIter g [(start, none)] idx
            (rootInv_init start) pp g1 hgr
      | diverged g1 => rw [hgr] at hh; simp at hh
      | exhausted g1 idx1 =>
          rw [hgr] at hh
          exact ih _ _ _ _ hh

/-- The initial search state of `AStarPlanner.plan` / `DijkstraPlanner.plan`
satisfies the core invariant. -/
theorem coreInv_init (g : Grid) (k0 : ℤ) (start : Node) :
    CoreInv start ⟨g, [(k0, start)], [], [(start, 0)]⟩ := by
  refine ⟨?_, ?_, ?_, ?_, ?_, ?_⟩
  · intro n v hv
    simp only [lookupA] at hv
    by_cases h : start = n
    · rw [if_pos h] at hv
      injection hv with hv
      omega
    · rw [if_neg h] at hv; cases hv
  · simp [lookupA]
  · intro n p hp
    simp [lookupA] at hp
  · intro n hg _
    simp only [lookupA] at hg
    by_cases h : start = n
    · exact h.symm
    · rw [if_neg h] at hg; exact absurd rfl hg
  · intro e he
    simp only [List.mem_singleton] at he
    subst he
    simp [lookupA]
  · intro n v hv
    simp only [lookupA] at hv
    by_cases h : start = n
    · rw [if_pos h] at hv
      injection hv with hv
      simp [← hv]
    · rw [if_neg h] at hv; cases hv

/-- C1: for every grid and every planner (A*, Dijkstra, RRT), if `plan`
returns a path rather than absent, the path's first node equals `start`
and its last node equals `goal`. -/
theorem c1_plan_endpoints (cm : Costmap) (s t : Node) :
    (∀ fuel p, (astarPlan fuel cm s t).1 = some (some p) →
      p.head? = some s ∧ p.getLast? = some t) ∧
    (∀ fuel p, (dijkstraPlan fuel cm s t).1 = some (some p) →
      p.head? = some s ∧ p.getLast? = some t) ∧
    (∀ maxIter stepS draws p,
      (rrtPlan maxIter stepS draws cm s t).1 = some (some p) →
      p.head? = some s ∧ p.getLast? = some t) := by
  refine ⟨?_, ?_, ?_⟩
  · intro fuel p h1
    have h2 : astarPlan fuel cm s t = (some (some p), (astarPlan fuel cm s t).2) := by
      rw [← h1]
    exact searchLoop_endpoints fuel _ (coreInv_init cm.grid _ s) p _ h2
  · intro fuel p h1
    have h2 : dijkstraPlan fuel cm s t =
        (some (some p), (dijkstraPlan fuel cm s t).2) := by
      rw [← h1]
    exact searchLoop_endpoints fuel _ (coreInv_init cm.grid _ s) p _ h2
  · intro maxIter stepS draws p h1
    have h2 : rrtPlan maxIter stepS draws cm s t =
        (some (some p), (rrtPlan maxIter stepS draws cm s t).2) := by
      rw [← h1]
    exact rrtAttempts_endpoints 50 (rrtMarkEndpoints cm) 0 p _ h2

/-- C1 witness: concrete runs of all three planners whose returned paths
realise the endpoint property. -/
theorem c1_plan_endpoints_witness :
    (([((1 : ℤ), (1 : ℤ))]).head? = some ((1 : ℤ), (1 : ℤ)) ∧
      ([((1 : ℤ), (1 : ℤ))]).getLast? = some ((1 : ℤ), (1 : ℤ))) ∧
    (([((1 : ℤ), (1 : ℤ))]).head? = some ((1 : ℤ), (1 : ℤ)) ∧
      ([((1 : ℤ), (1 : ℤ))]).getLast? = some ((1 : ℤ), (1 : ℤ))) ∧
    (([((0 : ℤ), (0 : ℤ)), ((1 : ℤ), (0 : ℤ)), ((2 : ℤ), (0 : ℤ))]).head? =
        some ((0 : ℤ), (0 : ℤ)) ∧
      ([((0 : ℤ), (0 : ℤ)), ((1 : ℤ), (0 : ℤ)), ((2 : ℤ), (0 : ℤ))]).getLast? =
        some ((2 : ℤ), (0 : ℤ))) :=
  ⟨(c1_plan_endpoints cm33 (1, 1) (1, 1)).1 10 [(1, 1)] (by decide),
   (c1_plan_endpoints cm33 (1, 1) (1, 1)).2.1 10 [(1, 1)] (by decide),
   (c1_plan_endpoints cm41 (0, 0) (2, 0)).2.2 5 5 draws10
     [(0, 0), (1, 0), (2, 0)] (by decide)⟩

/-! ## Validity of returned A*/Dijkstra paths (C2) -/

/-- Search-state validity relative to the call-time grid `g₀`: the mutated
grid keeps `g₀`'s obstacle pattern, every gscore-carrying node is a
traversable cell of `g₀`, and every `came_from` edge is one unit step. -/
def ValidInv (w h : ℕ) (g₀ : Grid) (s : SState) : Prop :=
  obstEquiv g₀ s.grid ∧
  (∀ n v, lookupA s.gsc n = some v → validN w h g₀ n) ∧
  (∀ n p, lookupA s.came n = some p → adjStep p n)

theorem validInv_relaxOne {w h : ℕ} {g₀ : Grid} {hf : Node → ℤ} {cur : Node}
    {s : SState} (hinv : ValidInv w h g₀ s) {nbr : Node}
    (hnb : validN w h g₀ nbr) (hadj : adjStep cur nbr) :
    ValidInv w h g₀ (relaxOne hf cur s nbr) := by
  obtain ⟨iE, iV, iAd⟩ := hinv
  unfold relaxOne
  cases hcur : lookupA s.gsc cur with
  | none => exact ⟨iE, iV, iAd⟩
  | some gc =>
      simp only
      by_cases hbet :
          (match lookupA s.gsc nbr with
           | none => true
           | some gn => decide (gc + 1 < gn)) = true
      · rw [if_pos hbet]
        refine ⟨iE, ?_, ?_⟩
        · intro n v hv
          rw [lookupA_updEntry] at hv
          by_cases hn : n = nbr
          · subst hn; exact hnb
          · rw [if_neg hn] at hv
            exact iV _ _ hv
        · intro n p hp
          rw [lookupA_updEntry] at hp
          by_cases hn : n = nbr
          · subst hn
            rw [if_pos rfl] at hp
            injection hp with hp
            subst hp
            exact hadj
          · rw [if_neg hn] at hp
            exact iAd _ _ hp
      · rw [if_neg hbet]
        exact ⟨iE, iV, iAd⟩

theorem validInv_foldRelax {w h : ℕ} {g₀ : Grid} {hf : Node → ℤ} {cur : Node}
    {s : SState} (hinv : ValidInv w h g₀ s) (l : List Node)
    (hl : ∀ n ∈ l, validN w h g₀ n ∧ adjStep cur n) :
    ValidInv w h g₀ (l.foldl (relaxOne hf cur) s) := by
  induction l generalizing s with
  | nil => exact hinv
  | cons a t ih =>
      simp only [List.foldl_cons]
      exact ih
        (validInv_relaxOne hinv (hl a (List.mem_cons_self ..)).1
          (hl a (List.mem_cons_self ..)).2)
        fun n hn => hl n (List.mem_cons_of_mem _ hn)

/-- Combined walk lemma: membership of a propagated property and the step
chain of the reconstructed (reversed) path. -/
theorem reconGo_valid {cf : List (Node × Node)} (Q : Node → Prop)
    (S : Node → Node → Prop)
    (hQ : ∀ n p, lookupA cf n = some p → Q n → Q p)
    (hS : ∀ n p, lookupA cf n = some p → S n p) :
    ∀ (f : ℕ) (cur : Node) (path l : List Node),
      reconGo f cf cur path = some l →
      Q cur → (∀ x ∈ path, Q x) → path.getLast? = some cur →
      List.Chain' S path →
      (∀ x ∈ l, Q x) ∧ List.Chain' (flip S) l := by
  intro f
  induction f with
  | zero => intro cur path l hh; cases hh
  | succ f ih =>
      intro cur path l hh hq hqs hlast hchain
      simp only [reconGo] at hh
      cases hc : lookupA cf cur with
      | none =>
          rw [hc] at hh
          injection hh with hh
          subst hh
          refine ⟨fun x hx => hqs x (List.mem_reverse.mp hx), ?_⟩
          rw [List.chain'_reverse]
          simpa using hchain
      | some p =>
          rw [hc] at hh
          refine ih p (path ++ [p]) l hh (hQ _ _ hc hq) ?_ (by simp) ?_
          · intro x hx
            rcases List.mem_append.mp hx with hx | hx
            · exact hqs x hx
            · rw [List.mem_singleton.mp hx]
              exact hQ _ _ hc hq
          · rw [List.chain'_append]
            refine ⟨hchain, List.chain'_singleton _, ?_⟩
            intro x hx y hy
            simp only [List.head?_cons, Option.mem_some_iff] at hy
            rw [hlast] at hx
            rw [Option.mem_some_iff] at hx
            subst hx
            subst hy
            exact hS _ _ hc

/-- C2 for the A*/Dijkstra skeleton: a returned path is a 4-connected
chain over in-bounds non-obstacle cells of the call-time grid. -/
theorem searchLoop_valid {w h : ℕ} {hf : Node → ℤ} {goal start : Node} {g₀ : Grid} :
    ∀ (f : ℕ) (s : SState), CoreInv start s → ValidInv w h g₀ s →
      ∀ p g', searchLoop w h hf goal f s = (some (some p), g') →
        List.Chain' adjStep p ∧ ∀ x ∈ p, validN w h g₀ x := by
  intro f
  induction f with
  | zero =>
      intro s _ _ p g' hh
      simp [searchLoop] at hh
  | succ f ih =>
      intro s hcore hvalid p g' hh
      simp only [searchLoop] at hh
      cases hm : minEntry s.frontier with
      | none => rw [hm] at hh; simp at hh
      | some e =>
          rw [hm] at hh
          simp only at hh
          obtain ⟨iNN, iA, iB2, iB3, iCg, iVb⟩ := hcore
          obtain ⟨iE, iV, iAd⟩ := hvalid
          by_cases hg : e.2 = goal
          · rw [if_pos hg] at hh
            cases hr : reconGo (s.came.length + 1) s.came e.2 [e.2] with
            | none => rw [hr] at hh; simp at hh
            | some l =>
                rw [hr] at hh
                simp only [Prod.mk.injEq] at hh
                have hl : l = p := by
                  have := hh.1
                  injection this with this
                  injection this
                subst hl
                have hgsc : lookupA s.gsc e.2 ≠ none := iCg _ (minEntry_mem hm)
                have hmain :=
                  reconGo_valid (fun n => lookupA s.gsc n ≠ none)
                    (fun n q => adjStep q n)
                    (fun n q hq hn => by
                      obtain ⟨vn, vp, h1, h2, _⟩ := iB2 _ _ hq
                      rw [h2]; simp)
                    (fun n q hq => iAd _ _ hq)
                    (s.came.length + 1) e.2 [e.2] l hr hgsc
                    (by intro x hx; rw [List.mem_singleton.mp hx]; exact hgsc)
                    (by simp) (List.chain'_singleton _)
                refine ⟨?_, ?_⟩
                · have := hmain.2
                  have hfs : (flip fun n q => adjStep q n) = adjStep := by
                    funext a b; rfl
                  rwa [hfs] at this
                · intro x hx
                  have hq := hmain.1 x hx
                  cases hqq : lookupA s.gsc x with
                  | none => exact absurd hqq hq
                  | some v => exact iV _ _ hqq
          · rw [if_neg hg] at hh
            -- the recursive state keeps both invariants
            have hcur_gsc : lookupA s.gsc e.2 ≠ none := iCg _ (minEntry_mem hm)
            have hcur_valid : validN w h g₀ e.2 := by
              cases hqq : lookupA s.gsc e.2 with
              | none => exact absurd hqq hcur_gsc
              | some v => exact iV _ _ hqq
            -- obstacle pattern of the marked grid
            have hobs2 : obstEquiv g₀
                (if cellGet s.grid e.2 = START ∨ cellGet s.grid e.2 = GOAL then s.grid
                 else cellSet s.grid e.2 VISITED) := by
              by_cases hsg : cellGet s.grid e.2 = START ∨ cellGet s.grid e.2 = GOAL
              · rw [if_pos hsg]; exact iE
              · rw [if_neg hsg]
                refine obstEquiv_trans iE (obstEquiv_cellSet (by decide) ?_)
                intro hc
                exact hcur_valid.2 ((iE e.2).mpr hc)
            refine ih _ ?_ ?_ p g' hh
            · apply coreInv_foldRelax
              · exact coreInv_popUpdate ⟨iNN, iA, iB2, iB3, iCg, iVb⟩ e _
              · intro n hn
                exact adjStep_ne (getNeighbors_mem_iff.mp hn).1
            · apply validInv_foldRelax
              · exact ⟨hobs2, iV, iAd⟩
              · intro n hn
                obtain ⟨ha, hb, hc⟩ := getNeighbors_mem_iff.mp hn
                refine ⟨⟨hb, ?_⟩, ha⟩
                intro hob
                exact hc ((hobs2 n).mp hob)

/-! ## Steer arithmetic bounds (C2, RRT) -/

theorem isqrtAux_spec (n : ℕ) :
    ∀ (f lo hi : ℕ), lo * lo ≤ n → n < (hi + 1) * (hi + 1) → lo ≤ hi →
      hi - lo < f →
      isqrtAux n f lo hi * isqrtAux n f lo hi ≤ n ∧
        n < (isqrtAux n f lo hi + 1) * (isqrtAux n f lo hi + 1) := by
  intro f
  induction f with
  | zero => intro lo hi _ _ _ hf; omega
  | succ f ih =>
      intro lo hi hlo hhi hle hf
      simp only [isqrtAux]
      by_cases hstop : hi ≤ lo
      · rw [if_pos hstop]
        have : lo = hi := le_antisymm hle hstop
        subst this
        exact ⟨hlo, hhi⟩
      · rw [if_neg hstop]
        have hlt : lo < hi := lt_of_le_of_ne hle (fun hc => hstop (le_of_eq hc.symm))
        have hmid1 : lo < (lo + hi + 1) / 2 := by omega
        have hmid2 : (lo + hi + 1) / 2 ≤ hi := by omega
        by_cases hsq : (lo + hi + 1) / 2 * ((lo + hi + 1) / 2) ≤ n
        · rw [if_pos hsq]
          exact ih _ _ hsq hhi hmid2 (by omega)
        · rw [if_neg hsq]
          refine ih _ _ hlo ?_ (by omega) (by omega)
          have : (lo + hi + 1) / 2 - 1 + 1 = (lo + hi + 1) / 2 := by omega
          rw [this]
          omega

theorem isqrt_eq_sqrt (n : ℕ) : isqrt n = Nat.sqrt n := by
  obtain ⟨h1, h2⟩ := isqrtAux_spec n (n + 1) 0 n (by omega) (by nlinarith) (by omega) (by omega)
  unfold isqrt
  set r := isqrtAux n (n + 1) 0 n with hr
  have hub : Nat.sqrt n < r + 1 := by
    rw [Nat.sqrt_lt]
    exact h2
  have hlb : r ≤ Nat.sqrt n := by
    rw [Nat.le_sqrt]
    exact h1
  omega

theorem rheRat_close (q : ℚ) : |(rheRat q : ℚ) - q| ≤ 1 / 2 := by
  unfold rheRat
  have h0 : (0 : ℚ) ≤ q - ⌊q⌋ := by
    have := Int.floor_le q
    linarith
  have h1 : q - ⌊q⌋ < 1 := by
    have := Int.lt_floor_add_one q
    linarith
  by_cases hlt : q - (⌊q⌋ : ℚ) < 1 / 2
  · rw [if_pos hlt]
    rw [abs_le]
    constructor <;> linarith
  · rw [if_neg hlt]
    by_cases hgt : (1 : ℚ) / 2 < q - (⌊q⌋ : ℚ)
    · rw [if_pos hgt]
      rw [abs_le]
      push_cast
      constructor <;> linarith
    · rw [if_neg hgt]
      have heq : q - (⌊q⌋ : ℚ) = 1 / 2 := le_antisymm (not_lt.mp hgt) (not_lt.mp hlt)
      by_cases hev : ⌊q⌋ % 2 = 0
      · rw [if_pos hev]
        rw [abs_le]
        constructor <;> linarith
      · rw [if_neg hev]
        rw [abs_le]
        push_cast
        constructor <;> linarith

theorem floorMulSqrt_bound {dx stepS : ℤ} {m : ℕ} (hstep : 0 ≤ stepS)
    (hdx : dx ^ 2 ≤ (m : ℤ)) :
    -(2 * stepS * (m : ℤ)) - 1 ≤ floorMulSqrt (2 * dx * stepS) m ∧
      floorMulSqrt (2 * dx * stepS) m ≤ 2 * stepS * (m : ℤ) := by
  set C := 2 * dx * stepS with hC
  have hkey : ∀ k : ℕ, (k : ℤ) = C ^ 2 * m → (Nat.sqrt k : ℤ) ≤ 2 * stepS * m := by
    intro k hk
    have h2 : ((2 * stepS.toNat * m : ℕ) : ℤ) = 2 * stepS * m := by
      push_cast
      rw [Int.toNat_of_nonneg hstep]
    have hle : (k : ℤ) ≤ (((2 * stepS.toNat * m : ℕ) : ℤ)) ^ 2 := by
      have hc2 : C ^ 2 ≤ 4 * stepS ^ 2 * m := by
        rw [hC]
        nlinarith [sq_nonneg stepS, sq_nonneg dx]
      rw [hk, h2]
      nlinarith [Int.natCast_nonneg m, sq_nonneg stepS, hc2]
    have hsq : k ≤ (2 * stepS.toNat * m) ^ 2 := by exact_mod_cast hle
    have hmono := Nat.sqrt_le_sqrt hsq
    rw [Nat.sqrt_eq'] at hmono
    calc (Nat.sqrt k : ℤ) ≤ ((2 * stepS.toNat * m : ℕ) : ℤ) := by exact_mod_cast hmono
      _ = 2 * stepS * m := h2
  unfold floorMulSqrt
  simp only [isqrt_eq_sqrt]
  by_cases hc : 0 ≤ C
  · rw [if_pos hc]
    have hcast : ((C.toNat ^ 2 * m : ℕ) : ℤ) = C ^ 2 * m := by
      push_cast
      rw [Int.toNat_of_nonneg hc]
    have hub := hkey _ hcast
    have hnn : (0 : ℤ) ≤ (Nat.sqrt (C.toNat ^ 2 * m) : ℤ) := by positivity
    constructor
    · nlinarith [Int.natCast_nonneg m]
    · exact hub
  · rw [if_neg hc]
    have hcast : ((C.natAbs ^ 2 * m : ℕ) : ℤ) = C ^ 2 * m := by
      push_cast
      rw [sq_abs]
    have hub := hkey _ hcast
    set k := C.natAbs ^ 2 * m with hk
    by_cases hsq : Nat.sqrt k * Nat.sqrt k = k
    · rw [if_pos hsq]
      constructor
      · omega
      · have : (0 : ℤ) ≤ (Nat.sqrt k : ℤ) := by positivity
        omega
    · rw [if_neg hsq]
      constructor
      · omega
      · have : (0 : ℤ) ≤ (Nat.sqrt k : ℤ) := by positivity
        omega

theorem steerCoord_bound {x1 dx stepS : ℤ} {m : ℕ} (hstep : 0 ≤ stepS)
    (hdx : dx ^ 2 ≤ (m : ℤ)) (hm : stepS ^ 2 < (m : ℤ)) :
    |steerCoord x1 dx stepS m - x1| ≤ stepS := by
  have hm1 : 1 ≤ (m : ℤ) := by nlinarith [sq_nonneg stepS]
  unfold steerCoord
  simp only [isqrt_eq_sqrt]
  by_cases hsq : Nat.sqrt m * Nat.sqrt m = m
  · rw [if_pos hsq]
    set s := Nat.sqrt m with hs
    have hs0 : s ≠ 0 := by
      intro h0
      rw [h0] at hsq
      simp at hsq
      omega
    have hs1 : 1 ≤ (s : ℤ) := by
      have : 1 ≤ s := Nat.one_le_iff_ne_zero.mpr hs0
      exact_mod_cast this
    have hss : (s : ℤ) * (s : ℤ) = (m : ℤ) := by exact_mod_cast hsq
    -- |dx| ≤ s
    have hdxs : |dx| ≤ (s : ℤ) := by
      have h2 : dx ^ 2 ≤ (s : ℤ) ^ 2 := by
        nlinarith [hss, hdx]
      exact abs_le.mpr (abs_le_of_sq_le_sq' h2 (by omega))
    set q := (x1 : ℚ) + ((dx * stepS : ℤ) : ℚ) / (s : ℚ) with hq
    have hsQ : (0 : ℚ) < (s : ℚ) := by
      have : (0 : ℤ) < (s : ℤ) := by omega
      exact_mod_cast this
    have hqx : |q - x1| ≤ (stepS : ℚ) := by
      rw [hq]
      have : (x1 : ℚ) + ((dx * stepS : ℤ) : ℚ) / (s : ℚ) - x1 = ((dx * stepS : ℤ) : ℚ) / (s : ℚ) := by ring
      rw [this, abs_div]
      rw [div_le_iff₀ (by simpa using hsQ)]
      have h1 : |((dx * stepS : ℤ) : ℚ)| = (|dx| : ℚ) * (stepS : ℚ) := by
        push_cast
        rw [abs_mul, abs_of_nonneg (by exact_mod_cast hstep : (0:ℚ) ≤ (stepS : ℚ))]
      rw [h1]
      have h2 : (|dx| : ℚ) ≤ (s : ℚ) := by exact_mod_cast hdxs
      have h3 : (0 : ℚ) ≤ (stepS : ℚ) := by exact_mod_cast hstep
      have h4 : |(s : ℚ)| = (s : ℚ) := abs_of_pos hsQ
      rw [h4]
      nlinarith
    have hclose := rheRat_close q
    have hfull : |((rheRat q : ℤ) : ℚ) - x1| ≤ (stepS : ℚ) + 1 / 2 := by
      have := abs_sub_le ((rheRat q : ℤ) : ℚ) q (x1 : ℚ)
      calc |((rheRat q : ℤ) : ℚ) - x1| ≤ |((rheRat q : ℤ) : ℚ) - q| + |q - x1| := this
        _ ≤ 1 / 2 + (stepS : ℚ) := by
            have h5 : |((rheRat q : ℤ) : ℚ) - q| ≤ 1 / 2 := hclose
            linarith
        _ = (stepS : ℚ) + 1 / 2 := by ring
    -- integer conclusion
    have h6 : ((|rheRat q - x1| : ℤ) : ℚ) ≤ (stepS : ℚ) + 1 / 2 := by
      rw [Int.cast_abs]
      push_cast
      push_cast at hfull
      exact hfull
    have h7 : (2 * |rheRat q - x1| : ℤ) ≤ 2 * stepS + 1 := by
      have : ((2 * |rheRat q - x1| : ℤ) : ℚ) ≤ ((2 * stepS + 1 : ℤ) : ℚ) := by
        push_cast
        push_cast at h6
        linarith
      exact_mod_cast this
    omega
  · rw [if_neg hsq]
    have hdiv := floorMulSqrt_bound hstep hdx
    set F := floorMulSqrt (2 * dx * stepS) m with hF
    set G := Int.fdiv ((m : ℤ) + F) (2 * m) with hG
    have h2m : (0 : ℤ) < 2 * m := by omega
    have hGe : G = ((m : ℤ) + F) / (2 * m) := by
      rw [hG]
      exact Int.fdiv_eq_ediv _ (by omega)
    have hup : G ≤ stepS := by
      by_contra hcon
      push_neg at hcon
      have h1 : stepS + 1 ≤ G := hcon
      rw [hGe] at h1
      have h2 := (Int.le_ediv_iff_mul_le h2m).mp h1
      nlinarith [hdiv.2]
    have hlo : -stepS ≤ G := by
      rw [hGe]
      rw [Int.le_ediv_iff_mul_le h2m]
      nlinarith [hdiv.1]
    have : x1 + G - x1 = G := by ring
    rw [this, abs_le]
    exact ⟨hlo, hup⟩

/-- Per-coordinate bound of `_steer`: both coordinates of the steered node
are within `step_size` of the source node. -/
theorem steer_stepOk {a b : Node} {stepS : ℤ} (hstep : 0 ≤ stepS) :
    stepOk stepS a (steer a b stepS) := by
  unfold steer
  by_cases hd : dist2 a b ≤ stepS ^ 2
  · rw [if_pos hd]
    unfold dist2 at hd
    constructor
    · exact abs_le.mpr (abs_le_of_sq_le_sq' (by nlinarith [sq_nonneg (a.2 - b.2)]) hstep)
    · exact abs_le.mpr (abs_le_of_sq_le_sq' (by nlinarith [sq_nonneg (a.1 - b.1)]) hstep)
  · rw [if_neg hd]
    push_neg at hd
    have hnn : (0 : ℤ) ≤ dist2 a b := by
      unfold dist2
      positivity
    have hcast : ((dist2 a b).toNat : ℤ) = dist2 a b := Int.toNat_of_nonneg hnn
    have hmx : (b.1 - a.1) ^ 2 ≤ ((dist2 a b).toNat : ℤ) := by
      rw [hcast]
      unfold dist2
      nlinarith [sq_nonneg (a.2 - b.2), sq_nonneg (a.1 - b.1), sq_nonneg (b.1 - a.1), sq_nonneg (b.2 - a.2)]
    have hmy : (b.2 - a.2) ^ 2 ≤ ((dist2 a b).toNat : ℤ) := by
      rw [hcast]
      unfold dist2
      nlinarith [sq_nonneg (a.1 - b.1)]
    have hms : stepS ^ 2 < ((dist2 a b).toNat : ℤ) := by
      rw [hcast]; exact hd
    have h1 := @steerCoord_bound a.1 (b.1 - a.1) stepS (dist2 a b).toNat hstep hmx hms
    have h2 := @steerCoord_bound a.2 (b.2 - a.2) stepS (dist2 a b).toNat hstep hmy hms
    constructor
    · rw [abs_sub_comm]
      exact h1
    · rw [abs_sub_comm]
      exact h2

/-- Within-step targets give a within-step hop (`dist ≤ step` on squared
integers implies the per-coordinate bound). -/
theorem dist2_stepOk {a b : Node} {stepS : ℤ} (hstep : 0 ≤ stepS)
    (hd : dist2 a b ≤ stepS ^ 2) : stepOk stepS a b := by
  unfold dist2 at hd
  constructor
  · exact abs_le.mpr (abs_le_of_sq_le_sq' (by nlinarith [sq_nonneg (a.2 - b.2)]) hstep)
  · exact abs_le.mpr (abs_le_of_sq_le_sq' (by nlinarith [sq_nonneg (a.1 - b.1)]) hstep)

/-! ## RRT path validity (C2) -/

theorem inBoundsB_iff {w h : ℕ} {p : Node} : inBoundsB w h p = true ↔ NodeIn w h p := by
  unfold inBoundsB NodeIn
  exact ⟨of_decide_eq_true, decide_eq_true⟩

theorem rowGet_map {f : ℕ → ℕ} (hf0 : f 0 = 0) (r : List ℕ) (i : ℕ) :
    rowGet (List.map f r) i = f (rowGet r i) := by
  induction r generalizing i with
  | nil => simp [rowGet, hf0]
  | cons a t ih =>
      cases i with
      | zero => rfl
      | succ n => simpa [rowGet] using ih n

theorem gridRow_map {f : List ℕ → List ℕ} (hfn : f [] = []) (g : Grid) (i : ℕ) :
    gridRow (List.map f g) i = f (gridRow g i) := by
  induction g generalizing i with
  | nil => simp [gridRow, hfn]
  | cons a t ih =>
      cases i with
      | zero => rfl
      | succ n => simpa [gridRow] using ih n

theorem cellGet_clearVisited (g : Grid) (p : Node) :
    cellGet (clearVisited g) p =
      if cellGet g p = VISITED then UNKNOWN else cellGet g p := by
  unfold clearVisited cellGet
  rw [gridRow_map (by simp) g]
  rw [rowGet_map (by decide)]

theorem obstEquiv_clearVisited (g : Grid) : obstEquiv g (clearVisited g) := by
  intro p
  rw [cellGet_clearVisited]
  by_cases hv : cellGet g p = VISITED
  · rw [if_pos hv, hv]
    decide
  · rw [if_neg hv]

theorem obstEquiv_markVisited {g : Grid} {p : Node}
    (hp : cellGet g p ≠ OBSTACLE) : obstEquiv g (markVisited g p) := by
  unfold markVisited
  by_cases hsg : cellGet g p = START ∨ cellGet g p = GOAL
  · rw [if_pos hsg]
    exact obstEquiv_refl g
  · rw [if_neg hsg]
    exact obstEquiv_cellSet (by decide) hp

theorem nearestNode_go_mem (ks : List Node) (r : Node) :
    ∀ acc n, ks.foldl
        (fun acc n =>
          match acc with
          | none => some n
          | some m => if dist2 n r < dist2 m r then some n else some m)
        acc = some n →
      acc = some n ∨ n ∈ ks := by
  induction ks with
  | nil => intro acc n hn; exact Or.inl hn
  | cons a t ih =>
      intro acc n hn
      simp only [List.foldl_cons] at hn
      rcases ih _ _ hn with h' | h'
      · cases acc with
        | none =>
            simp only at h'
            right
            rw [Option.some.inj h']
            exact List.mem_cons_self ..
        | some m =>
            simp only at h'
            by_cases hlt : dist2 a r < dist2 m r
            · rw [if_pos hlt] at h'
              right
              rw [Option.some.inj h']
              exact List.mem_cons_self ..
            · rw [if_neg hlt] at h'
              left; exact h'
      · right; exact List.mem_cons_of_mem _ h'

theorem nearestNode_mem {ks : List Node} {r n : Node}
    (hn : nearestNode ks r = some n) : n ∈ ks := by
  rcases nearestNode_go_mem ks r none n hn with h | h
  · cases h
  · exact h

theorem lookupA_ne_none_of_mem_keys {t : RTree} {k : Node}
    (hk : k ∈ treeKeys t) : lookupA t k ≠ none := by
  induction t with
  | nil => simp [treeKeys] at hk
  | cons e tl ih =>
      obtain ⟨ek, ev⟩ := e
      simp only [treeKeys, List.map_cons, List.mem_cons] at hk
      simp only [lookupA]
      by_cases he : ek = k
      · rw [if_pos he]; simp
      · rw [if_neg he]
        rcases hk with hk | hk
        · exact absurd hk.symm he
        · exact ih (by simpa [treeKeys] using hk)

/-- RRT tree invariant: every key is a traversable cell of the call-time
grid, and every parent edge is a within-step hop to a key of the tree. -/
def TreeInv (w h : ℕ) (g₀ : Grid) (stepS : ℤ) (t : RTree) : Prop :=
  (∀ k v, lookupA t k = some v → validN w h g₀ k) ∧
  (∀ k p, lookupA t k = some (some p) → stepOk stepS p k ∧ lookupA t p ≠ none)

theorem treeInv_init {w h : ℕ} {g₀ : Grid} {stepS : ℤ} {start : Node}
    (hstart : validN w h g₀ start) : TreeInv w h g₀ stepS [(start, none)] := by
  constructor
  · intro k v hk
    simp only [lookupA] at hk
    by_cases he : start = k
    · subst he; exact hstart
    · rw [if_neg he] at hk; cases hk
  · intro k p hk
    simp only [lookupA] at hk
    by_cases he : start = k
    · rw [if_pos he] at hk; cases hk
    · rw [if_neg he] at hk; cases hk

theorem treeInv_updEntry {w h : ℕ} {g₀ : Grid} {stepS : ℤ} {t : RTree}
    (hinv : TreeInv w h g₀ stepS t) {k p : Node} (hk : validN w h g₀ k)
    (hp : stepOk stepS p k) (hpk : lookupA t p ≠ none ∨ p = k) :
    TreeInv w h g₀ stepS (updEntry t k (some p)) := by
  obtain ⟨hkeys, hedges⟩ := hinv
  constructor
  · intro k' v hk'
    rw [lookupA_updEntry] at hk'
    by_cases he : k' = k
    · subst he; exact hk
    · rw [if_neg he] at hk'
      exact hkeys _ _ hk'
  · intro k' p' hk'
    rw [lookupA_updEntry] at hk'
    by_cases he : k' = k
    · rw [if_pos he] at hk'
      have hpp : p' = p := by
        injection hk' with h1
        injection h1 with h2
        exact h2.symm
      subst hpp
      subst he
      refine ⟨hp, ?_⟩
      rw [lookupA_updEntry]
      by_cases hpe : p' = k'
      · rw [if_pos hpe]; simp
      · rw [if_neg hpe]
        rcases hpk with hh | hh
        · exact hh
        · exact absurd hh hpe
    · rw [if_neg he] at hk'
      obtain ⟨h1, h2⟩ := hedges _ _ hk'
      refine ⟨h1, ?_⟩
      rw [lookupA_updEntry]
      by_cases hpe : p' = k
      · rw [if_pos hpe]; simp
      · rw [if_neg hpe]; exact h2

/-- Walking the RRT tree, carrying a propagated property and the chain of
an edge relation (mirror of `reconGo_valid`). -/
theorem rrtRecon_valid {t : RTree} (Q : Node → Prop) (S : Node → Node → Prop)
    (hQ : ∀ n p, lookupA t n = some (some p) → Q n → Q p)
    (hS : ∀ n p, lookupA t n = some (some p) → S n p) :
    ∀ (f : ℕ) (cur : Node) (path l : List Node),
      rrtRecon f t cur path = some l →
      Q cur → (∀ x ∈ path, Q x) → path.getLast? = some cur →
      List.Chain' S path →
      (∀ x ∈ l, Q x) ∧ List.Chain' (flip S) l := by
  intro f
  induction f with
  | zero => intro cur path l hh; cases hh
  | succ f ih =>
      intro cur path l hh hq hqs hlast hchain
      simp only [rrtRecon] at hh
      cases hc : lookupA t cur with
      | none => rw [hc] at hh; cases hh
      | some par =>
          rw [hc] at hh
          cases par with
          | none =>
              injection hh with hh
              subst hh
              refine ⟨fun x hx => hqs x (List.mem_reverse.mp hx), ?_⟩
              rw [List.chain'_reverse]
              simpa using hchain
          | some p =>
              refine ih p (path ++ [p]) l hh (hQ _ _ hc hq) ?_ (by simp) ?_
              · intro x hx
                rcases List.mem_append.mp hx with hx | hx
                · exact hqs x hx
                · rw [List.mem_singleton.mp hx]
                  exact hQ _ _ hc hq
              · rw [List.chain'_append]
                refine ⟨hchain, List.chain'_singleton _, ?_⟩
                intro x hx y hy
                simp only [List.head?_cons, Option.mem_some_iff] at hy
                rw [hlast] at hx
                rw [Option.mem_some_iff] at hx
                subst hx
                subst hy
                exact hS _ _ hc

/-- Exhaustive description of one RRT growth step, used by every
invariant proof below. -/
theorem rrtIter_shape (w h : ℕ) (stepS : ℤ) (goal : Node) (draws : ℕ → Draw)
    (g : Grid) (t : RTree) (idx : ℕ) :
    rrtIter w h stepS goal draws g t idx = .next g t (idx + 1) ∨
    ∃ near newN, nearestNode (treeKeys t) (drawNode goal (draws idx)) = some near ∧
      newN = steer near (drawNode goal (draws idx)) stepS ∧
      NodeIn w h newN ∧ cellGet g newN ≠ OBSTACLE ∧
      ((¬ dist2 newN goal ≤ stepS ^ 2 ∧
        rrtIter w h stepS goal draws g t idx =
          .next (markVisited g newN) (updEntry t newN (some near)) (idx + 1)) ∨
       (dist2 newN goal ≤ stepS ^ 2 ∧
        ((∃ path, rrtRecon ((updEntry (updEntry t newN (some near)) goal (some newN)).length + 1)
              (updEntry (updEntry t newN (some near)) goal (some newN)) goal [goal] = some path ∧
            rrtIter w h stepS goal draws g t idx =
              .success path (markPathFree (markVisited g newN) path)) ∨
         (rrtRecon ((updEntry (updEntry t newN (some near)) goal (some newN)).length + 1)
              (updEntry (updEntry t newN (some near)) goal (some newN)) goal [goal] = none ∧
            rrtIter w h stepS goal draws g t idx = .diverged (markVisited g newN))))) := by
  cases hnear : nearestNode (treeKeys t) (drawNode goal (draws idx)) with
  | none =>
      left
      simp only [rrtIter]
      rw [hnear]
  | some near =>
      by_cases hfree : (inBoundsB w h (steer near (drawNode goal (draws idx)) stepS) &&
          (cellGet g (steer near (drawNode goal (draws idx)) stepS) != OBSTACLE)) = true
      · right
        have hin : NodeIn w h (steer near (drawNode goal (draws idx)) stepS) := by
          have := (Bool.and_eq_true .. ▸ hfree).1
          exact inBoundsB_iff.mp this
        have hob : cellGet g (steer near (drawNode goal (draws idx)) stepS) ≠ OBSTACLE := by
          have := (Bool.and_eq_true .. ▸ hfree).2
          simpa using this
        refine ⟨near, steer near (drawNode goal (draws idx)) stepS,
          rfl, rfl, hin, hob, ?_⟩
        by_cases hd : dist2 (steer near (drawNode goal (draws idx)) stepS) goal ≤ stepS ^ 2
        · right
          refine ⟨hd, ?_⟩
          cases hrec : rrtRecon
              ((updEntry (updEntry t (steer near (drawNode goal (draws idx)) stepS) (some near))
                  goal (some (steer near (drawNode goal (draws idx)) stepS))).length + 1)
              (updEntry (updEntry t (steer near (drawNode goal (draws idx)) stepS) (some near))
                  goal (some (steer near (drawNode goal (draws idx)) stepS)))
              goal [goal] with
          | some path =>
              left
              refine ⟨path, rfl, ?_⟩
              simp only [rrtIter]
              rw [hnear]
              simp only [if_pos hfree, if_pos hd, hrec]
          | none =>
              right
              refine ⟨rfl, ?_⟩
              simp only [rrtIter]
              rw [hnear]
              simp only [if_pos hfree, if_pos hd, hrec]
        · left
          refine ⟨hd, ?_⟩
          simp only [rrtIter]
          rw [hnear]
          simp only [if_pos hfree, if_neg hd]
      · left
        simp only [rrtIter]
        rw [hnear]
        simp only [if_neg hfree]

theorem rrtGrow_validPath {w h : ℕ} {g₀ : Grid} {stepS : ℤ} {goal : Node}
    {draws : ℕ → Draw} (hstep : 0 ≤ stepS) (hgoal : validN w h g₀ goal) :
    ∀ (iters : ℕ) (g : Grid) (t : RTree) (idx : ℕ),
      obstEquiv g₀ g → TreeInv w h g₀ stepS t →
      ∀ p g', rrtGrow w h stepS goal draws iters g t idx = .success p g' →
        List.Chain' (stepOk stepS) p ∧ ∀ x ∈ p, validN w h g₀ x := by
  intro iters
  induction iters with
  | zero => intro g t idx _ _ p g' hh; cases hh
  | succ n ih =>
      intro g t idx hobs htree p g' hh
      simp only [rrtGrow] at hh
      rcases rrtIter_shape w h stepS goal draws g t idx with hsh |
        ⟨near, newN, hnear, hnew, hin, hob, hrest⟩
      · rw [hsh] at hh
        exact ih g t (idx + 1) hobs htree p g' hh
      · have hnewvalid : validN w h g₀ newN :=
          ⟨hin, fun hc => hob ((hobs newN).mp hc)⟩
        have hnearmem : lookupA t near ≠ none :=
          lookupA_ne_none_of_mem_keys (nearestNode_mem hnear)
        have htree1 : TreeInv w h g₀ stepS (updEntry t newN (some near)) :=
          treeInv_updEntry htree hnewvalid
            (by rw [hnew]; exact steer_stepOk hstep) (Or.inl hnearmem)
        rcases hrest with ⟨hd, hiter⟩ | ⟨hd, hsucc | hdiv⟩
        · rw [hiter] at hh
          refine ih _ _ _ ?_ htree1 p g' hh
          exact obstEquiv_trans hobs (obstEquiv_markVisited hob)
        · obtain ⟨path, hrec, hiter⟩ := hsucc
          rw [hiter] at hh
          simp only at hh
          injection hh with h1 h2
          subst h1
          set t2 := updEntry (updEntry t newN (some near)) goal (some newN) with ht2
          have htree2 : TreeInv w h g₀ stepS t2 := by
            rw [ht2]
            refine treeInv_updEntry htree1 hgoal (dist2_stepOk hstep hd) (Or.inl ?_)
            rw [lookupA_updEntry_self]
            simp
          have hQgoal : lookupA t2 goal ≠ none := by
            rw [ht2, lookupA_updEntry_self]
            simp
          have hmain :=
            rrtRecon_valid (t := t2) (fun k => lookupA t2 k ≠ none)
              (fun k q => stepOk stepS q k)
              (fun k q hk _ => (htree2.2 _ _ hk).2)
              (fun k q hk => (htree2.2 _ _ hk).1)
              (t2.length + 1) goal [goal] path hrec hQgoal
              (by intro x hx; rw [List.mem_singleton.mp hx]; exact hQgoal)
              (by simp) (List.chain'_singleton _)
          refine ⟨?_, ?_⟩
          · have := hmain.2
            have hfs : (flip fun k q => stepOk stepS q k) = stepOk stepS := by
              funext a b; rfl
            rwa [hfs] at this
          · intro x hx
            have hq := hmain.1 x hx
            cases hqq : lookupA t2 x with
            | none => exact absurd hqq hq
            | some v => exact htree2.1 _ _ hqq
        · obtain ⟨hrec, hiter⟩ := hdiv
          rw [hiter] at hh
          simp only at hh
          cases hh

/-- `rrtGrow` never alters the obstacle pattern on the way to an
`exhausted` attempt. -/
theorem rrtGrow_exhausted_obstEquiv {w h : ℕ} {stepS : ℤ} {goal : Node}
    {draws : ℕ → Draw} :
    ∀ (iters : ℕ) (g : Grid) (t : RTree) (idx : ℕ) (g1 : Grid) (idx1 : ℕ),
      rrtGrow w h stepS goal draws iters g t idx = .exhausted g1 idx1 →
      obstEquiv g g1 := by
  intro iters
  induction iters with
  | zero =>
      intro g t idx g1 idx1 hh
      simp only [rrtGrow] at hh
      cases hh
      exact obstEquiv_refl g
  | succ n ih =>
      intro g t idx g1 idx1 hh
      simp only [rrtGrow] at hh
      rcases rrtIter_shape w h stepS goal draws g t idx with hsh |
        ⟨near, newN, hnear, hnew, hin, hob, hrest⟩
      · rw [hsh] at hh
        exact ih _ _ _ _ _ hh
      · rcases hrest with ⟨hd, hiter⟩ | ⟨hd, hsucc | hdiv⟩
        · rw [hiter] at hh
          exact obstEquiv_trans (obstEquiv_markVisited hob) (ih _ _ _ _ _ hh)
        · obtain ⟨path, hrec, hiter⟩ := hsucc
          rw [hiter] at hh
          simp only at hh
          cases hh
        · obtain ⟨hrec, hiter⟩ := hdiv
          rw [hiter] at hh
          simp only at hh
          cases hh

theorem rrtAttempts_validPath {w h maxIter : ℕ} {g₀ : Grid} {stepS : ℤ}
    {start goal : Node} {draws : ℕ → Draw} (hstep : 0 ≤ stepS)
    (hstart : validN w h g₀ start) (hgoal : validN w h g₀ goal) :
    ∀ (a : ℕ) (g : Grid) (idx : ℕ), obstEquiv g₀ g →
      ∀ p g', rrtAttempts w h maxIter stepS start goal draws a g idx =
          (some (some p), g') →
        List.Chain' (stepOk stepS) p ∧ ∀ x ∈ p, validN w h g₀ x := by
  intro a
  induction a with
  | zero => intro g idx _ p g' hh; simp [rrtAttempts] at hh
  | succ n ih =>
      intro g idx hobs p g' hh
      simp only [rrtAttempts] at hh
      cases hgr : rrtGrow w h stepS goal draws maxIter g [(start, none)] idx with
      | success pp g1 =>
          rw [hgr] at hh
          simp only [Prod.mk.injEq] at hh
          have hpp : pp = p := by
            have := hh.1
            injection this with this
            injection this
          subst hpp
          exact rrtGrow_validPath hstep hgoal maxIter g [(start, none)] idx hobs
            (treeInv_init hstart) pp g1 hgr
      | diverged g1 => rw [hgr] at hh; simp at hh
      | exhausted g1 idx1 =>
          rw [hgr] at hh
          refine ih (clearVisited g1) idx1 ?_ p g' hh
          exact obstEquiv_trans
            (obstEquiv_trans hobs (rrtGrow_exhausted_obstEquiv maxIter g _ idx g1 idx1 hgr))
            (obstEquiv_clearVisited g1)

/-- Re-marking the stored endpoints keeps the obstacle pattern when the
markers sit on non-obstacle in-bounds cells. -/
theorem obstEquiv_markEndpoints {cm : Costmap} (hms : MarksSafe cm) :
    obstEquiv cm.grid (rrtMarkEndpoints cm) := by
  unfold rrtMarkEndpoints
  have hg1 : obstEquiv cm.grid
      (match cm.start with | some s => cellSet cm.grid s START | none => cm.grid) := by
    cases hs : cm.start with
    | none => exact obstEquiv_refl _
    | some s =>
        simp only
        exact obstEquiv_cellSet (by decide) (hms.1 s hs).2
  cases hgl : cm.goal with
  | none => simpa [hgl] using hg1
  | some q =>
      simp only [hgl]
      refine obstEquiv_trans hg1 (obstEquiv_cellSet (by decide) ?_)
      intro hc
      exact (hms.2 q hgl).2 ((hg1 q).mpr hc)

/-- The initial A*/Dijkstra state is valid when `start` is a traversable
cell. -/
theorem validInv_init {w h : ℕ} {g₀ : Grid} {start : Node}
    (hs : validN w h g₀ start) (k0 : ℤ) :
    ValidInv w h g₀ ⟨g₀, [(k0, start)], [], [(start, 0)]⟩ := by
  refine ⟨obstEquiv_refl g₀, ?_, ?_⟩
  · intro n v hv
    simp only [lookupA] at hv
    by_cases hn : start = n
    · subst hn; exact hs
    · rw [if_neg hn] at hv; cases hv
  · intro n p hp
    simp [lookupA] at hp

/-- C2 counterexample: the claim as stated fails twice on the code.
First, RRT's `_steer` rounds each coordinate after moving `step_size`
along the direction vector, so a returned edge can exceed `step_size` in
Euclidean length: with `step_size = 5`, start `(0,0)`, goal `(8,4)` and a
sample at `(7,7)`, the returned path `[(0,0), (4,4), (8,4)]` has first
edge of squared length 32 > 25.  Second, `plan` never checks the start
cell, so A* invoked with the start on an OBSTACLE cell returns a path
containing that obstacle node. -/
theorem c2_counterexample :
    ((rrtPlan 5 5 draws77 cm9 (0, 0) (8, 4)).1 =
        some (some [(0, 0), (4, 4), (8, 4)]) ∧
      dist2 (0, 0) (4, 4) > 5 ^ 2) ∧
    ((astarPlan 10 cmObsStart (0, 0) (1, 0)).1 = some (some [(0, 0), (1, 0)]) ∧
      cellGet cmObsStart.grid (0, 0) = OBSTACLE) := by
  refine ⟨⟨by decide, by decide⟩, ⟨by decide, by decide⟩⟩

/-- C2 (amended): provided `start` and `goal` are in-bounds non-OBSTACLE
cells of the call-time grid (the documented `plan` precondition), every
returned path visits only in-bounds non-OBSTACLE cells of the call-time
grid; under A* and Dijkstra consecutive nodes differ by exactly one unit
step along a single axis; under RRT (additionally assuming
`step_size ≥ 0` and that the stored start/goal markers, when set, sit on
in-bounds non-OBSTACLE cells) consecutive nodes differ by at most
`step_size` in each coordinate — the rounding in `_steer` can push the
Euclidean length of an edge slightly above `step_size`, so the original
Euclidean bound is weakened to this per-coordinate bound. -/
theorem c2_path_steps_and_obstacle_freedom (cm : Costmap) (s t : Node)
    (hs : validN cm.width cm.height cm.grid s)
    (ht : validN cm.width cm.height cm.grid t) :
    (∀ fuel p, (astarPlan fuel cm s t).1 = some (some p) →
      List.Chain' adjStep p ∧ ∀ x ∈ p, validN cm.width cm.height cm.grid x) ∧
    (∀ fuel p, (dijkstraPlan fuel cm s t).1 = some (some p) →
      List.Chain' adjStep p ∧ ∀ x ∈ p, validN cm.width cm.height cm.grid x) ∧
    (∀ maxIter stepS draws p, 0 ≤ stepS → MarksSafe cm →
      (rrtPlan maxIter stepS draws cm s t).1 = some (some p) →
      List.Chain' (stepOk stepS) p ∧ ∀ x ∈ p, validN cm.width cm.height cm.grid x) := by
  refine ⟨?_, ?_, ?_⟩
  · intro fuel p h1
    have h2 : astarPlan fuel cm s t = (some (some p), (astarPlan fuel cm s t).2) := by
      rw [← h1]
    exact searchLoop_valid fuel _ (coreInv_init cm.grid _ s) (validInv_init hs _) p _ h2
  · intro fuel p h1
    have h2 : dijkstraPlan fuel cm s t =
        (some (some p), (dijkstraPlan fuel cm s t).2) := by
      rw [← h1]
    exact searchLoop_valid fuel _ (coreInv_init cm.grid _ s) (validInv_init hs _) p _ h2
  · intro maxIter stepS draws p hstep hms h1
    have h2 : rrtPlan maxIter stepS draws cm s t =
        (some (some p), (rrtPlan maxIter stepS draws cm s t).2) := by
      rw [← h1]
    exact rrtAttempts_validPath hstep hs ht 50 (rrtMarkEndpoints cm) 0
      (obstEquiv_markEndpoints hms) p _ h2

/-- C2 witness: a concrete run of each planner on the 4×1 strip realises
the amended properties. -/
theorem c2_path_steps_witness :
    (List.Chain' adjStep [((0 : ℤ), (0 : ℤ)), (1, 0), (2, 0)] ∧
      ∀ x ∈ [((0 : ℤ), (0 : ℤ)), (1, 0), (2, 0)], validN cm41.width cm41.height cm41.grid x) ∧
    (List.Chain' (stepOk 5) [((0 : ℤ), (0 : ℤ)), (1, 0), (2, 0)] ∧
      ∀ x ∈ [((0 : ℤ), (0 : ℤ)), (1, 0), (2, 0)], validN cm41.width cm41.height cm41.grid x) := by
  have hs : validN cm41.width cm41.height cm41.grid (0, 0) := by decide
  have ht : validN cm41.width cm41.height cm41.grid (2, 0) := by decide
  have hms : MarksSafe cm41 := by
    unfold MarksSafe
    constructor <;> intro a ha <;> simp [cm41] at ha
  have h1 := (c2_path_steps_and_obstacle_freedom cm41 (0, 0) (2, 0) hs ht).1 20
    [(0, 0), (1, 0), (2, 0)] (by decide)
  have h2 := (c2_path_steps_and_obstacle_freedom cm41 (0, 0) (2, 0) hs ht).2.2 5 5 draws10
    [(0, 0), (1, 0), (2, 0)] (by decide) hms (by decide)
  exact ⟨h1, h2⟩

/-! ## The start = goal boundary case (C5) -/

/-- With `start == goal` the first popped entry is the goal itself and
the reconstruction is immediate: both A* and Dijkstra return `[start]`
without touching the grid. -/
theorem searchLoop_self_goal (w h : ℕ) (hf : Node → ℤ) (s : Node) (g : Grid)
    (k0 : ℤ) :
    ∀ fuel, 1 ≤ fuel →
      searchLoop w h hf s fuel ⟨g, [(k0, s)], [], [(s, 0)]⟩ = (some (some [s]), g) := by
  intro fuel hfuel
  cases fuel with
  | zero => omega
  | succ f =>
      simp only [searchLoop]
      have hmin : minEntry [(k0, s)] = some (k0, s) := by
        simp [minEntry]
      rw [hmin]
      simp only [if_pos rfl]
      simp [reconGo, lookupA]

/-- If no tree key has a `None` parent, the reconstruction walk can never
terminate (every lookup either recurses or, for a missing key, raises). -/
theorem rrtRecon_none_of_no_root {t : RTree}
    (hnr : ∀ k, lookupA t k ≠ some none) :
    ∀ (f : ℕ) (cur : Node) (path : List Node), rrtRecon f t cur path = none := by
  intro f
  induction f with
  | zero => intro cur path; rfl
  | succ f ih =>
      intro cur path
      simp only [rrtRecon]
      cases hc : lookupA t cur with
      | none => rfl
      | some par =>
          cases par with
          | none => exact absurd hc (hnr cur)
          | some p => exact ih p (path ++ [p])

/-- With `start == goal`, no RRT growth phase can ever succeed: the
goal-connection overwrites the root's `None` parent before the walk, so
the reconstruction cycles forever. -/
theorem rrtGrow_self_goal_no_success {w h : ℕ} {stepS : ℤ} {start : Node}
    {draws : ℕ → Draw} :
    ∀ (iters : ℕ) (g : Grid) (t : RTree) (idx : ℕ), RootInv start t →
      ∀ p g', rrtGrow w h stepS start draws iters g t idx ≠ .success p g' := by
  intro iters
  induction iters with
  | zero => intro g t idx _ p g' hh; cases hh
  | succ n ih =>
      intro g t idx hinv p g' hh
      simp only [rrtGrow] at hh
      rcases rrtIter_shape w h stepS start draws g t idx with hsh |
        ⟨near, newN, hnear, hnew, hin, hob, hrest⟩
      · rw [hsh] at hh
        exact ih g t (idx + 1) hinv p g' hh
      · rcases hrest with ⟨hd, hiter⟩ | ⟨hd, hsucc | hdiv⟩
        · rw [hiter] at hh
          exact ih _ _ _ (rootInv_updEntry hinv _ _) p g' hh
        · obtain ⟨path, hrec, hiter⟩ := hsucc
          -- the connected tree has no None-parent key at all
          have hnr : ∀ k,
              lookupA (updEntry (updEntry t newN (some near)) start (some newN)) k ≠
                some none := by
            intro k hk
            rw [lookupA_updEntry] at hk
            by_cases hks : k = start
            · rw [if_pos hks] at hk
              cases hk
            · rw [if_neg hks] at hk
              rw [lookupA_updEntry] at hk
              by_cases hkn : k = newN
              · rw [if_pos hkn] at hk
                cases hk
              · rw [if_neg hkn] at hk
                exact hks (hinv _ hk)
          rw [rrtRecon_none_of_no_root hnr] at hrec
          cases hrec
        · obtain ⟨hrec, hiter⟩ := hdiv
          rw [hiter] at hh
          simp only at hh
          cases hh

/-- C5's RRT half at the attempts level. -/
theorem rrtAttempts_self_goal {w h maxIter : ℕ} {stepS : ℤ} {start : Node}
    {draws : ℕ → Draw} :
    ∀ (a : ℕ) (g : Grid) (idx : ℕ) (p : List Node),
      (rrtAttempts w h maxIter stepS start start draws a g idx).1 ≠
        some (some p) := by
  intro a
  induction a with
  | zero => intro g idx p hh; simp [rrtAttempts] at hh
  | succ n ih =>
      intro g idx p hh
      simp only [rrtAttempts] at hh
      cases hgr : rrtGrow w h stepS start draws maxIter g [(start, none)] idx with
      | success pp g1 =>
          exact rrtGrow_self_goal_no_success maxIter g [(start, none)] idx
            (rootInv_init start) pp g1 hgr
      | diverged g1 => rw [hgr] at hh; simp at hh
      | exhausted g1 idx1 =>
          rw [hgr] at hh
          exact ih _ _ p hh

/-- C5 counterexample: on a 3×3 all-UNKNOWN grid with `s = (1,1)`,
`RRTPlanner.plan(s, s)` does not return the path `[s]`: the first
goal-biased draw steers onto `s` itself, the goal connection makes the
root its own parent, and `_reconstruct_path`'s `while` loop never
terminates (modelled as the fuel-independent `none`; the
`rrt_plan_self_goal_never_returns` half of the amended theorem shows
this holds for every fuel and every draw stream). -/
theorem c5_counterexample :
    (rrtPlan 1 5 drawsGoal cm33 (1, 1) (1, 1)).1 = none ∧
      (none : Option (Option (List Node))) ≠
        some (some [((1 : ℤ), (1 : ℤ))]) := by
  refine ⟨by decide, by decide⟩

/-- C5 (amended): for every node `s`, `plan(s, s)` returns the
single-node path `[s]` under A* and Dijkstra (leaving the grid
untouched); under RRT, `plan(s, s)` never returns a path at all — every
run either fails with `None` after its 50 attempts or hangs in
`_reconstruct_path`. -/
theorem rrt_plan_self_goal_never_returns (cm : Costmap) (s : Node) :
    (∀ fuel, 1 ≤ fuel → astarPlan fuel cm s s = (some (some [s]), cm.grid)) ∧
    (∀ fuel, 1 ≤ fuel → dijkstraPlan fuel cm s s = (some (some [s]), cm.grid)) ∧
    (∀ maxIter stepS draws p,
      (rrtPlan maxIter stepS draws cm s s).1 ≠ some (some p)) := by
  refine ⟨?_, ?_, ?_⟩
  · intro fuel hfuel
    exact searchLoop_self_goal cm.width cm.height _ s cm.grid _ fuel hfuel
  · intro fuel hfuel
    exact searchLoop_self_goal cm.width cm.height _ s cm.grid _ fuel hfuel
  · intro maxIter stepS draws p
    exact rrtAttempts_self_goal 50 (rrtMarkEndpoints cm) 0 p

/-- C5 witness: the amended behaviour at concrete inputs. -/
theorem rrt_plan_self_goal_witness :
    astarPlan 5 cm33 (1, 1) (1, 1) = (some (some [(1, 1)]), cm33.grid) ∧
    dijkstraPlan 5 cm33 (1, 1) (1, 1) = (some (some [(1, 1)]), cm33.grid) ∧
    (rrtPlan 1 5 drawsGoal cm33 (1, 1) (1, 1)).1 ≠
      some (some [((1 : ℤ), (1 : ℤ))]) :=
  ⟨(rrt_plan_self_goal_never_returns cm33 (1, 1)).1 5 (by decide),
   (rrt_plan_self_goal_never_returns cm33 (1, 1)).2.1 5 (by decide),
   (rrt_plan_self_goal_never_returns cm33 (1, 1)).2.2 1 5 drawsGoal [(1, 1)]⟩

/-! ## Cell-level write effects of the planners (C6, C8, C10) -/

theorem deltaRrt_refl (g : Grid) : deltaRrt g g :=
  ⟨fun x => Or.inl rfl, fun _ => ⟨id, id⟩⟩

theorem deltaRrt_trans {a b c : Grid} (h1 : deltaRrt a b) (h2 : deltaRrt b c) :
    deltaRrt a c := by
  obtain ⟨d1, s1⟩ := h1
  obtain ⟨d2, s2⟩ := h2
  constructor
  · intro x
    rcases d2 x with h | h | h | h
    · rw [h]; exact d1 x
    · right; left; exact h
    · right; right; left; exact h
    · right; right; right; exact h
  · intro x
    exact ⟨fun hs => (s2 x).1 ((s1 x).1 hs), fun hs => (s2 x).2 ((s1 x).2 hs)⟩

theorem deltaRrt_markVisited (g : Grid) (p : Node) :
    deltaRrt g (markVisited g p) := by
  unfold markVisited
  by_cases hsg : cellGet g p = START ∨ cellGet g p = GOAL
  · rw [if_pos hsg]; exact deltaRrt_refl g
  · rw [if_neg hsg]
    push_neg at hsg
    constructor
    · intro x
      rw [cellGet_cellSet]
      by_cases hc : x.2.toNat = p.2.toNat ∧ x.1.toNat = p.1.toNat ∧
          p.2.toNat < g.length ∧ p.1.toNat < (gridRow g p.2.toNat).length
      · rw [if_pos hc]
        right; left; rfl
      · rw [if_neg hc]
        left; rfl
    · intro x
      rw [cellGet_cellSet]
      by_cases hc : x.2.toNat = p.2.toNat ∧ x.1.toNat = p.1.toNat ∧
          p.2.toNat < g.length ∧ p.1.toNat < (gridRow g p.2.toNat).length
      · rw [if_pos hc]
        have hx : cellGet g x = cellGet g p := by
          unfold cellGet
          rw [hc.1, hc.2.1]
        constructor
        · intro hs; rw [hx] at hs; exact absurd hs hsg.1
        · intro hs; rw [hx] at hs; exact absurd hs hsg.2
      · rw [if_neg hc]
        exact ⟨id, id⟩

theorem deltaRrt_clearVisited (g : Grid) : deltaRrt g (clearVisited g) := by
  constructor
  · intro x
    rw [cellGet_clearVisited]
    by_cases hv : cellGet g x = VISITED
    · rw [if_pos hv]
      right; right; left; rfl
    · rw [if_neg hv]
      left; rfl
  · intro x
    rw [cellGet_clearVisited]
    constructor
    · intro hs
      rw [hs]
      simp [START, VISITED]
    · intro hs
      rw [hs]
      simp [GOAL, VISITED]

theorem deltaRrt_markPathFree (g : Grid) (path : List Node) :
    deltaRrt g (markPathFree g path) := by
  induction path generalizing g with
  | nil => exact deltaRrt_refl g
  | cons a t ih =>
      have hstep : deltaRrt g
          (if cellGet g a = START ∨ cellGet g a = GOAL then g
           else cellSet g a FREE) := by
        by_cases hsg : cellGet g a = START ∨ cellGet g a = GOAL
        · rw [if_pos hsg]; exact deltaRrt_refl g
        · rw [if_neg hsg]
          push_neg at hsg
          constructor
          · intro x
            rw [cellGet_cellSet]
            by_cases hc : x.2.toNat = a.2.toNat ∧ x.1.toNat = a.1.toNat ∧
                a.2.toNat < g.length ∧ a.1.toNat < (gridRow g a.2.toNat).length
            · rw [if_pos hc]
              right; right; right; rfl
            · rw [if_neg hc]
              left; rfl
          · intro x
            rw [cellGet_cellSet]
            by_cases hc : x.2.toNat = a.2.toNat ∧ x.1.toNat = a.1.toNat ∧
                a.2.toNat < g.length ∧ a.1.toNat < (gridRow g a.2.toNat).length
            · rw [if_pos hc]
              have hx : cellGet g x = cellGet g a := by
                unfold cellGet
                rw [hc.1, hc.2.1]
              constructor
              · intro hs; rw [hx] at hs; exact absurd hs hsg.1
              · intro hs; rw [hx] at hs; exact absurd hs hsg.2
            · rw [if_neg hc]
              exact ⟨id, id⟩
      refine deltaRrt_trans hstep ?_
      simpa [markPathFree] using ih (g := if cellGet g a = START ∨ cellGet g a = GOAL then g
        else cellSet g a FREE)

/-- Every exit of the growth loop obeys the RRT write discipline. -/
theorem rrtGrow_delta {w h : ℕ} {stepS : ℤ} {goal : Node} {draws : ℕ → Draw} :
    ∀ (iters : ℕ) (g : Grid) (t : RTree) (idx : ℕ),
      deltaRrt g (raGrid (rrtGrow w h stepS goal draws iters g t idx)) := by
  intro iters
  induction iters with
  | zero => intro g t idx; exact deltaRrt_refl g
  | succ n ih =>
      intro g t idx
      simp only [rrtGrow]
      rcases rrtIter_shape w h stepS goal draws g t idx with hsh |
        ⟨near, newN, hnear, hnew, hin, hob, hrest⟩
      · rw [hsh]
        exact ih g t (idx + 1)
      · rcases hrest with ⟨hd, hiter⟩ | ⟨hd, hsucc | hdiv⟩
        · rw [hiter]
          exact deltaRrt_trans (deltaRrt_markVisited g newN) (ih _ _ _)
        · obtain ⟨path, hrec, hiter⟩ := hsucc
          rw [hiter]
          simp only [raGrid]
          exact deltaRrt_trans (deltaRrt_markVisited g newN)
            (deltaRrt_markPathFree _ path)
        · obtain ⟨hrec, hiter⟩ := hdiv
          rw [hiter]
          simp only [raGrid]
          exact deltaRrt_markVisited g newN

/-- The attempt loop likewise. -/
theorem rrtAttempts_delta {w h maxIter : ℕ} {stepS : ℤ} {start goal : Node}
    {draws : ℕ → Draw} :
    ∀ (a : ℕ) (g : Grid) (idx : ℕ),
      deltaRrt g (rrtAttempts w h maxIter stepS start goal draws a g idx).2 := by
  intro a
  induction a with
  | zero => intro g idx; exact deltaRrt_refl g
  | succ n ih =>
      intro g idx
      simp only [rrtAttempts]
      cases hgr : rrtGrow w h stepS goal draws maxIter g [(start, none)] idx with
      | success pp g1 =>
          have hthis := @rrtGrow_delta w h stepS goal draws maxIter g [(start, none)] idx
          rw [hgr] at hthis
          exact hthis
      | diverged g1 =>
          have hthis := @rrtGrow_delta w h stepS goal draws maxIter g [(start, none)] idx
          rw [hgr] at hthis
          exact hthis
      | exhausted g1 idx1 =>
          have hg1 := @rrtGrow_delta w h stepS goal draws maxIter g [(start, none)] idx
          rw [hgr] at hg1
          exact deltaRrt_trans (deltaRrt_trans hg1 (deltaRrt_clearVisited g1))
            (ih (clearVisited g1) idx1)

/-- A*/Dijkstra write discipline, threaded relative to the call-time
grid. -/
theorem searchLoop_delta {w h : ℕ} {hf : Node → ℤ} {goal : Node} {gBase : Grid} :
    ∀ (fuel : ℕ) (s : SState), deltaSearch gBase s.grid →
      deltaSearch gBase (searchLoop w h hf goal fuel s).2 := by
  intro fuel
  induction fuel with
  | zero => intro s hds; exact hds
  | succ f ih =>
      intro s hds
      simp only [searchLoop]
      cases hm : minEntry s.frontier with
      | none => exact hds
      | some e =>
          simp only
          by_cases hg : e.2 = goal
          · rw [if_pos hg]
            cases hr : reconGo (s.came.length + 1) s.came e.2 [e.2] with
            | none => exact hds
            | some l => exact hds
          · rw [if_neg hg]
            refine ih _ ?_
            by_cases hsg : cellGet s.grid e.2 = START ∨ cellGet s.grid e.2 = GOAL
            · rw [if_pos hsg]
              -- grid unchanged by marking; relaxations never touch the grid
              have : ∀ (l : List Node) (s2 : SState),
                  (l.foldl (relaxOne hf e.2) s2).grid = s2.grid := by
                intro l
                induction l with
                | nil => intro s2; rfl
                | cons a tl ihl =>
                    intro s2
                    rw [List.foldl_cons, ihl]
                    unfold relaxOne
                    cases lookupA s2.gsc e.2 with
                    | none => rfl
                    | some gc =>
                        simp only
                        by_cases hb : (match lookupA s2.gsc a with
                          | none => true
                          | some gn => decide (gc + 1 < gn)) = true
                        · rw [if_pos hb]
                        · rw [if_neg hb]
              rw [this]
              exact hds
            · rw [if_neg hsg]
              push_neg at hsg
              have : ∀ (l : List Node) (s2 : SState),
                  (l.foldl (relaxOne hf e.2) s2).grid = s2.grid := by
                intro l
                induction l with
                | nil => intro s2; rfl
                | cons a tl ihl =>
                    intro s2
                    rw [List.foldl_cons, ihl]
                    unfold relaxOne
                    cases lookupA s2.gsc e.2 with
                    | none => rfl
                    | some gc =>
                        simp only
                        by_cases hb : (match lookupA s2.gsc a with
                          | none => true
                          | some gn => decide (gc + 1 < gn)) = true
                        · rw [if_pos hb]
                        · rw [if_neg hb]
              rw [this]
              intro x
              rw [cellGet_cellSet]
              by_cases hc : x.2.toNat = e.2.2.toNat ∧ x.1.toNat = e.2.1.toNat ∧
                  e.2.2.toNat < s.grid.length ∧
                  e.2.1.toNat < (gridRow s.grid e.2.2.toNat).length
              · rw [if_pos hc]
                right
                have hx : cellGet s.grid x = cellGet s.grid e.2 := by
                  unfold cellGet
                  rw [hc.1, hc.2.1]
                refine ⟨rfl, ?_, ?_⟩
                · intro hb
                  rcases hds x with hdd | hdd
                  · rw [← hdd, hx] at hb
                    exact hsg.1 hb
                  · exact hdd.2.1 hb
                · intro hb
                  rcases hds x with hdd | hdd
                  · rw [← hdd, hx] at hb
                    exact hsg.2 hb
                  · exact hdd.2.2 hb
              · rw [if_neg hc]
                exact hds x

/-- Cell-level effect of the endpoint re-marking at the top of
`RRTPlanner.plan`. -/
theorem rrtMarkEndpoints_delta (cm : Costmap) (x : Node) :
    cellGet (rrtMarkEndpoints cm) x = cellGet cm.grid x ∨
    (cellGet (rrtMarkEndpoints cm) x = START ∧
      ∃ s₀, cm.start = some s₀ ∧ samePos x s₀) ∨
    (cellGet (rrtMarkEndpoints cm) x = GOAL ∧
      ∃ q₀, cm.goal = some q₀ ∧ samePos x q₀) := by
  unfold rrtMarkEndpoints
  have hg1 : ∀ gM : Grid,
      (match cm.start with | some s => cellSet cm.grid s START | none => cm.grid) = gM →
      cellGet gM x = cellGet cm.grid x ∨
      (cellGet gM x = START ∧ ∃ s₀, cm.start = some s₀ ∧ samePos x s₀) := by
    intro gM hgM
    cases hs : cm.start with
    | none =>
        rw [hs] at hgM
        simp only at hgM
        subst hgM
        left; rfl
    | some s₀ =>
        rw [hs] at hgM
        simp only at hgM
        subst hgM
        rw [cellGet_cellSet]
        by_cases hc : x.2.toNat = s₀.2.toNat ∧ x.1.toNat = s₀.1.toNat ∧
            s₀.2.toNat < cm.grid.length ∧
            s₀.1.toNat < (gridRow cm.grid s₀.2.toNat).length
        · rw [if_pos hc]
          right
          exact ⟨rfl, s₀, rfl, hc.2.1, hc.1⟩
        · rw [if_neg hc]
          left; rfl
  have hd1 := hg1 _ rfl
  revert hd1
  generalize (match cm.start with | some s => cellSet cm.grid s START | none => cm.grid) = g1
  intro hd1
  cases hgl : cm.goal with
  | none =>
      simp only
      rcases hd1 with h | h
      · left; exact h
      · right; left; exact h
  | some q₀ =>
      simp only
      rw [cellGet_cellSet]
      by_cases hc : x.2.toNat = q₀.2.toNat ∧ x.1.toNat = q₀.1.toNat ∧
          q₀.2.toNat < g1.length ∧ q₀.1.toNat < (gridRow g1 q₀.2.toNat).length
      · rw [if_pos hc]
        right; right
        exact ⟨rfl, q₀, rfl, hc.2.1, hc.1⟩
      · rw [if_neg hc]
        rcases hd1 with h | h
        · left; exact h
        · right; left; exact h

theorem deltaSearch_refl (g : Grid) : deltaSearch g g := fun _ => Or.inl rfl

/-- Counterexample to C6 as stated: `RRTPlanner.plan` writes values other
than VISITED.  On a 4×1 all-UNKNOWN grid, planning from `(0,0)` to `(2,0)`
with step 5 and a stream sampling `(1,0)` succeeds and overwrites the
path cell `(1,0)` — UNKNOWN before the call — with FREE, not VISITED. -/
theorem c6_counterexample :
    cellGet (rrtPlan 5 5 draws10 cm41 (0, 0) (2, 0)).2 (1, 0) = FREE ∧
    cellGet cm41.grid (1, 0) = UNKNOWN ∧ FREE ≠ VISITED ∧ FREE ≠ UNKNOWN := by
  decide

/-- C6 (amended): grid writes performed by one `plan` call.  A* and
Dijkstra only ever overwrite cells with VISITED, and only cells that did
not hold START or GOAL at call time (`deltaSearch`).  RRT additionally
writes UNKNOWN (clearing VISITED between attempts), FREE (marking the
returned path), and START/GOAL — the latter only at the positions of the
stored start/goal markers.  No planner ever writes OBSTACLE: any cell
that is OBSTACLE after the call was OBSTACLE before it. -/
theorem c6_planner_grid_writes (cm : Costmap) (s t : Node) :
    (∀ fuel, deltaSearch cm.grid (astarPlan fuel cm s t).2) ∧
    (∀ fuel, deltaSearch cm.grid (dijkstraPlan fuel cm s t).2) ∧
    (∀ (maxIter : ℕ) (stepS : ℤ) (draws : ℕ → Draw) (x : Node),
      cellGet (rrtPlan maxIter stepS draws cm s t).2 x = cellGet cm.grid x ∨
      cellGet (rrtPlan maxIter stepS draws cm s t).2 x = VISITED ∨
      cellGet (rrtPlan maxIter stepS draws cm s t).2 x = UNKNOWN ∨
      cellGet (rrtPlan maxIter stepS draws cm s t).2 x = FREE ∨
      (cellGet (rrtPlan maxIter stepS draws cm s t).2 x = START ∧
        ∃ s₀, cm.start = some s₀ ∧ samePos x s₀) ∨
      (cellGet (rrtPlan maxIter stepS draws cm s t).2 x = GOAL ∧
        ∃ q₀, cm.goal = some q₀ ∧ samePos x q₀)) ∧
    (∀ (fuel : ℕ) (x : Node),
      cellGet (astarPlan fuel cm s t).2 x = OBSTACLE →
      cellGet cm.grid x = OBSTACLE) ∧
    (∀ (fuel : ℕ) (x : Node),
      cellGet (dijkstraPlan fuel cm s t).2 x = OBSTACLE →
      cellGet cm.grid x = OBSTACLE) ∧
    (∀ (maxIter : ℕ) (stepS : ℤ) (draws : ℕ → Draw) (x : Node),
      cellGet (rrtPlan maxIter stepS draws cm s t).2 x = OBSTACLE →
      cellGet cm.grid x = OBSTACLE) := by
  have hA : ∀ fuel, deltaSearch cm.grid (astarPlan fuel cm s t).2 := by
    intro fuel
    simp only [astarPlan]
    exact searchLoop_delta fuel _ (deltaSearch_refl cm.grid)
  have hD : ∀ fuel, deltaSearch cm.grid (dijkstraPlan fuel cm s t).2 := by
    intro fuel
    simp only [dijkstraPlan]
    exact searchLoop_delta fuel _ (deltaSearch_refl cm.grid)
  have hR : ∀ (maxIter : ℕ) (stepS : ℤ) (draws : ℕ → Draw) (x : Node),
      cellGet (rrtPlan maxIter stepS draws cm s t).2 x = cellGet cm.grid x ∨
      cellGet (rrtPlan maxIter stepS draws cm s t).2 x = VISITED ∨
      cellGet (rrtPlan maxIter stepS draws cm s t).2 x = UNKNOWN ∨
      cellGet (rrtPlan maxIter stepS draws cm s t).2 x = FREE ∨
      (cellGet (rrtPlan maxIter stepS draws cm s t).2 x = START ∧
        ∃ s₀, cm.start = some s₀ ∧ samePos x s₀) ∨
      (cellGet (rrtPlan maxIter stepS draws cm s t).2 x = GOAL ∧
        ∃ q₀, cm.goal = some q₀ ∧ samePos x q₀) := by
    intro maxIter stepS draws x
    have hda : deltaRrt (rrtMarkEndpoints cm)
        (rrtPlan maxIter stepS draws cm s t).2 := by
      simp only [rrtPlan]
      exact rrtAttempts_delta 50 (rrtMarkEndpoints cm) 0
    rcases hda.1 x with h | h | h | h
    · rcases rrtMarkEndpoints_delta cm x with hm | hm | hm
      · left; rw [h, hm]
      · right; right; right; right; left; exact ⟨h.trans hm.1, hm.2⟩
      · right; right; right; right; right; exact ⟨h.trans hm.1, hm.2⟩
    · right; left; exact h
    · right; right; left; exact h
    · right; right; right; left; exact h
  refine ⟨hA, hD, hR, ?_, ?_, ?_⟩
  · intro fuel x hob
    rcases hA fuel x with h | h
    · exact h.symm.trans hob
    · rw [hob] at h
      exact absurd h.1 (by decide)
  · intro fuel x hob
    rcases hD fuel x with h | h
    · exact h.symm.trans hob
    · rw [hob] at h
      exact absurd h.1 (by decide)
  · intro maxIter stepS draws x hob
    rcases hR maxIter stepS draws x with h | h | h | h | h | h
    · exact h.symm.trans hob
    · exact absurd (h.symm.trans hob) (by decide)
    · exact absurd (h.symm.trans hob) (by decide)
    · exact absurd (h.symm.trans hob) (by decide)
    · exact absurd (h.1.symm.trans hob) (by decide)
    · exact absurd (h.1.symm.trans hob) (by decide)

/-- Instantiation of the C6 theorem on concrete inputs: on the 2×1 grid
whose cell `(0,0)` is an OBSTACLE, after A* plans from `(1,0)` to
`(1,0)` the cell `(0,0)` still reads OBSTACLE, so the preservation
direction applies and recovers that it was OBSTACLE before the call. -/
theorem c6_planner_grid_writes_witness :
    cellGet (astarPlan 3 cmObsStart (1, 0) (1, 0)).2 (0, 0) = OBSTACLE ∧
    cellGet cmObsStart.grid (0, 0) = OBSTACLE :=
  ⟨by decide,
    (c6_planner_grid_writes cmObsStart (1, 0) (1, 0)).2.2.2.1 3 (0, 0) (by decide)⟩

/-! ## Obstacle counting (C7) -/

theorem beqObs_false {v : ℕ} (hv : v ≠ OBSTACLE) : (v == OBSTACLE) = false := by
  simp [hv]

theorem countP_rowSet (v : ℕ) (hv : (v == OBSTACLE) = false) :
    ∀ (r : List ℕ) (x : ℕ), (rowGet r x == OBSTACLE) = false →
      (rowSet r x v).countP (fun u => u == OBSTACLE) =
        r.countP (fun u => u == OBSTACLE) := by
  intro r
  induction r with
  | nil => intro x _; rfl
  | cons a t ih =>
      intro x hx
      cases x with
      | zero =>
          simp only [rowSet, rowGet] at hx ⊢
          rw [List.countP_cons, List.countP_cons, hv, hx]
      | succ n =>
          simp only [rowSet, rowGet] at hx ⊢
          rw [List.countP_cons, List.countP_cons, ih n hx]

theorem countObs_gridSetRow :
    ∀ (g : Grid) (y : ℕ) (r2 : List ℕ),
      r2.countP (fun u => u == OBSTACLE) =
        (gridRow g y).countP (fun u => u == OBSTACLE) →
      countObs (gridSetRow g y r2) = countObs g := by
  intro g
  induction g with
  | nil => intro y r2 _; rfl
  | cons a t ih =>
      intro y r2 hc
      cases y with
      | zero =>
          simp only [gridSetRow, gridRow] at hc ⊢
          simp only [countObs, List.map_cons, List.sum_cons]
          rw [hc]
      | succ n =>
          simp only [gridSetRow, gridRow] at hc ⊢
          simp only [countObs, List.map_cons, List.sum_cons]
          have hrec := ih n r2 hc
          simp only [countObs] at hrec
          rw [hrec]

theorem countObs_cellSet (g : Grid) (p : Node) (v : ℕ) (hv : v ≠ OBSTACLE)
    (hp : cellGet g p ≠ OBSTACLE) : countObs (cellSet g p v) = countObs g := by
  unfold cellSet
  exact countObs_gridSetRow g p.2.toNat _
    (countP_rowSet v (beqObs_false hv) _ _ (beqObs_false hp))

theorem countObs_markVisited {g : Grid} {p : Node}
    (hp : cellGet g p ≠ OBSTACLE) : countObs (markVisited g p) = countObs g := by
  unfold markVisited
  by_cases hsg : cellGet g p = START ∨ cellGet g p = GOAL
  · rw [if_pos hsg]
  · rw [if_neg hsg]
    exact countObs_cellSet g p VISITED (by decide) hp

theorem countObs_clearVisited (g : Grid) : countObs (clearVisited g) = countObs g := by
  induction g with
  | nil => rfl
  | cons r t ih =>
      simp only [clearVisited, List.map_cons] at ih ⊢
      simp only [countObs, List.map_cons, List.sum_cons] at ih ⊢
      have hrow : ∀ r0 : List ℕ,
          (List.map (fun v => if v = VISITED then UNKNOWN else v) r0).countP
            (fun v => v == OBSTACLE) = r0.countP (fun v => v == OBSTACLE) := by
        intro r0
        induction r0 with
        | nil => rfl
        | cons a s ihr =>
            simp only [List.map_cons, List.countP_cons, ihr]
            by_cases hv : a = VISITED
            · subst hv
              have h1 : ((if VISITED = VISITED then UNKNOWN else VISITED) ==
                  OBSTACLE) = false := by decide
              have h2 : ((VISITED : ℕ) == OBSTACLE) = false := by decide
              rw [h1, h2]
            · rw [if_neg hv]
      rw [hrow, ih]

theorem countObs_markPathFree :
    ∀ (path : List Node) (g : Grid), (∀ x ∈ path, cellGet g x ≠ OBSTACLE) →
      countObs (markPathFree g path) = countObs g := by
  intro path
  induction path with
  | nil => intro g _; rfl
  | cons a t ih =>
      intro g hall
      have hga : cellGet g a ≠ OBSTACLE := hall a (List.mem_cons_self ..)
      have hstep : countObs
          (if cellGet g a = START ∨ cellGet g a = GOAL then g
           else cellSet g a FREE) = countObs g ∧
          obstEquiv g
            (if cellGet g a = START ∨ cellGet g a = GOAL then g
             else cellSet g a FREE) := by
        by_cases hsg : cellGet g a = START ∨ cellGet g a = GOAL
        · rw [if_pos hsg]
          exact ⟨rfl, obstEquiv_refl g⟩
        · rw [if_neg hsg]
          exact ⟨countObs_cellSet g a FREE (by decide) hga,
            obstEquiv_cellSet (by decide) hga⟩
      have hrest : countObs (markPathFree
          (if cellGet g a = START ∨ cellGet g a = GOAL then g
           else cellSet g a FREE) t) = countObs
          (if cellGet g a = START ∨ cellGet g a = GOAL then g
           else cellSet g a FREE) := by
        refine ih _ ?_
        intro x hx hc
        exact hall x (List.mem_cons_of_mem _ hx) ((hstep.2 x).mpr hc)
      have hgoal : countObs (markPathFree g (a :: t)) = countObs (markPathFree
          (if cellGet g a = START ∨ cellGet g a = GOAL then g
           else cellSet g a FREE) t) := by
        simp only [markPathFree, List.foldl_cons]
      rw [hgoal, hrest, hstep.1]

theorem countObs_markEndpoints {cm : Costmap} (hms : MarksSafe cm) :
    countObs (rrtMarkEndpoints cm) = countObs cm.grid := by
  unfold rrtMarkEndpoints
  have h1 : countObs
      (match cm.start with | some s => cellSet cm.grid s START | none => cm.grid) =
        countObs cm.grid ∧
      obstEquiv cm.grid
        (match cm.start with | some s => cellSet cm.grid s START | none => cm.grid) := by
    cases hs : cm.start with
    | none => exact ⟨rfl, obstEquiv_refl _⟩
    | some s =>
        simp only
        have hv := hms.1 s hs
        exact ⟨countObs_cellSet cm.grid s START (by decide) hv.2,
          obstEquiv_cellSet (by decide) hv.2⟩
  revert h1
  generalize (match cm.start with | some s => cellSet cm.grid s START | none => cm.grid) = g1
  intro h1
  cases hgl : cm.goal with
  | none => simp only; exact h1.1
  | some q =>
      simp only
      have hv := hms.2 q hgl
      have hq : cellGet g1 q ≠ OBSTACLE := fun hc => hv.2 ((h1.2 q).mpr hc)
      rw [countObs_cellSet g1 q GOAL (by decide) hq]
      exact h1.1

/-- Relaxations never touch the grid. -/
theorem foldRelax_grid (hf : Node → ℤ) (cur : Node) :
    ∀ (l : List Node) (s2 : SState),
      (l.foldl (relaxOne hf cur) s2).grid = s2.grid := by
  intro l
  induction l with
  | nil => intro s2; rfl
  | cons a tl ihl =>
      intro s2
      rw [List.foldl_cons, ihl]
      unfold relaxOne
      cases lookupA s2.gsc cur with
      | none => rfl
      | some gc =>
          simp only
          by_cases hb : (match lookupA s2.gsc a with
            | none => true
            | some gn => decide (gc + 1 < gn)) = true
          · rw [if_pos hb]
          · rw [if_neg hb]

/-- The A*/Dijkstra loop preserves the obstacle count: every cell it
overwrites is the popped node's cell, which carries a gscore binding and
is therefore non-OBSTACLE in the call-time grid. -/
theorem searchLoop_countObs {w h : ℕ} {hf : Node → ℤ} {goal start : Node}
    {g₀ : Grid} :
    ∀ (f : ℕ) (s : SState), CoreInv start s → ValidInv w h g₀ s →
      countObs s.grid = countObs g₀ →
      countObs (searchLoop w h hf goal f s).2 = countObs g₀ := by
  intro f
  induction f with
  | zero => intro s _ _ hc; exact hc
  | succ f ih =>
      intro s hcore hvalid hc
      obtain ⟨iNN, iA, iB2, iB3, iCg, iVb⟩ := hcore
      obtain ⟨iE, iV, iAd⟩ := hvalid
      simp only [searchLoop]
      cases hm : minEntry s.frontier with
      | none => exact hc
      | some e =>
          simp only
          by_cases hg : e.2 = goal
          · rw [if_pos hg]
            cases hr : reconGo (s.came.length + 1) s.came e.2 [e.2] with
            | none => exact hc
            | some l => exact hc
          · rw [if_neg hg]
            have hcur_gsc : lookupA s.gsc e.2 ≠ none := iCg _ (minEntry_mem hm)
            have hcur_valid : validN w h g₀ e.2 := by
              cases hqq : lookupA s.gsc e.2 with
              | none => exact absurd hqq hcur_gsc
              | some v => exact iV _ _ hqq
            have hcellne : cellGet s.grid e.2 ≠ OBSTACLE := by
              intro hob
              exact hcur_valid.2 ((iE e.2).mpr hob)
            have hobs2 : obstEquiv g₀
                (if cellGet s.grid e.2 = START ∨ cellGet s.grid e.2 = GOAL
                 then s.grid else cellSet s.grid e.2 VISITED) := by
              by_cases hsg : cellGet s.grid e.2 = START ∨ cellGet s.grid e.2 = GOAL
              · rw [if_pos hsg]; exact iE
              · rw [if_neg hsg]
                exact obstEquiv_trans iE (obstEquiv_cellSet (by decide) hcellne)
            have hcount2 : countObs
                (if cellGet s.grid e.2 = START ∨ cellGet s.grid e.2 = GOAL
                 then s.grid else cellSet s.grid e.2 VISITED) = countObs g₀ := by
              by_cases hsg : cellGet s.grid e.2 = START ∨ cellGet s.grid e.2 = GOAL
              · rw [if_pos hsg]; exact hc
              · rw [if_neg hsg]
                rw [countObs_cellSet _ _ _ (by decide) hcellne]
                exact hc
            refine ih _ ?_ ?_ ?_
            · apply coreInv_foldRelax
              · exact coreInv_popUpdate ⟨iNN, iA, iB2, iB3, iCg, iVb⟩ e _
              · intro n hn
                exact adjStep_ne (getNeighbors_mem_iff.mp hn).1
            · apply validInv_foldRelax
              · exact ⟨hobs2, iV, iAd⟩
              · intro n hn
                obtain ⟨ha, hb, hcn⟩ := getNeighbors_mem_iff.mp hn
                refine ⟨⟨hb, ?_⟩, ha⟩
                intro hob
                exact hcn ((hobs2 n).mp hob)
            · rw [foldRelax_grid]
              exact hcount2

/-- Every exit of the RRT growth loop preserves the obstacle count. -/
theorem rrtGrow_countObs {w h : ℕ} {g₀ : Grid} {stepS : ℤ} {goal : Node}
    {draws : ℕ → Draw} (hstep : 0 ≤ stepS) (hgoal : validN w h g₀ goal) :
    ∀ (iters : ℕ) (g : Grid) (t : RTree) (idx : ℕ),
      obstEquiv g₀ g → TreeInv w h g₀ stepS t → countObs g = countObs g₀ →
      countObs (raGrid (rrtGrow w h stepS goal draws iters g t idx)) =
        countObs g₀ := by
  intro iters
  induction iters with
  | zero => intro g t idx _ _ hcO; exact hcO
  | succ n ih =>
      intro g t idx hobs htree hcO
      simp only [rrtGrow]
      rcases rrtIter_shape w h stepS goal draws g t idx with hsh |
        ⟨near, newN, hnear, hnew, hin, hob, hrest⟩
      · rw [hsh]
        exact ih g t (idx + 1) hobs htree hcO
      · have hnewvalid : validN w h g₀ newN :=
          ⟨hin, fun hcc => hob ((hobs newN).mp hcc)⟩
        have hnearmem : lookupA t near ≠ none :=
          lookupA_ne_none_of_mem_keys (nearestNode_mem hnear)
        have htree1 : TreeInv w h g₀ stepS (updEntry t newN (some near)) :=
          treeInv_updEntry htree hnewvalid
            (by rw [hnew]; exact steer_stepOk hstep) (Or.inl hnearmem)
        have hobs1 : obstEquiv g₀ (markVisited g newN) :=
          obstEquiv_trans hobs (obstEquiv_markVisited hob)
        have hcO1 : countObs (markVisited g newN) = countObs g₀ := by
          rw [countObs_markVisited hob]
          exact hcO
        rcases hrest with ⟨hd, hiter⟩ | ⟨hd, hsucc | hdiv⟩
        · rw [hiter]
          exact ih _ _ _ hobs1 htree1 hcO1
        · obtain ⟨path, hrec, hiter⟩ := hsucc
          rw [hiter]
          simp only [raGrid]
          set t2 := updEntry (updEntry t newN (some near)) goal (some newN) with ht2
          have htree2 : TreeInv w h g₀ stepS t2 := by
            rw [ht2]
            refine treeInv_updEntry htree1 hgoal (dist2_stepOk hstep hd) (Or.inl ?_)
            rw [lookupA_updEntry_self]
            simp
          have hQgoal : lookupA t2 goal ≠ none := by
            rw [ht2, lookupA_updEntry_self]
            simp
          have hmain :=
            rrtRecon_valid (t := t2) (fun k => lookupA t2 k ≠ none)
              (fun k q => stepOk stepS q k)
              (fun k q hk _ => (htree2.2 _ _ hk).2)
              (fun k q hk => (htree2.2 _ _ hk).1)
              (t2.length + 1) goal [goal] path hrec hQgoal
              (by intro x hx; rw [List.mem_singleton.mp hx]; exact hQgoal)
              (by simp) (List.chain'_singleton _)
          have hpathvalid : ∀ x ∈ path, cellGet (markVisited g newN) x ≠ OBSTACLE := by
            intro x hx
            have hq := hmain.1 x hx
            have hvx : validN w h g₀ x := by
              cases hqq : lookupA t2 x with
              | none => exact absurd hqq hq
              | some v => exact htree2.1 _ _ hqq
            intro hcc
            exact hvx.2 ((hobs1 x).mpr hcc)
          rw [countObs_markPathFree path (markVisited g newN) hpathvalid]
          exact hcO1
        · obtain ⟨hrec, hiter⟩ := hdiv
          rw [hiter]
          simp only [raGrid]
          exact hcO1

/-- The RRT attempt loop preserves the obstacle count. -/
theorem rrtAttempts_countObs {w h maxIter : ℕ} {g₀ : Grid} {stepS : ℤ}
    {start goal : Node} {draws : ℕ → Draw} (hstep : 0 ≤ stepS)
    (hstart : validN w h g₀ start) (hgoal : validN w h g₀ goal) :
    ∀ (a : ℕ) (g : Grid) (idx : ℕ), obstEquiv g₀ g → countObs g = countObs g₀ →
      countObs (rrtAttempts w h maxIter stepS start goal draws a g idx).2 =
        countObs g₀ := by
  intro a
  induction a with
  | zero => intro g idx _ hcO; exact hcO
  | succ n ih =>
      intro g idx hobs hcO
      simp only [rrtAttempts]
      cases hgr : rrtGrow w h stepS goal draws maxIter g [(start, none)] idx with
      | success pp g1 =>
          have hthis := @rrtGrow_countObs w h g₀ stepS goal draws hstep hgoal maxIter g
            [(start, none)] idx hobs (treeInv_init hstart) hcO
          rw [hgr] at hthis
          exact hthis
      | diverged g1 =>
          have hthis := @rrtGrow_countObs w h g₀ stepS goal draws hstep hgoal maxIter g
            [(start, none)] idx hobs (treeInv_init hstart) hcO
          rw [hgr] at hthis
          exact hthis
      | exhausted g1 idx1 =>
          have hg1c := @rrtGrow_countObs w h g₀ stepS goal draws hstep hgoal maxIter g
            [(start, none)] idx hobs (treeInv_init hstart) hcO
          rw [hgr] at hg1c
          have hobs1 : obstEquiv g₀ (clearVisited g1) :=
            obstEquiv_trans
              (obstEquiv_trans hobs
                (rrtGrow_exhausted_obstEquiv maxIter g _ idx g1 idx1 hgr))
              (obstEquiv_clearVisited g1)
          refine ih (clearVisited g1) idx1 hobs1 ?_
          rw [countObs_clearVisited]
          exact hg1c

/-- Counterexample to C7 as stated (with no precondition on the call):
A* never checks the start cell, so planning from a start that sits on an
OBSTACLE cell overwrites it with VISITED — on the 2×1 grid
`[[OBSTACLE, UNKNOWN]]` the obstacle count drops from 1 to 0. -/
theorem c7_counterexample :
    countObs cmObsStart.grid = 1 ∧
    countObs (astarPlan 3 cmObsStart (0, 0) (1, 0)).2 = 0 := by
  decide

/-- C7 (amended): under the documented preconditions — start and goal on
in-bounds non-OBSTACLE cells, the stored markers (when set) likewise, and
a nonnegative RRT step — every `plan` call of every planner leaves the
number of OBSTACLE cells unchanged. -/
theorem c7_obstacle_count_preserved (cm : Costmap) (s t : Node)
    (hs : validN cm.width cm.height cm.grid s)
    (ht : validN cm.width cm.height cm.grid t)
    (hms : MarksSafe cm) :
    (∀ fuel, countObs (astarPlan fuel cm s t).2 = countObs cm.grid) ∧
    (∀ fuel, countObs (dijkstraPlan fuel cm s t).2 = countObs cm.grid) ∧
    (∀ (maxIter : ℕ) (stepS : ℤ) (draws : ℕ → Draw), 0 ≤ stepS →
      countObs (rrtPlan maxIter stepS draws cm s t).2 = countObs cm.grid) := by
  refine ⟨?_, ?_, ?_⟩
  · intro fuel
    simp only [astarPlan]
    exact searchLoop_countObs fuel _ (coreInv_init cm.grid _ s)
      (validInv_init hs _) rfl
  · intro fuel
    simp only [dijkstraPlan]
    exact searchLoop_countObs fuel _ (coreInv_init cm.grid _ s)
      (validInv_init hs _) rfl
  · intro maxIter stepS draws hstep
    simp only [rrtPlan]
    exact rrtAttempts_countObs hstep hs ht 50 (rrtMarkEndpoints cm) 0
      (obstEquiv_markEndpoints hms) (countObs_markEndpoints hms)

/-- Instantiation of the C7 theorem on concrete runs over the 4×1
all-UNKNOWN strip: all three planners leave its obstacle count (zero)
unchanged. -/
theorem c7_obstacle_count_witness :
    validN cm41.width cm41.height cm41.grid (0, 0) ∧
    countObs (astarPlan 9 cm41 (0, 0) (2, 0)).2 = countObs cm41.grid ∧
    countObs (dijkstraPlan 9 cm41 (0, 0) (2, 0)).2 = countObs cm41.grid ∧
    countObs (rrtPlan 5 5 draws10 cm41 (0, 0) (2, 0)).2 = countObs cm41.grid :=
  ⟨by decide,
    (c7_obstacle_count_preserved cm41 (0, 0) (2, 0) (by decide) (by decide)
      (by unfold MarksSafe; constructor <;> intro a ha <;> simp [cm41] at ha)).1 9,
    (c7_obstacle_count_preserved cm41 (0, 0) (2, 0) (by decide) (by decide)
      (by unfold MarksSafe; constructor <;> intro a ha <;> simp [cm41] at ha)).2.1 9,
    (c7_obstacle_count_preserved cm41 (0, 0) (2, 0) (by decide) (by decide)
      (by unfold MarksSafe; constructor <;> intro a ha <;> simp [cm41] at ha)).2.2
      5 5 draws10 (by decide)⟩

/-! ## Marker invariant (C8) -/

/-- Writing over a cell whose current value equals neither of two stored
marker values cannot be the cell of either marker. -/
theorem cellGet_cellSet_ne_val {g : Grid} {p q : Node} (v : ℕ)
    (hne : cellGet g q ≠ cellGet g p) :
    cellGet (cellSet g p v) q = cellGet g q := by
  rw [cellGet_cellSet]
  by_cases hc : q.2.toNat = p.2.toNat ∧ q.1.toNat = p.1.toNat ∧
      p.2.toNat < g.length ∧ p.1.toNat < (gridRow g p.2.toNat).length
  · exfalso
    apply hne
    unfold cellGet
    rw [hc.1, hc.2.1]
  · rw [if_neg hc]

theorem cellGet_cellSet_not_samePos {g : Grid} {p q : Node} (v : ℕ)
    (hne : ¬ samePos q p) : cellGet (cellSet g p v) q = cellGet g q := by
  apply cellGet_cellSet_ne
  unfold samePos at hne
  push_neg at hne
  by_cases h1 : q.1.toNat = p.1.toNat
  · left; exact hne h1
  · right; exact h1

theorem nodeIn_of_guard {cm : Costmap} {x y : ℤ}
    (hbnd : (isWithinBounds cm x y && isFreeB cm x y) = true) :
    NodeIn cm.width cm.height (x, y) :=
  of_decide_eq_true (Bool.and_eq_true .. ▸ hbnd).1

/-- A single write over a cell holding neither START nor GOAL keeps the
marker invariant. -/
theorem sg_preserved_write {cm : Costmap} {p : Node} {v : ℕ}
    (hinv : StartGoalInv cm) (hcs : cellGet cm.grid p ≠ START)
    (hcg : cellGet cm.grid p ≠ GOAL) :
    StartGoalInv { cm with grid := cellSet cm.grid p v } := by
  constructor
  · intro s0 hs0
    obtain ⟨hin, hv⟩ := hinv.1 s0 hs0
    refine ⟨hin, ?_⟩
    rw [cellGet_cellSet_ne_val v fun hcc => hcs (hcc.symm.trans hv)]
    exact hv
  · intro q0 hq0
    obtain ⟨hin, hv⟩ := hinv.2 q0 hq0
    refine ⟨hin, ?_⟩
    rw [cellGet_cellSet_ne_val v fun hcc => hcg (hcc.symm.trans hv)]
    exact hv

/-- `toggle_obstacle` preserves the marker invariant: it only rewrites
cells currently reading OBSTACLE or UNKNOWN. -/
theorem toggleObstacle_SG (cm : Costmap) (x y : ℤ) (hinv : StartGoalInv cm) :
    StartGoalInv (toggleObstacle cm x y) := by
  simp only [toggleObstacle]
  by_cases hb : isWithinBounds cm x y = true
  · rw [if_pos hb]
    by_cases h1 : cellGet cm.grid (x, y) = OBSTACLE
    · rw [if_pos h1]
      exact sg_preserved_write hinv (by rw [h1]; decide) (by rw [h1]; decide)
    · rw [if_neg h1]
      by_cases h2 : cellGet cm.grid (x, y) = UNKNOWN
      · rw [if_pos h2]
        exact sg_preserved_write hinv (by rw [h2]; decide) (by rw [h2]; decide)
      · rw [if_neg h2]
        exact hinv
  · rw [if_neg hb]
    exact hinv

/-- Characterisation of a successful `set_start`: the result is the old
costmap with the start marker moved, the target cell written START on top
of an intermediate grid `g1` that agrees with the old grid on every cell
not reading START and reads UNKNOWN at the reverted old start. -/
theorem setStart_post {cm : Costmap} {x y : ℤ}
    (hwf : gridShape cm.width cm.height cm.grid)
    (hbnd : (isWithinBounds cm x y && isFreeB cm x y) = true) :
    ∃ g1 : Grid,
      setStart cm x y =
        ⟨cm.width, cm.height, cellSet g1 (x, y) START, some (x, y), cm.goal⟩ ∧
      gridShape cm.width cm.height g1 ∧
      (∀ q : Node, cellGet cm.grid q ≠ START → cellGet g1 q = cellGet cm.grid q) ∧
      (∀ s₀, cm.start = some s₀ → cellGet cm.grid s₀ = START →
        NodeIn cm.width cm.height s₀ → cellGet g1 s₀ = UNKNOWN) := by
  simp only [setStart]
  rw [if_pos hbnd]
  cases hs : cm.start with
  | none =>
      refine ⟨cm.grid, rfl, hwf, fun q _ => rfl, ?_⟩
      intro s₀ h _ _
      cases h
  | some s =>
      simp only
      by_cases hrev : cellGet cm.grid s = START
      · rw [if_pos hrev]
        refine ⟨cellSet cm.grid s UNKNOWN, rfl, gridShape_cellSet hwf s UNKNOWN,
          fun q hq => cellGet_cellSet_ne_val UNKNOWN fun hcc => hq (hcc.trans hrev), ?_⟩
        intro s₀ h _ hin
        injection h with h
        subst h
        exact cellGet_cellSet_self hwf hin UNKNOWN
      · rw [if_neg hrev]
        refine ⟨cm.grid, rfl, hwf, fun q _ => rfl, ?_⟩
        intro s₀ h hS _
        injection h with h
        subst h
        exact absurd hS hrev

/-- Symmetric characterisation of a successful `set_goal`. -/
theorem setGoal_post {cm : Costmap} {x y : ℤ}
    (hwf : gridShape cm.width cm.height cm.grid)
    (hbnd : (isWithinBounds cm x y && isFreeB cm x y) = true) :
    ∃ g1 : Grid,
      setGoal cm x y =
        ⟨cm.width, cm.height, cellSet g1 (x, y) GOAL, cm.start, some (x, y)⟩ ∧
      gridShape cm.width cm.height g1 ∧
      (∀ q : Node, cellGet cm.grid q ≠ GOAL → cellGet g1 q = cellGet cm.grid q) ∧
      (∀ q₀, cm.goal = some q₀ → cellGet cm.grid q₀ = GOAL →
        NodeIn cm.width cm.height q₀ → cellGet g1 q₀ = UNKNOWN) := by
  simp only [setGoal]
  rw [if_pos hbnd]
  cases hgl : cm.goal with
  | none =>
      refine ⟨cm.grid, rfl, hwf, fun q _ => rfl, ?_⟩
      intro q₀ h _ _
      cases h
  | some p =>
      simp only
      by_cases hrev : cellGet cm.grid p = GOAL
      · rw [if_pos hrev]
        refine ⟨cellSet cm.grid p UNKNOWN, rfl, gridShape_cellSet hwf p UNKNOWN,
          fun q hq => cellGet_cellSet_ne_val UNKNOWN fun hcc => hq (hcc.trans hrev), ?_⟩
        intro q₀ h _ hin
        injection h with h
        subst h
        exact cellGet_cellSet_self hwf hin UNKNOWN
      · rw [if_neg hrev]
        refine ⟨cm.grid, rfl, hwf, fun q _ => rfl, ?_⟩
        intro q₀ h hS _
        injection h with h
        subst h
        exact absurd hS hrev

/-- After marking START at `(x, y)` on a grid agreeing with `g0` off its
START cells, the invariant holds provided the goal marker (if any) sits
consistently in `g0` and away from `(x, y)`. -/
theorem sg_after_mark {w h : ℕ} {g0 g1 : Grid} {go : Option Node} {x y : ℤ}
    (hshape : gridShape w h g1)
    (hpres : ∀ q : Node, cellGet g0 q ≠ START → cellGet g1 q = cellGet g0 q)
    (hin : NodeIn w h (x, y))
    (hinv2 : ∀ q, go = some q → NodeIn w h q ∧ cellGet g0 q = GOAL)
    (hgq : ∀ q, go = some q → ¬ samePos (x, y) q) :
    StartGoalInv ⟨w, h, cellSet g1 (x, y) START, some (x, y), go⟩ := by
  constructor
  · intro s0 hs0
    injection hs0 with hs0
    subst hs0
    exact ⟨hin, cellGet_cellSet_self hshape hin START⟩
  · intro q hq
    obtain ⟨hqin, hqv⟩ := hinv2 q hq
    refine ⟨hqin, ?_⟩
    rw [cellGet_cellSet_not_samePos START
      (fun hsp => hgq q hq ⟨hsp.1.symm, hsp.2.symm⟩)]
    rw [hpres q (by rw [hqv]; decide)]
    exact hqv

theorem sg_after_mark_goal {w h : ℕ} {g0 g1 : Grid} {st : Option Node} {x y : ℤ}
    (hshape : gridShape w h g1)
    (hpres : ∀ q : Node, cellGet g0 q ≠ GOAL → cellGet g1 q = cellGet g0 q)
    (hin : NodeIn w h (x, y))
    (hinv1 : ∀ s, st = some s → NodeIn w h s ∧ cellGet g0 s = START)
    (hsq : ∀ s, st = some s → ¬ samePos (x, y) s) :
    StartGoalInv ⟨w, h, cellSet g1 (x, y) GOAL, st, some (x, y)⟩ := by
  constructor
  · intro s hs
    obtain ⟨hsin, hsv⟩ := hinv1 s hs
    refine ⟨hsin, ?_⟩
    rw [cellGet_cellSet_not_samePos GOAL
      (fun hsp => hsq s hs ⟨hsp.1.symm, hsp.2.symm⟩)]
    rw [hpres s (by rw [hsv]; decide)]
    exact hsv
  · intro q0 hq0
    injection hq0 with hq0
    subst hq0
    exact ⟨hin, cellGet_cellSet_self hshape hin GOAL⟩

theorem setStart_SG (cm : Costmap) (x y : ℤ)
    (hwf : gridShape cm.width cm.height cm.grid) (hinv : StartGoalInv cm)
    (hgq : ∀ q, cm.goal = some q → ¬ samePos (x, y) q) :
    StartGoalInv (setStart cm x y) := by
  by_cases hbnd : (isWithinBounds cm x y && isFreeB cm x y) = true
  · obtain ⟨g1, heq, hsh, hpres, _⟩ := setStart_post hwf hbnd
    rw [heq]
    exact sg_after_mark hsh hpres (nodeIn_of_guard hbnd) hinv.2 hgq
  · simp only [setStart]
    rw [if_neg hbnd]
    exact hinv

theorem setGoal_SG (cm : Costmap) (x y : ℤ)
    (hwf : gridShape cm.width cm.height cm.grid) (hinv : StartGoalInv cm)
    (hsq : ∀ s, cm.start = some s → ¬ samePos (x, y) s) :
    StartGoalInv (setGoal cm x y) := by
  by_cases hbnd : (isWithinBounds cm x y && isFreeB cm x y) = true
  · obtain ⟨g1, heq, hsh, hpres, _⟩ := setGoal_post hwf hbnd
    rw [heq]
    exact sg_after_mark_goal hsh hpres (nodeIn_of_guard hbnd) hinv.1 hsq
  · simp only [setGoal]
    rw [if_neg hbnd]
    exact hinv

theorem loadMap_shape (cm : Costmap) (img : Grid) :
    gridShape cm.width cm.height (loadMap cm img).grid := by
  constructor
  · simp [loadMap]
  · intro r hr
    simp only [loadMap] at hr
    obtain ⟨yy, hy, hrow⟩ := List.mem_map.mp hr
    rw [← hrow]
    simp

/-- A successful `set_goal` on a costmap with no start marker yields the
invariant outright. -/
theorem setGoal_SG_noStart {cm : Costmap} {x y : ℤ}
    (hwf : gridShape cm.width cm.height cm.grid)
    (hns : cm.start = none)
    (hbnd : (isWithinBounds cm x y && isFreeB cm x y) = true) :
    StartGoalInv (setGoal cm x y) := by
  obtain ⟨g1, heq, hsh, hpres, _⟩ := setGoal_post hwf hbnd
  rw [heq]
  refine sg_after_mark_goal hsh hpres (nodeIn_of_guard hbnd) ?_ ?_ <;>
    intro a ha <;> rw [hns] at ha <;> cases ha

/-- `reset_path` re-establishes the marker invariant from scratch
whenever the stored markers (if both set) are at distinct positions. -/
theorem resetPath_SG (cm : Costmap) (img : Grid)
    (hdist : ∀ s₀ q₀, cm.start = some s₀ → cm.goal = some q₀ →
      ¬ samePos s₀ q₀) :
    StartGoalInv (resetPath cm img) := by
  have hsh0 : gridShape cm.width cm.height (loadMap cm img).grid :=
    loadMap_shape cm img
  simp only [resetPath]
  generalize hL : loadMap cm img = L
  rw [hL] at hsh0
  have hLw : L.width = cm.width := by rw [← hL]; rfl
  have hLh : L.height = cm.height := by rw [← hL]; rfl
  have hLs : L.start = cm.start := by rw [← hL]; rfl
  have hLg : L.goal = cm.goal := by rw [← hL]; rfl
  have hwfL : gridShape L.width L.height L.grid := by rw [hLw, hLh]; exact hsh0
  cases hs : cm.start with
  | none =>
      simp only
      cases hgl : cm.goal with
      | none =>
          simp only
          constructor
          · intro a ha
            rw [hLs, hs] at ha
            cases ha
          · intro a ha
            rw [hLg, hgl] at ha
            cases ha
      | some p =>
          simp only
          by_cases hg2 : (isWithinBounds L p.1 p.2 && isFreeB L p.1 p.2) = true
          · rw [if_pos hg2]
            obtain ⟨g2, heq2, hsh3, hpres2, _⟩ := setGoal_post hwfL hg2
            rw [heq2]
            refine sg_after_mark_goal hsh3 hpres2 (nodeIn_of_guard hg2) ?_ ?_ <;>
              intro a ha <;> rw [hLs, hs] at ha <;> cases ha
          · rw [if_neg hg2]
            constructor
            · intro a ha
              rw [hLs, hs] at ha
              cases ha
            · intro a ha
              cases ha
  | some s =>
      simp only
      by_cases hg1 : (isWithinBounds L s.1 s.2 && isFreeB L s.1 s.2) = true
      · rw [if_pos hg1]
        obtain ⟨g1, heq1, hsh2, hpres1, _⟩ := setStart_post hwfL hg1
        rw [heq1, hLg]
        have hin1 : NodeIn L.width L.height (s.1, s.2) := nodeIn_of_guard hg1
        have hcell2 : cellGet (cellSet g1 (s.1, s.2) START) (s.1, s.2) = START :=
          cellGet_cellSet_self hsh2 hin1 START
        cases hgl : cm.goal with
        | none =>
            simp only
            constructor
            · intro a ha
              have ha2 : some ((s.1 : ℤ), (s.2 : ℤ)) = some a := ha
              injection ha2 with ha2
              subst ha2
              exact ⟨hin1, hcell2⟩
            · intro a ha
              cases ha
        | some p =>
            simp only
            by_cases hg2 : (isWithinBounds
                (⟨L.width, L.height, cellSet g1 (s.1, s.2) START,
                  some (s.1, s.2), some p⟩ : Costmap) p.1 p.2 &&
                isFreeB
                (⟨L.width, L.height, cellSet g1 (s.1, s.2) START,
                  some (s.1, s.2), some p⟩ : Costmap) p.1 p.2) = true
            · rw [if_pos hg2]
              obtain ⟨g2, heq2, hsh3, hpres2, _⟩ :=
                @setGoal_post
                  (⟨L.width, L.height, cellSet g1 (s.1, s.2) START,
                    some (s.1, s.2), some p⟩ : Costmap) p.1 p.2
                  (gridShape_cellSet hsh2 (s.1, s.2) START) hg2
              rw [heq2]
              refine sg_after_mark_goal hsh3 hpres2 (nodeIn_of_guard hg2) ?_ ?_
              · intro a ha
                have ha2 : some ((s.1 : ℤ), (s.2 : ℤ)) = some a := ha
                injection ha2 with ha2
                subst ha2
                exact ⟨hin1, hcell2⟩
              · intro a ha hsp
                have ha2 : some ((s.1 : ℤ), (s.2 : ℤ)) = some a := ha
                injection ha2 with ha2
                subst ha2
                exact hdist s p hs hgl ⟨hsp.1.symm, hsp.2.symm⟩
            · rw [if_neg hg2]
              constructor
              · intro a ha
                have ha2 : some ((s.1 : ℤ), (s.2 : ℤ)) = some a := ha
                injection ha2 with ha2
                subst ha2
                exact ⟨hin1, hcell2⟩
              · intro a ha
                cases ha
      · rw [if_neg hg1]
        cases hgl : cm.goal with
        | none =>
            simp only
            constructor
            · intro a ha
              cases ha
            · intro a ha
              have ha2 : L.goal = some a := ha
              rw [hLg, hgl] at ha2
              cases ha2
        | some p =>
            simp only
            by_cases hg2 : (isWithinBounds
                { L with start := none } p.1 p.2 &&
                isFreeB { L with start := none } p.1 p.2) = true
            · rw [if_pos hg2]
              exact setGoal_SG_noStart hwfL rfl hg2
            · rw [if_neg hg2]
              constructor
              · intro a ha
                cases ha
              · intro a ha
                cases ha

/-- A* / Dijkstra execution preserves the marker invariant: marked cells
never held START or GOAL. -/
theorem searchExec_SG (cm : Costmap) (s t : Node) (hinv : StartGoalInv cm)
    (fuel : ℕ) :
    StartGoalInv { cm with grid := (astarPlan fuel cm s t).2 } ∧
    StartGoalInv { cm with grid := (dijkstraPlan fuel cm s t).2 } := by
  have hdsA : deltaSearch cm.grid (astarPlan fuel cm s t).2 := by
    simp only [astarPlan]
    exact searchLoop_delta fuel _ (deltaSearch_refl cm.grid)
  have hdsD : deltaSearch cm.grid (dijkstraPlan fuel cm s t).2 := by
    simp only [dijkstraPlan]
    exact searchLoop_delta fuel _ (deltaSearch_refl cm.grid)
  constructor <;> constructor
  · intro s0 hs0
    obtain ⟨hin, hv⟩ := hinv.1 s0 hs0
    refine ⟨hin, ?_⟩
    rcases hdsA s0 with hdd | hdd
    · rw [hdd]; exact hv
    · exact absurd hv hdd.2.1
  · intro q0 hq0
    obtain ⟨hin, hv⟩ := hinv.2 q0 hq0
    refine ⟨hin, ?_⟩
    rcases hdsA q0 with hdd | hdd
    · rw [hdd]; exact hv
    · exact absurd hv hdd.2.2
  · intro s0 hs0
    obtain ⟨hin, hv⟩ := hinv.1 s0 hs0
    refine ⟨hin, ?_⟩
    rcases hdsD s0 with hdd | hdd
    · rw [hdd]; exact hv
    · exact absurd hv hdd.2.1
  · intro q0 hq0
    obtain ⟨hin, hv⟩ := hinv.2 q0 hq0
    refine ⟨hin, ?_⟩
    rcases hdsD q0 with hdd | hdd
    · rw [hdd]; exact hv
    · exact absurd hv hdd.2.2

/-- RRT execution re-establishes the marker cells itself and never
overwrites them afterwards, provided the stored markers are distinct. -/
theorem rrtExec_SG (cm : Costmap) (s t : Node)
    (hwf : gridShape cm.width cm.height cm.grid) (hinv : StartGoalInv cm)
    (hdist : ∀ s₀ q₀, cm.start = some s₀ → cm.goal = some q₀ →
      ¬ samePos s₀ q₀)
    (maxIter : ℕ) (stepS : ℤ) (draws : ℕ → Draw) :
    StartGoalInv { cm with grid := (rrtPlan maxIter stepS draws cm s t).2 } := by
  have hda : deltaRrt (rrtMarkEndpoints cm)
      (rrtPlan maxIter stepS draws cm s t).2 := by
    simp only [rrtPlan]
    exact rrtAttempts_delta 50 (rrtMarkEndpoints cm) 0
  constructor
  · intro s0 hs0
    have hs0' : cm.start = some s0 := hs0
    obtain ⟨hin, _⟩ := hinv.1 s0 hs0'
    refine ⟨hin, ?_⟩
    apply (hda.2 s0).1
    unfold rrtMarkEndpoints
    rw [hs0']
    simp only
    cases hgl : cm.goal with
    | none =>
        simp only
        exact cellGet_cellSet_self hwf hin START
    | some q =>
        simp only
        rw [cellGet_cellSet_not_samePos GOAL (hdist s0 q hs0' hgl)]
        exact cellGet_cellSet_self hwf hin START
  · intro q0 hq0
    have hq0' : cm.goal = some q0 := hq0
    obtain ⟨hin, _⟩ := hinv.2 q0 hq0'
    refine ⟨hin, ?_⟩
    apply (hda.2 q0).2
    unfold rrtMarkEndpoints
    rw [hq0']
    simp only
    cases hst : cm.start with
    | none =>
        simp only
        exact cellGet_cellSet_self hwf hin GOAL
    | some s1 =>
        simp only
        exact cellGet_cellSet_self (gridShape_cellSet hwf s1 START) hin GOAL

/-- Counterexample to C8 as stated: `set_start` onto the cell of the
stored goal marker destroys the goal half of the invariant.  On a 2×2
grid: `set_start(0,0)`, `set_goal(1,1)`, then `set_start(1,1)` — the
goal marker still reads `(1,1)` but that cell now holds START. -/
theorem c8_counterexample :
    StartGoalInv (setGoal (setStart cm22 0 0) 1 1) ∧
    (setStart (setGoal (setStart cm22 0 0) 1 1) 1 1).goal = some (1, 1) ∧
    cellGet (setStart (setGoal (setStart cm22 0 0) 1 1) 1 1).grid (1, 1) =
      START ∧
    ¬ StartGoalInv (setStart (setGoal (setStart cm22 0 0) 1 1) 1 1) := by
  refine ⟨by decide, by decide, by decide, by decide⟩

/-- C8 (amended): how each Grid Store operation treats the invariant
"a set start marker points at an in-bounds cell holding START, and
symmetrically for goal" (`StartGoalInv`).  `toggle_obstacle` and `reset`
preserve it outright; `set_start` preserves it when the target is not
the stored goal's cell (and symmetrically for `set_goal`) — without that
proviso it fails (see the counterexample); when it fires on a costmap
satisfying the invariant with a target distinct from the old start, it
reverts the old start cell to UNKNOWN and marks the target START;
`reset_path` re-establishes it whenever the stored markers are distinct;
and planner execution (A*, Dijkstra with the invariant; RRT with the
invariant, a well-shaped grid and distinct markers) preserves it. -/
theorem c8_grid_store_marker_invariant (cm : Costmap) (x y : ℤ) (img : Grid)
    (s t : Node) :
    (StartGoalInv cm → StartGoalInv (toggleObstacle cm x y)) ∧
    (gridShape cm.width cm.height cm.grid → StartGoalInv cm →
      (∀ q, cm.goal = some q → ¬ samePos (x, y) q) →
      StartGoalInv (setStart cm x y)) ∧
    (gridShape cm.width cm.height cm.grid → StartGoalInv cm →
      (∀ s₀, cm.start = some s₀ → ¬ samePos (x, y) s₀) →
      StartGoalInv (setGoal cm x y)) ∧
    StartGoalInv (resetCm cm) ∧
    ((∀ s₀ q₀, cm.start = some s₀ → cm.goal = some q₀ → ¬ samePos s₀ q₀) →
      StartGoalInv (resetPath cm img)) ∧
    (gridShape cm.width cm.height cm.grid → StartGoalInv cm →
      (isWithinBounds cm x y && isFreeB cm x y) = true →
      ∀ s₀, cm.start = some s₀ → ¬ samePos (x, y) s₀ →
        cellGet (setStart cm x y).grid s₀ = UNKNOWN ∧
        cellGet (setStart cm x y).grid (x, y) = START ∧
        (setStart cm x y).start = some (x, y)) ∧
    (gridShape cm.width cm.height cm.grid → StartGoalInv cm →
      (isWithinBounds cm x y && isFreeB cm x y) = true →
      ∀ q₀, cm.goal = some q₀ → ¬ samePos (x, y) q₀ →
        cellGet (setGoal cm x y).grid q₀ = UNKNOWN ∧
        cellGet (setGoal cm x y).grid (x, y) = GOAL ∧
        (setGoal cm x y).goal = some (x, y)) ∧
    (StartGoalInv cm → ∀ fuel,
      StartGoalInv { cm with grid := (astarPlan fuel cm s t).2 } ∧
      StartGoalInv { cm with grid := (dijkstraPlan fuel cm s t).2 }) ∧
    (gridShape cm.width cm.height cm.grid → StartGoalInv cm →
      (∀ s₀ q₀, cm.start = some s₀ → cm.goal = some q₀ → ¬ samePos s₀ q₀) →
      ∀ (maxIter : ℕ) (stepS : ℤ) (draws : ℕ → Draw),
        StartGoalInv { cm with grid := (rrtPlan maxIter stepS draws cm s t).2 }) := by
  refine ⟨toggleObstacle_SG cm x y, setStart_SG cm x y, setGoal_SG cm x y,
    ?_, resetPath_SG cm img, ?_, ?_, searchExec_SG cm s t, rrtExec_SG cm s t⟩
  · constructor <;> intro a ha <;> cases ha
  · intro hwf hinv hbnd s₀ hs₀ hne
    obtain ⟨g1, heq, hsh, hpres, hrev⟩ := setStart_post hwf hbnd
    obtain ⟨hin0, hv0⟩ := hinv.1 s₀ hs₀
    rw [heq]
    refine ⟨?_, cellGet_cellSet_self hsh (nodeIn_of_guard hbnd) START, rfl⟩
    rw [cellGet_cellSet_not_samePos START
      (fun hsp => hne ⟨hsp.1.symm, hsp.2.symm⟩)]
    exact hrev s₀ hs₀ hv0 hin0
  · intro hwf hinv hbnd q₀ hq₀ hne
    obtain ⟨g1, heq, hsh, hpres, hrev⟩ := setGoal_post hwf hbnd
    obtain ⟨hin0, hv0⟩ := hinv.2 q₀ hq₀
    rw [heq]
    refine ⟨?_, cellGet_cellSet_self hsh (nodeIn_of_guard hbnd) GOAL, rfl⟩
    rw [cellGet_cellSet_not_samePos GOAL
      (fun hsp => hne ⟨hsp.1.symm, hsp.2.symm⟩)]
    exact hrev q₀ hq₀ hv0 hin0

/-- Instantiation of the C8 theorem on a concrete 2×2 costmap with
distinct markers: toggling, re-setting the start elsewhere, resetting
the path, and an A* run all leave the invariant intact, and the revert
clause produces UNKNOWN at the old start. -/
theorem c8_grid_store_marker_invariant_witness :
    StartGoalInv cmSGw ∧
    StartGoalInv (toggleObstacle cmSGw 1 0) ∧
    StartGoalInv (setStart cmSGw 1 0) ∧
    cellGet (setStart cmSGw 1 0).grid (0, 0) = UNKNOWN ∧
    StartGoalInv (resetPath cmSGw [[UNKNOWN, UNKNOWN], [UNKNOWN, UNKNOWN]]) ∧
    StartGoalInv { cmSGw with grid := (astarPlan 9 cmSGw (0, 0) (1, 1)).2 } ∧
    StartGoalInv
      { cmSGw with grid := (rrtPlan 3 5 drawsGoal cmSGw (0, 0) (1, 1)).2 } :=
  ⟨by decide,
    (c8_grid_store_marker_invariant cmSGw 1 0 [] (0, 0) (1, 1)).1 (by decide),
    (c8_grid_store_marker_invariant cmSGw 1 0 [] (0, 0) (1, 1)).2.1 (by decide)
      (by decide)
      (fun q hq => Option.some.inj hq ▸ (by decide : ¬ samePos (1, 0) (1, 1))),
    ((c8_grid_store_marker_invariant cmSGw 1 0 [] (0, 0) (1, 1)).2.2.2.2.2.1
      (by decide) (by decide) (by decide) (0, 0) rfl
      (by decide : ¬ samePos ((1 : ℤ), (0 : ℤ)) (0, 0))).1,
    (c8_grid_store_marker_invariant cmSGw 1 0
      [[UNKNOWN, UNKNOWN], [UNKNOWN, UNKNOWN]] (0, 0) (1, 1)).2.2.2.2.1
      (fun s₀ q₀ hs hq => Option.some.inj hs ▸ Option.some.inj hq ▸
        (by decide : ¬ samePos ((0 : ℤ), (0 : ℤ)) (1, 1))),
    ((c8_grid_store_marker_invariant cmSGw 1 0 [] (0, 0) (1, 1)).2.2.2.2.2.2.2.1
      (by decide) 9).1,
    (c8_grid_store_marker_invariant cmSGw 1 0 [] (0, 0) (1, 1)).2.2.2.2.2.2.2.2
      (by decide) (by decide)
      (fun s₀ q₀ hs hq => Option.some.inj hs ▸ Option.some.inj hq ▸
        (by decide : ¬ samePos ((0 : ℤ), (0 : ℤ)) (1, 1)))
      3 5 drawsGoal⟩

/-! ## Out-of-bounds requests (C9) -/

theorem npIndex_none {α : Type} (l : List α) (i : ℤ)
    (h : (l.length : ℤ) ≤ i ∨ i < -(l.length : ℤ)) : npIndex l i = none := by
  unfold npIndex
  rcases h with h | h
  · rw [if_pos (by omega : (0 : ℤ) ≤ i)]
    exact List.get?_eq_none.mpr (by omega)
  · rw [if_neg (by omega : ¬ (0 : ℤ) ≤ i)]
    rw [if_neg (by omega : ¬ (0 : ℤ) ≤ i + (l.length : ℤ))]

theorem npIndex_some {α : Type} (l : List α) (i : ℤ)
    (h1 : -(l.length : ℤ) ≤ i) (h2 : i < (l.length : ℤ)) :
    ∃ a, npIndex l i = some a ∧ a ∈ l := by
  unfold npIndex
  by_cases h0 : (0 : ℤ) ≤ i
  · rw [if_pos h0]
    have hlt : i.toNat < l.length := by omega
    exact ⟨l.get ⟨i.toNat, hlt⟩, List.get?_eq_get hlt, List.get_mem ..⟩
  · rw [if_neg h0]
    rw [if_pos (by omega : (0 : ℤ) ≤ i + (l.length : ℤ))]
    have hlt : (i + (l.length : ℤ)).toNat < l.length := by omega
    exact ⟨l.get ⟨_, hlt⟩, List.get?_eq_get hlt, List.get_mem ..⟩

theorem npIndex_mem {α : Type} {l : List α} {i : ℤ} {a : α}
    (h : npIndex l i = some a) : a ∈ l := by
  unfold npIndex at h
  by_cases h0 : (0 : ℤ) ≤ i
  · rw [if_pos h0] at h
    exact List.get?_mem h
  · rw [if_neg h0] at h
    by_cases h1 : (0 : ℤ) ≤ i + (l.length : ℤ)
    · rw [if_pos h1] at h
      exact List.get?_mem h
    · rw [if_neg h1] at h
      cases h

/-- Counterexample to C9 as stated: `is_free` has no bounds guard.
`grid[y][x]` on the 3×3 map raises `IndexError` (modelled `none`) for
`y = 3` and for `x = 3`, instead of silently ignoring the request; and
for negative coordinates it silently wraps, reading cell `(2, 2)`. -/
theorem c9_counterexample :
    isFreeIdx cm33 0 3 = none ∧ isFreeIdx cm33 3 0 = none ∧
    isFreeIdx cm33 (-1) (-1) = some true := by
  refine ⟨by decide, by decide, by decide⟩

/-- C9 (amended): out-of-bounds requests.  The mutators
(`toggle_obstacle`, `set_start`, `set_goal`) are guarded by
`is_within_bounds` and are exact no-ops outside the grid.  The query
`is_free` is not guarded: on a well-formed grid it raises `IndexError`
(modelled as `none`) whenever `x ≥ width`, `x < -width`, `y ≥ height` or
`y < -height`, and silently wraps (returning a value read from the
negatively-indexed cell) when both coordinates lie in
`[-width, width) × [-height, height)`. -/
theorem c9_out_of_bounds_behavior (cm : Costmap) (x y : ℤ)
    (hout : ¬ (0 ≤ x ∧ x < (cm.width : ℤ) ∧ 0 ≤ y ∧ y < (cm.height : ℤ))) :
    toggleObstacle cm x y = cm ∧
    setStart cm x y = cm ∧
    setGoal cm x y = cm ∧
    (Wf cm →
      ((cm.height : ℤ) ≤ y ∨ y < -(cm.height : ℤ) ∨
       (cm.width : ℤ) ≤ x ∨ x < -(cm.width : ℤ)) →
      isFreeIdx cm x y = none) ∧
    (Wf cm → -(cm.height : ℤ) ≤ y → y < (cm.height : ℤ) →
      -(cm.width : ℤ) ≤ x → x < (cm.width : ℤ) →
      ∃ b, isFreeIdx cm x y = some b) := by
  have hb : isWithinBounds cm x y ≠ true := by
    unfold isWithinBounds
    simpa using hout
  have hb2 : (isWithinBounds cm x y && isFreeB cm x y) ≠ true := by
    intro h
    rw [Bool.and_eq_true] at h
    exact hb h.1
  refine ⟨?_, ?_, ?_, ?_, ?_⟩
  · simp only [toggleObstacle]
    rw [if_neg hb]
  · simp only [setStart]
    rw [if_neg hb2]
  · simp only [setGoal]
    rw [if_neg hb2]
  · intro hwf hcase
    unfold isFreeIdx
    rcases hcase with h | h | h | h
    · rw [npIndex_none cm.grid y (Or.inl (by rw [hwf.1]; exact h))]
      rfl
    · rw [npIndex_none cm.grid y (Or.inr (by rw [hwf.1]; exact h))]
      rfl
    · cases hny : npIndex cm.grid y with
      | none => rfl
      | some row =>
          have hrow : row.length = cm.width := hwf.2 row (npIndex_mem hny)
          simp only [Option.some_bind]
          rw [npIndex_none row x (Or.inl (by rw [hrow]; exact h))]
          rfl
    · cases hny : npIndex cm.grid y with
      | none => rfl
      | some row =>
          have hrow : row.length = cm.width := hwf.2 row (npIndex_mem hny)
          simp only [Option.some_bind]
          rw [npIndex_none row x (Or.inr (by rw [hrow]; exact h))]
          rfl
  · intro hwf h1 h2 h3 h4
    unfold isFreeIdx
    obtain ⟨row, hrow, hmem⟩ :=
      npIndex_some cm.grid y (by rw [hwf.1]; exact h1) (by rw [hwf.1]; exact h2)
    rw [hrow]
    simp only [Option.some_bind]
    have hrl : row.length = cm.width := hwf.2 row hmem
    obtain ⟨v, hv, _⟩ :=
      npIndex_some row x (by rw [hrl]; exact h3) (by rw [hrl]; exact h4)
    rw [hv]
    exact ⟨_, rfl⟩

/-- Instantiation of the C9 theorem at `(5, -7)` on the 3×3 map: all
three mutators are no-ops and the unguarded query raises. -/
theorem c9_out_of_bounds_witness :
    toggleObstacle cm33 5 (-7) = cm33 ∧ setStart cm33 5 (-7) = cm33 ∧
    setGoal cm33 5 (-7) = cm33 ∧ isFreeIdx cm33 5 (-7) = none :=
  let h := c9_out_of_bounds_behavior cm33 5 (-7) (by decide)
  ⟨h.1, h.2.1, h.2.2.1, h.2.2.2.1 (by decide) (by decide)⟩

/-! ## RRT endpoint re-marking (C10) -/

/-- Counterexample to C10 as stated: the goal marker is written after
the start marker, so when the two stored markers collide the start cell
ends up holding GOAL, not START. -/
theorem c10_counterexample :
    cmColl.start = some (0, 0) ∧
    cellGet (rrtMarkEndpoints cmColl) (0, 0) = GOAL ∧
    cellGet (rrtPlan 1 5 drawsGoal cmColl (0, 0) (0, 0)).2 (0, 0) = GOAL ∧
    GOAL ≠ START := by
  refine ⟨rfl, by decide, by decide, by decide⟩

/-- C10 (amended): at the top of `RRTPlanner.plan`, independently of the
`start`/`goal` arguments, a set goal marker on an in-bounds cell is
written GOAL, and a set start marker on an in-bounds cell is written
START provided it does not collide with the stored goal marker (the GOAL
write comes second); both values persist to the grid at every exit of
the call, including "no path" returns. -/
theorem c10_rrt_marks_stored_endpoints (cm : Costmap) (s t : Node)
    (hwf : gridShape cm.width cm.height cm.grid) :
    (∀ q₀, cm.goal = some q₀ → NodeIn cm.width cm.height q₀ →
      cellGet (rrtMarkEndpoints cm) q₀ = GOAL ∧
      ∀ (maxIter : ℕ) (stepS : ℤ) (draws : ℕ → Draw),
        cellGet (rrtPlan maxIter stepS draws cm s t).2 q₀ = GOAL) ∧
    (∀ s₀, cm.start = some s₀ → NodeIn cm.width cm.height s₀ →
      (∀ q₀, cm.goal = some q₀ → ¬ samePos s₀ q₀) →
      cellGet (rrtMarkEndpoints cm) s₀ = START ∧
      ∀ (maxIter : ℕ) (stepS : ℤ) (draws : ℕ → Draw),
        cellGet (rrtPlan maxIter stepS draws cm s t).2 s₀ = START) := by
  constructor
  · intro q₀ hq₀ hin
    have hmark : cellGet (rrtMarkEndpoints cm) q₀ = GOAL := by
      unfold rrtMarkEndpoints
      rw [hq₀]
      simp only
      cases hst : cm.start with
      | none =>
          simp only
          exact cellGet_cellSet_self hwf hin GOAL
      | some s1 =>
          simp only
          exact cellGet_cellSet_self (gridShape_cellSet hwf s1 START) hin GOAL
    refine ⟨hmark, ?_⟩
    intro maxIter stepS draws
    have hda : deltaRrt (rrtMarkEndpoints cm)
        (rrtPlan maxIter stepS draws cm s t).2 := by
      simp only [rrtPlan]
      exact rrtAttempts_delta 50 (rrtMarkEndpoints cm) 0
    exact (hda.2 q₀).2 hmark
  · intro s₀ hs₀ hin hdist
    have hmark : cellGet (rrtMarkEndpoints cm) s₀ = START := by
      unfold rrtMarkEndpoints
      rw [hs₀]
      simp only
      cases hgl : cm.goal with
      | none =>
          simp only
          exact cellGet_cellSet_self hwf hin START
      | some q =>
          simp only
          rw [cellGet_cellSet_not_samePos GOAL (hdist q hgl)]
          exact cellGet_cellSet_self hwf hin START
    refine ⟨hmark, ?_⟩
    intro maxIter stepS draws
    have hda : deltaRrt (rrtMarkEndpoints cm)
        (rrtPlan maxIter stepS draws cm s t).2 := by
      simp only [rrtPlan]
      exact rrtAttempts_delta 50 (rrtMarkEndpoints cm) 0
    exact (hda.2 s₀).1 hmark

/-- Instantiation of the C10 theorem: on the 2×2 map with markers
`(0,0)`/`(1,1)`, an RRT call with unrelated plan arguments `(1,0)` and
`(0,1)` that returns "no path" still leaves START and GOAL at the stored
markers. -/
theorem c10_rrt_marks_stored_endpoints_witness :
    cellGet (rrtMarkEndpoints cmSGw) (1, 1) = GOAL ∧
    cellGet (rrtPlan 1 0 drawsGoal cmSGw (1, 0) (0, 1)).2 (1, 1) = GOAL ∧
    cellGet (rrtPlan 1 0 drawsGoal cmSGw (1, 0) (0, 1)).2 (0, 0) = START :=
  let h := c10_rrt_marks_stored_endpoints cmSGw (1, 0) (0, 1) (by decide)
  ⟨(h.1 (1, 1) rfl (by decide)).1,
   (h.1 (1, 1) rfl (by decide)).2 1 0 drawsGoal,
   (h.2 (0, 0) rfl (by decide)
      (fun q₀ hq => Option.some.inj hq ▸
        (by decide : ¬ samePos ((0 : ℤ), (0 : ℤ)) (1, 1)))).2 1 0 drawsGoal⟩

/-! ## A*/Dijkstra determinism and optimality (C3) -/

/-- Every frontier entry's key bounds the current gscore of its node
from above by `gscore + heuristic`: keys are computed at push time and
gscores only decrease afterwards. -/
def KeyInv (hf : Node → ℤ) (s : SState) : Prop :=
  ∀ e ∈ s.frontier, ∃ v, lookupA s.gsc e.2 = some v ∧ v + hf e.2 ≤ e.1

/-- Every gscored node either still has its fresh frontier entry
(key equal to its current gscore plus heuristic) or has had all its
traversable neighbours relaxed to within one step. -/
def FreshInv (w h : ℕ) (g₀ : Grid) (hf : Node → ℤ) (s : SState) : Prop :=
  ∀ u v, lookupA s.gsc u = some v →
    (v + hf u, u) ∈ s.frontier ∨
    (∀ nb, adjStep u nb → validN w h g₀ nb →
      ∃ vn, lookupA s.gsc nb = some vn ∧ vn ≤ v + 1)

theorem entryLt_true_key_le {a b : ℤ × Node} (h : entryLt a b = true) :
    a.1 ≤ b.1 := by
  simp only [entryLt, Bool.or_eq_true, Bool.and_eq_true, decide_eq_true_eq] at h
  rcases h with h | ⟨h, _⟩
  · omega
  · omega

theorem entryLt_false_key_le {a b : ℤ × Node} (h : ¬ entryLt a b = true) :
    b.1 ≤ a.1 := by
  simp only [entryLt, Bool.or_eq_true, Bool.and_eq_true, decide_eq_true_eq] at h
  push_neg at h
  omega

theorem minEntry_go_key_le (l : List (ℤ × Node)) :
    ∀ acc e, l.foldl
        (fun acc e =>
          match acc with
          | none => some e
          | some m => if entryLt e m then some e else some m)
        acc = some e →
      (∀ m, acc = some m → e.1 ≤ m.1) ∧ ∀ e' ∈ l, e.1 ≤ e'.1 := by
  induction l with
  | nil =>
      intro acc e h
      simp only [List.foldl_nil] at h
      subst h
      refine ⟨?_, by simp⟩
      intro m hm
      injection hm with hm
      subst hm
      exact le_rfl
  | cons a t ih =>
      intro acc e h
      simp only [List.foldl_cons] at h
      cases acc with
      | none =>
          simp only at h
          have hmain := ih (some a) e h
          refine ⟨(fun m hm => by cases hm), ?_⟩
          intro e' he'
          rcases List.mem_cons.mp he' with he' | he'
          · subst he'
            exact hmain.1 _ rfl
          · exact hmain.2 e' he'
      | some m0 =>
          simp only at h
          by_cases hlt : entryLt a m0 = true
          · rw [if_pos hlt] at h
            have hmain := ih (some a) e h
            have hea : e.1 ≤ a.1 := hmain.1 _ rfl
            refine ⟨?_, ?_⟩
            · intro m hm
              injection hm with hm
              subst hm
              exact le_trans hea (entryLt_true_key_le hlt)
            · intro e' he'
              rcases List.mem_cons.mp he' with he' | he'
              · subst he'; exact hea
              · exact hmain.2 e' he'
          · rw [if_neg hlt] at h
            have hmain := ih (some m0) e h
            have hem : e.1 ≤ m0.1 := hmain.1 _ rfl
            refine ⟨?_, ?_⟩
            · intro m hm
              injection hm with hm
              subst hm
              exact hem
            · intro e' he'
              rcases List.mem_cons.mp he' with he' | he'
              · subst he'
                exact le_trans hem (entryLt_false_key_le hlt)
              · exact hmain.2 e' he'

/-- The popped entry's key is minimal in the frontier. -/
theorem minEntry_key_le {l : List (ℤ × Node)} {e : ℤ × Node}
    (h : minEntry l = some e) : ∀ e' ∈ l, e.1 ≤ e'.1 :=
  (minEntry_go_key_le l none e h).2

theorem mem_removeFirst_of_ne {l : List (ℤ × Node)} {e x : ℤ × Node}
    (hx : x ∈ l) (hne : x ≠ e) : x ∈ removeFirst l e := by
  induction l with
  | nil => simp at hx
  | cons a t ih =>
      by_cases ha : a = e
      · simp only [removeFirst, if_pos ha]
        rcases List.mem_cons.mp hx with h | h
        · exact absurd (h.trans ha) hne
        · exact h
      · simp only [removeFirst, if_neg ha]
        rcases List.mem_cons.mp hx with h | h
        · rw [h]; exact List.mem_cons_self ..
        · exact List.mem_cons_of_mem _ (ih h)

theorem relaxOne_frontier_mono {hf : Node → ℤ} {cur : Node} {s : SState}
    {nbr : Node} {e : ℤ × Node} (he : e ∈ s.frontier) :
    e ∈ (relaxOne hf cur s nbr).frontier := by
  unfold relaxOne
  cases lookupA s.gsc cur with
  | none => exact he
  | some gc =>
      simp only
      by_cases hb : (match lookupA s.gsc nbr with
        | none => true
        | some gn => decide (gc + 1 < gn)) = true
      · rw [if_pos hb]
        exact List.mem_cons_of_mem _ he
      · rw [if_neg hb]
        exact he

/-- One relaxation leaves a node's gscore alone or improves exactly the
neighbour, pushing its fresh entry. -/
theorem relaxOne_gsc_char (hf : Node → ℤ) (cur : Node) (s : SState)
    (nbr u : Node) :
    lookupA (relaxOne hf cur s nbr).gsc u = lookupA s.gsc u ∨
    (u = nbr ∧ ∃ gc, lookupA s.gsc cur = some gc ∧
      lookupA (relaxOne hf cur s nbr).gsc u = some (gc + 1) ∧
      (gc + 1 + hf u, u) ∈ (relaxOne hf cur s nbr).frontier ∧
      (∀ vOld, lookupA s.gsc u = some vOld → gc + 1 < vOld)) := by
  unfold relaxOne
  cases hgc : lookupA s.gsc cur with
  | none => left; rfl
  | some gc =>
      simp only
      by_cases hb : (match lookupA s.gsc nbr with
        | none => true
        | some gn => decide (gc + 1 < gn)) = true
      · rw [if_pos hb]
        by_cases hu : u = nbr
        · subst hu
          right
          refine ⟨rfl, gc, rfl, lookupA_updEntry_self .., List.mem_cons_self .., ?_⟩
          intro vOld hvOld
          rw [hvOld] at hb
          simpa using hb
        · left
          rw [lookupA_updEntry, if_neg hu]
      · rw [if_neg hb]
        left; rfl

theorem foldRelax_frontier_mono {hf : Node → ℤ} {cur : Node} :
    ∀ (l : List Node) (s : SState) {e : ℤ × Node}, e ∈ s.frontier →
      e ∈ (l.foldl (relaxOne hf cur) s).frontier := by
  intro l
  induction l with
  | nil => intro s e he; exact he
  | cons a t ih =>
      intro s e he
      exact ih _ (relaxOne_frontier_mono he)

theorem foldRelax_gsc_char {hf : Node → ℤ} {cur : Node} :
    ∀ (l : List Node) (s : SState) (u : Node),
      lookupA (l.foldl (relaxOne hf cur) s).gsc u = lookupA s.gsc u ∨
      (∃ v2, lookupA (l.foldl (relaxOne hf cur) s).gsc u = some v2 ∧
        (v2 + hf u, u) ∈ (l.foldl (relaxOne hf cur) s).frontier ∧
        ∀ vOld, lookupA s.gsc u = some vOld → v2 < vOld) := by
  intro l
  induction l with
  | nil => intro s u; left; rfl
  | cons a t ih =>
      intro s u
      simp only [List.foldl_cons]
      rcases ih (relaxOne hf cur s a) u with h | ⟨v2, h1, h2, h3⟩
      · rw [h]
        rcases relaxOne_gsc_char hf cur s a u with h' | ⟨hu, gc, hgc, h1', h2', h3'⟩
        · left; exact h'
        · right
          exact ⟨gc + 1, h1', foldRelax_frontier_mono t _ h2', h3'⟩
      · right
        refine ⟨v2, h1, h2, ?_⟩
        intro vOld hvOld
        rcases relaxOne_gsc_char hf cur s a u with h' | ⟨hu, gc, hgc, h1', h2', h3'⟩
        · exact h3 vOld (h'.trans hvOld)
        · exact lt_trans (h3 _ h1') (h3' vOld hvOld)

theorem foldRelax_gsc_mono {hf : Node → ℤ} {cur : Node} (l : List Node)
    (s : SState) (u : Node) (vOld : ℤ) (h : lookupA s.gsc u = some vOld) :
    ∃ vNew, lookupA (l.foldl (relaxOne hf cur) s).gsc u = some vNew ∧
      vNew ≤ vOld := by
  rcases foldRelax_gsc_char l s u with h' | ⟨v2, h1, _, h3⟩
  · exact ⟨vOld, h'.trans h, le_rfl⟩
  · exact ⟨v2, h1, le_of_lt (h3 vOld h)⟩

theorem foldRelax_gsc_stable {hf : Node → ℤ} {cur : Node} :
    ∀ (l : List Node), (∀ n ∈ l, n ≠ cur) → ∀ (s : SState),
      lookupA (l.foldl (relaxOne hf cur) s).gsc cur = lookupA s.gsc cur := by
  intro l
  induction l with
  | nil => intro _ s; rfl
  | cons a t ih =>
      intro hne s
      simp only [List.foldl_cons]
      rw [ih (fun n hn => hne n (List.mem_cons_of_mem _ hn)) _]
      rcases relaxOne_gsc_char hf cur s a cur with h | ⟨hu, _⟩
      · exact h
      · exact absurd hu.symm (hne a (List.mem_cons_self ..))

/-- After relaxing the whole neighbour list of `cur`, every neighbour
carries a gscore within one step of `cur`'s. -/
theorem foldRelax_nbr_le {hf : Node → ℤ} {cur : Node} {gc : ℤ} :
    ∀ (l : List Node), (∀ n ∈ l, n ≠ cur) → ∀ (s : SState),
      lookupA s.gsc cur = some gc →
      ∀ nb ∈ l, ∃ vn, lookupA (l.foldl (relaxOne hf cur) s).gsc nb = some vn ∧
        vn ≤ gc + 1 := by
  intro l
  induction l with
  | nil =>
      intro _ s _ nb hnb
      simp at hnb
  | cons a t ih =>
      intro hne s hgc nb hnb
      simp only [List.foldl_cons]
      have hne' : ∀ n ∈ t, n ≠ cur := fun n hn => hne n (List.mem_cons_of_mem _ hn)
      rcases List.mem_cons.mp hnb with hq | hq
      · subst hq
        have hstep : ∃ va, lookupA (relaxOne hf cur s nb).gsc nb = some va ∧
            va ≤ gc + 1 := by
          unfold relaxOne
          rw [hgc]
          simp only
          by_cases hb : (match lookupA s.gsc nb with
            | none => true
            | some gn => decide (gc + 1 < gn)) = true
          · rw [if_pos hb]
            exact ⟨gc + 1, lookupA_updEntry_self .., le_rfl⟩
          · rw [if_neg hb]
            cases hgn : lookupA s.gsc nb with
            | none =>
                rw [hgn] at hb
                simp at hb
            | some gn =>
                rw [hgn] at hb
                simp only [decide_eq_true_eq] at hb
                exact ⟨gn, rfl, by omega⟩
        obtain ⟨va, hva, hvale⟩ := hstep
        obtain ⟨vNew, h1, h2⟩ := foldRelax_gsc_mono t (relaxOne hf cur s nb) nb va hva
        exact ⟨vNew, h1, le_trans h2 hvale⟩
      · have hgc2 : lookupA (relaxOne hf cur s a).gsc cur = some gc := by
          rcases relaxOne_gsc_char hf cur s a cur with h | ⟨hu, _⟩
          · exact h.trans hgc
          · exact absurd hu.symm (hne a (List.mem_cons_self ..))
        exact ih hne' _ hgc2 nb hq

theorem keyInv_relaxOne {hf : Node → ℤ} {cur : Node} {s : SState}
    (hk : KeyInv hf s) (nbr : Node) : KeyInv hf (relaxOne hf cur s nbr) := by
  unfold relaxOne
  cases hgc : lookupA s.gsc cur with
  | none => exact hk
  | some gc =>
      simp only
      by_cases hb : (match lookupA s.gsc nbr with
        | none => true
        | some gn => decide (gc + 1 < gn)) = true
      · rw [if_pos hb]
        intro e he
        rcases List.mem_cons.mp he with he | he
        · subst he
          exact ⟨gc + 1, lookupA_updEntry_self .., le_rfl⟩
        · obtain ⟨v, hv, hvle⟩ := hk e he
          by_cases hen : e.2 = nbr
          · refine ⟨gc + 1, by rw [hen]; exact lookupA_updEntry_self .., ?_⟩
            rw [hen] at hv
            rw [hv] at hb
            simp only [decide_eq_true_eq] at hb
            omega
          · refine ⟨v, ?_, hvle⟩
            rw [lookupA_updEntry, if_neg hen]
            exact hv
      · rw [if_neg hb]
        exact hk

theorem keyInv_foldRelax {hf : Node → ℤ} {cur : Node} :
    ∀ (l : List Node) (s : SState), KeyInv hf s →
      KeyInv hf (l.foldl (relaxOne hf cur) s) := by
  intro l
  induction l with
  | nil => intro s hk; exact hk
  | cons a t ih =>
      intro s hk
      exact ih _ (keyInv_relaxOne hk a)

theorem keyInv_popUpdate {hf : Node → ℤ} {s : SState} (hk : KeyInv hf s)
    (e : ℤ × Node) (g : Grid) :
    KeyInv hf { s with frontier := removeFirst s.frontier e, grid := g } :=
  fun e' he' => hk e' (mem_removeFirst he')

/-- One full loop iteration (pop an entry, mark, relax the popped node's
neighbours) preserves `KeyInv` and `FreshInv`: the popped node's possibly
spent fresh entry is replaced by having all its traversable neighbours
relaxed. -/
theorem iteration_key_fresh {w h : ℕ} {g₀ g2 : Grid} {hf : Node → ℤ}
    {s : SState} {e : ℤ × Node} (hobs2 : obstEquiv g₀ g2)
    (hkey : KeyInv hf s) (hfresh : FreshInv w h g₀ hf s) :
    KeyInv hf ((getNeighbors w h g2 e.2).foldl (relaxOne hf e.2)
      { s with frontier := removeFirst s.frontier e, grid := g2 }) ∧
    FreshInv w h g₀ hf ((getNeighbors w h g2 e.2).foldl (relaxOne hf e.2)
      { s with frontier := removeFirst s.frontier e, grid := g2 }) := by
  set cur := e.2 with hcur
  set L := getNeighbors w h g2 cur with hL
  set s2 : SState := { s with frontier := removeFirst s.frontier e, grid := g2 }
    with hs2
  have hneL : ∀ n ∈ L, n ≠ cur := by
    intro n hn
    rw [hL] at hn
    exact adjStep_ne (getNeighbors_mem_iff.mp hn).1
  constructor
  · exact keyInv_foldRelax L s2 (keyInv_popUpdate hkey e g2)
  · intro u v hu
    rcases foldRelax_gsc_char L s2 u with hch | ⟨v2, h1, h2, h3⟩
    · have hus : lookupA s.gsc u = some v := hch.symm.trans hu
      rcases hfresh u v hus with hfr | hrel
      · by_cases hee : (v + hf u, u) = e
        · have hu_cur : u = cur := by
            have h2nd := congrArg Prod.snd hee
            simpa [hcur] using h2nd
          subst hu_cur
          right
          intro nb hadj hval
          have hnb_mem : nb ∈ L := by
            rw [hL]
            exact getNeighbors_mem_iff.mpr
              ⟨hadj, hval.1, fun hc => hval.2 ((hobs2 nb).mpr hc)⟩
          exact foldRelax_nbr_le L hneL s2 hus nb hnb_mem
        · left
          exact foldRelax_frontier_mono L s2 (mem_removeFirst_of_ne hfr hee)
      · right
        intro nb hadj hval
        obtain ⟨vn, hvn, hvnle⟩ := hrel nb hadj hval
        obtain ⟨vn2, h1', h2'⟩ := foldRelax_gsc_mono L s2 nb vn hvn
        exact ⟨vn2, h1', le_trans h2' hvnle⟩
    · left
      have hveq : v2 = v := Option.some.inj (h1.symm.trans hu)
      subst hveq
      exact h2

/-- When the popped entry is the goal, walking any valid path from a
gscored node shows the goal's gscore is bounded by the path length:
either the next hop was already relaxed, or the fresh frontier entry of
the current node bounds the minimal key (and hence, through `KeyInv` and
admissibility, the goal's gscore). -/
theorem pop_goal_bound {w h : ℕ} {g₀ : Grid} {hf : Node → ℤ} {goal : Node}
    {s : SState} {e : ℤ × Node}
    (hkey : KeyInv hf s) (hfresh : FreshInv w h g₀ hf s)
    (hmin : ∀ e' ∈ s.frontier, e.1 ≤ e'.1)
    (he : e ∈ s.frontier) (hge : e.2 = goal)
    (hadm : ∀ (u : Node) (l : List Node), List.Chain' adjStep (u :: l) →
      (u :: l).getLast? = some goal → hf u ≤ (l.length : ℤ))
    (hfg : 0 ≤ hf goal) :
    ∀ (u : Node) (l : List Node) (j vu : ℤ),
      List.Chain' adjStep (u :: l) → (∀ x ∈ u :: l, validN w h g₀ x) →
      (u :: l).getLast? = some goal →
      lookupA s.gsc u = some vu → vu ≤ j →
      ∃ vg, lookupA s.gsc goal = some vg ∧ vg ≤ j + l.length := by
  intro u l
  induction l generalizing u with
  | nil =>
      intro j vu hchain hvalid hlast hvu hle
      simp only [List.getLast?_singleton, Option.some.injEq] at hlast
      subst hlast
      exact ⟨vu, hvu, by simpa using hle⟩
  | cons nb t ih =>
      intro j vu hchain hvalid hlast hvu hle
      rcases hfresh u vu hvu with hfr | hrel
      · have hkle : e.1 ≤ vu + hf u := hmin _ hfr
        have hadmu : hf u ≤ ((nb :: t).length : ℤ) := hadm u (nb :: t) hchain hlast
        obtain ⟨vg, hvg, hvgle⟩ := hkey e he
        rw [hge] at hvg hvgle
        refine ⟨vg, hvg, ?_⟩
        simp only [List.length_cons] at hadmu ⊢
        push_cast at hadmu ⊢
        omega
      · have hadj : adjStep u nb := (List.chain'_cons.mp hchain).1
        have hnbv : validN w h g₀ nb := hvalid nb (by simp)
        obtain ⟨vn, hvn, hvnle⟩ := hrel nb hadj hnbv
        obtain ⟨vg, h1, h2⟩ := ih nb (j + 1) vn (List.chain'_cons.mp hchain).2
          (fun x hx => hvalid x (List.mem_cons_of_mem _ hx))
          (by rw [← hlast]; exact (List.getLast?_cons_cons ..).symm)
          hvn (by omega)
        refine ⟨vg, h1, ?_⟩
        simp only [List.length_cons] at h2 ⊢
        push_cast at h2 ⊢
        omega

/-- The Manhattan heuristic never exceeds the step count of any
4-connected walk to the goal. -/
theorem manhattan_admissible (goal : Node) :
    ∀ (l : List Node) (u : Node), List.Chain' adjStep (u :: l) →
      (u :: l).getLast? = some goal → manhattan u goal ≤ (l.length : ℤ) := by
  intro l
  induction l with
  | nil =>
      intro u _ hlast
      simp only [List.getLast?_singleton, Option.some.injEq] at hlast
      subst hlast
      unfold manhattan
      simp
  | cons nb t ih =>
      intro u hchain hlast
      have hadj : adjStep u nb := (List.chain'_cons.mp hchain).1
      rw [List.getLast?_cons_cons] at hlast
      have hrec := ih nb (List.chain'_cons.mp hchain).2 hlast
      have hstep : manhattan u goal ≤ manhattan nb goal + 1 := by
        have h1 : |u.1 - nb.1| + |u.2 - nb.2| = (1 : ℤ) := by
          unfold adjStep at hadj
          rw [Int.abs_eq_natAbs, Int.abs_eq_natAbs]
          omega
        have t1 := abs_sub_le u.1 nb.1 goal.1
        have t2 := abs_sub_le u.2 nb.2 goal.2
        unfold manhattan
        linarith
      simp only [List.length_cons]
      push_cast
      linarith

/-- The reconstructed path's node count is bounded by one plus the
gscore of the walk's starting node: gscores strictly decrease along
`came_from` edges and stay non-negative. -/
theorem reconGo_length {cf : List (Node × Node)} {gsc : List (Node × ℤ)}
    (hNN : ∀ n v, lookupA gsc n = some v → 0 ≤ v)
    (hB2 : ∀ n p, lookupA cf n = some p →
      ∃ vn vp, lookupA gsc n = some vn ∧ lookupA gsc p = some vp ∧ vp + 1 ≤ vn) :
    ∀ (f : ℕ) (cur : Node) (path l : List Node) (vc : ℤ),
      reconGo f cf cur path = some l → lookupA gsc cur = some vc →
      (l.length : ℤ) ≤ path.length + vc := by
  intro f
  induction f with
  | zero => intro cur path l vc hh; cases hh
  | succ f ih =>
      intro cur path l vc hh hvc
      simp only [reconGo] at hh
      cases hc : lookupA cf cur with
      | none =>
          rw [hc] at hh
          injection hh with hh
          subst hh
          have h0 := hNN _ _ hvc
          rw [List.length_reverse]
          omega
      | some p =>
          rw [hc] at hh
          obtain ⟨vn, vp, h1, h2, h3⟩ := hB2 _ _ hc
          have hvv : vn = vc := Option.some.inj (h1.symm.trans hvc)
          have hrec := ih p (path ++ [p]) l vp hh h2
          rw [List.length_append, List.length_singleton] at hrec
          push_cast at hrec ⊢
          omega

theorem keyInv_init (hf : Node → ℤ) (g : Grid) (start : Node) (k0 : ℤ)
    (hk0 : hf start ≤ k0) :
    KeyInv hf ⟨g, [(k0, start)], [], [(start, 0)]⟩ := by
  intro e he
  simp only [List.mem_singleton] at he
  subst he
  refine ⟨0, ?_, ?_⟩
  · simp [lookupA]
  · simpa using hk0

theorem freshInv_init (w h : ℕ) (g₀ : Grid) (hf : Node → ℤ) (g : Grid)
    (start : Node) :
    FreshInv w h g₀ hf ⟨g, [(hf start, start)], [], [(start, 0)]⟩ := by
  intro u v hu
  simp only [lookupA] at hu
  by_cases hs : start = u
  · rw [if_pos hs] at hu
    injection hu with hu
    subst hu
    subst hs
    left
    simp
  · rw [if_neg hs] at hu
    cases hu

/-- Optimality of the shared search loop: with an admissible heuristic,
a returned path is no longer than any valid path from `start` to
`goal` over the call-time grid. -/
theorem searchLoop_optimal {w h : ℕ} {hf : Node → ℤ} {goal start : Node}
    {g₀ : Grid}
    (hadm : ∀ (u : Node) (l : List Node), List.Chain' adjStep (u :: l) →
      (u :: l).getLast? = some goal → hf u ≤ (l.length : ℤ))
    (hfg : 0 ≤ hf goal) :
    ∀ (f : ℕ) (s : SState), CoreInv start s → ValidInv w h g₀ s →
      KeyInv hf s → FreshInv w h g₀ hf s →
      ∀ p g', searchLoop w h hf goal f s = (some (some p), g') →
        ∀ q, validPath w h g₀ start goal q → p.length ≤ q.length := by
  intro f
  induction f with
  | zero =>
      intro s _ _ _ _ p g' hh
      simp [searchLoop] at hh
  | succ f ih =>
      intro s hcore hvalid hkey hfresh p g' hh q hq
      simp only [searchLoop] at hh
      cases hm : minEntry s.frontier with
      | none => rw [hm] at hh; simp at hh
      | some e =>
          rw [hm] at hh
          simp only at hh
          by_cases hg : e.2 = goal
          · rw [if_pos hg] at hh
            cases hr : reconGo (s.came.length + 1) s.came e.2 [e.2] with
            | none => rw [hr] at hh; simp at hh
            | some l =>
                rw [hr] at hh
                simp only [Prod.mk.injEq] at hh
                have hl : l = p := by
                  have := hh.1
                  injection this with this
                  injection this
                subst hl
                obtain ⟨iNN, iA, iB2, iB3, iCg, iVb⟩ := hcore
                obtain ⟨hqc, hqh, hqlast, hqvalid⟩ := hq
                cases q with
                | nil => simp at hqh
                | cons qh qt =>
                    have hqh2 : qh = start := by simpa using hqh
                    subst hqh2
                    obtain ⟨vg, hvg, hvgle⟩ :=
                      pop_goal_bound hkey hfresh (minEntry_key_le hm)
                        (minEntry_mem hm) hg hadm hfg qh qt 0 0 hqc hqvalid
                        hqlast iA le_rfl
                    have hvg2 : lookupA s.gsc e.2 = some vg := by
                      rw [hg]; exact hvg
                    have hlen := reconGo_length iNN iB2 (s.came.length + 1)
                      e.2 [e.2] l vg hr hvg2
                    simp only [List.length_singleton] at hlen
                    simp only [List.length_cons]
                    push_cast at hlen hvgle ⊢
                    omega
          · rw [if_neg hg] at hh
            obtain ⟨iNN, iA, iB2, iB3, iCg, iVb⟩ := hcore
            obtain ⟨iE, iV, iAd⟩ := hvalid
            have hcur_gsc : lookupA s.gsc e.2 ≠ none := iCg _ (minEntry_mem hm)
            have hcur_valid : validN w h g₀ e.2 := by
              cases hqq : lookupA s.gsc e.2 with
              | none => exact absurd hqq hcur_gsc
              | some v => exact iV _ _ hqq
            have hobs2 : obstEquiv g₀
                (if cellGet s.grid e.2 = START ∨ cellGet s.grid e.2 = GOAL
                 then s.grid else cellSet s.grid e.2 VISITED) := by
              by_cases hsg : cellGet s.grid e.2 = START ∨ cellGet s.grid e.2 = GOAL
              · rw [if_pos hsg]; exact iE
              · rw [if_neg hsg]
                refine obstEquiv_trans iE (obstEquiv_cellSet (by decide) ?_)
                intro hc
                exact hcur_valid.2 ((iE e.2).mpr hc)
            refine ih _ ?_ ?_ ?_ ?_ p g' hh q hq
            · apply coreInv_foldRelax
              · exact coreInv_popUpdate ⟨iNN, iA, iB2, iB3, iCg, iVb⟩ e _
              · intro n hn
                exact adjStep_ne (getNeighbors_mem_iff.mp hn).1
            · apply validInv_foldRelax
              · exact ⟨hobs2, iV, iAd⟩
              · intro n hn
                obtain ⟨ha, hb, hcn⟩ := getNeighbors_mem_iff.mp hn
                refine ⟨⟨hb, ?_⟩, ha⟩
                intro hob
                exact hcn ((hobs2 n).mp hob)
            · exact (iteration_key_fresh hobs2 hkey hfresh).1
            · exact (iteration_key_fresh hobs2 hkey hfresh).2

theorem cellGet_markStep_uncov {g : Grid} {cur p : Node}
    (hcov : ¬ (p.2.toNat = cur.2.toNat ∧ p.1.toNat = cur.1.toNat)) :
    cellGet (if cellGet g cur = START ∨ cellGet g cur = GOAL then g
             else cellSet g cur VISITED) p = cellGet g p := by
  by_cases hsg : cellGet g cur = START ∨ cellGet g cur = GOAL
  · rw [if_pos hsg]
  · rw [if_neg hsg, cellGet_cellSet]
    rw [if_neg (fun hc => hcov ⟨hc.1, hc.2.1⟩)]

theorem cellGet_markStep_cov_ne {g : Grid} {cur p : Node}
    (hcov : p.2.toNat = cur.2.toNat ∧ p.1.toNat = cur.1.toNat)
    (hno : cellGet g cur ≠ OBSTACLE) :
    cellGet (if cellGet g cur = START ∨ cellGet g cur = GOAL then g
             else cellSet g cur VISITED) p ≠ OBSTACLE := by
  have hps : cellGet g p = cellGet g cur := by
    unfold cellGet
    rw [hcov.1, hcov.2]
  by_cases hsg : cellGet g cur = START ∨ cellGet g cur = GOAL
  · rw [if_pos hsg, hps]
    exact hno
  · rw [if_neg hsg, cellGet_cellSet]
    by_cases hc : p.2.toNat = cur.2.toNat ∧ p.1.toNat = cur.1.toNat ∧
        cur.2.toNat < g.length ∧ cur.1.toNat < (gridRow g cur.2.toNat).length
    · rw [if_pos hc]
      decide
    · rw [if_neg hc, hps]
      exact hno

theorem cellGet_markStep_cov_obs {w h : ℕ} {g : Grid} {cur p : Node}
    (hs : gridShape w h g)
    (hcov : p.2.toNat = cur.2.toNat ∧ p.1.toNat = cur.1.toNat)
    (hob : cellGet g cur = OBSTACLE) :
    cellGet (if cellGet g cur = START ∨ cellGet g cur = GOAL then g
             else cellSet g cur VISITED) p =
      (if cur.2.toNat < h ∧ cur.1.toNat < w then VISITED else OBSTACLE) := by
  have hps : cellGet g p = cellGet g cur := by
    unfold cellGet
    rw [hcov.1, hcov.2]
  have hsg : ¬ (cellGet g cur = START ∨ cellGet g cur = GOAL) := by
    rw [hob]; decide
  rw [if_neg hsg, cellGet_cellSet]
  by_cases hin : cur.2.toNat < h ∧ cur.1.toNat < w
  · rw [if_pos hin]
    have hyl : cur.2.toNat < g.length := by rw [hs.1]; exact hin.1
    have hxl : cur.1.toNat < (gridRow g cur.2.toNat).length := by
      rw [hs.2 _ (gridRow_mem hyl)]; exact hin.2
    rw [if_pos ⟨hcov.1, hcov.2, hyl, hxl⟩]
  · rw [if_neg hin]
    have hny : ¬ (p.2.toNat = cur.2.toNat ∧ p.1.toNat = cur.1.toNat ∧
        cur.2.toNat < g.length ∧ cur.1.toNat < (gridRow g cur.2.toNat).length) := by
      intro hc
      apply hin
      constructor
      · rw [← hs.1]; exact hc.2.2.1
      · rw [← hs.2 _ (gridRow_mem hc.2.2.1)]; exact hc.2.2.2
    rw [if_neg hny, hps, hob]

/-- Marking the popped cell preserves obstacle-equivalence between two
equally-shaped grids. -/
theorem markStep_obstEquiv {w h : ℕ} {gA gB : Grid} (hsA : gridShape w h gA)
    (hsB : gridShape w h gB) (hobs : obstEquiv gA gB) (cur : Node) :
    obstEquiv
      (if cellGet gA cur = START ∨ cellGet gA cur = GOAL then gA
       else cellSet gA cur VISITED)
      (if cellGet gB cur = START ∨ cellGet gB cur = GOAL then gB
       else cellSet gB cur VISITED) := by
  intro p
  by_cases hcov : p.2.toNat = cur.2.toNat ∧ p.1.toNat = cur.1.toNat
  · by_cases hobc : cellGet gA cur = OBSTACLE
    · have hobcB : cellGet gB cur = OBSTACLE := (hobs cur).mp hobc
      rw [cellGet_markStep_cov_obs hsA hcov hobc,
          cellGet_markStep_cov_obs hsB hcov hobcB]
    · have hobcB : cellGet gB cur ≠ OBSTACLE := fun hc => hobc ((hobs cur).mpr hc)
      constructor
      · intro hc
        exact absurd hc (cellGet_markStep_cov_ne hcov hobc)
      · intro hc
        exact absurd hc (cellGet_markStep_cov_ne hcov hobcB)
  · rw [cellGet_markStep_uncov hcov, cellGet_markStep_uncov hcov]
    exact hobs p

theorem markStep_shape {w h : ℕ} {g : Grid} (hs : gridShape w h g) (cur : Node) :
    gridShape w h (if cellGet g cur = START ∨ cellGet g cur = GOAL then g
                   else cellSet g cur VISITED) := by
  by_cases hsg : cellGet g cur = START ∨ cellGet g cur = GOAL
  · rw [if_pos hsg]; exact hs
  · rw [if_neg hsg]; exact gridShape_cellSet hs cur VISITED

theorem relaxOne_nongrid (hf : Node → ℤ) (cur nbr : Node) (sA sB : SState)
    (hfr : sA.frontier = sB.frontier) (hca : sA.came = sB.came)
    (hgs : sA.gsc = sB.gsc) :
    (relaxOne hf cur sA nbr).frontier = (relaxOne hf cur sB nbr).frontier ∧
    (relaxOne hf cur sA nbr).came = (relaxOne hf cur sB nbr).came ∧
    (relaxOne hf cur sA nbr).gsc = (relaxOne hf cur sB nbr).gsc := by
  unfold relaxOne
  rw [hgs]
  cases lookupA sB.gsc cur with
  | none => exact ⟨hfr, hca, hgs⟩
  | some gc =>
      simp only
      by_cases hb : (match lookupA sB.gsc nbr with
        | none => true
        | some gn => decide (gc + 1 < gn)) = true
      · rw [if_pos hb, if_pos hb]
        refine ⟨?_, ?_, ?_⟩
        · simp only
          rw [hfr]
        · simp only
          rw [hca]
        · simp only
      · rw [if_neg hb, if_neg hb]
        exact ⟨hfr, hca, hgs⟩

theorem foldRelax_nongrid (hf : Node → ℤ) (cur : Node) :
    ∀ (l : List Node) (sA sB : SState),
      sA.frontier = sB.frontier → sA.came = sB.came → sA.gsc = sB.gsc →
      (l.foldl (relaxOne hf cur) sA).frontier =
        (l.foldl (relaxOne hf cur) sB).frontier ∧
      (l.foldl (relaxOne hf cur) sA).came = (l.foldl (relaxOne hf cur) sB).came ∧
      (l.foldl (relaxOne hf cur) sA).gsc = (l.foldl (relaxOne hf cur) sB).gsc := by
  intro l
  induction l with
  | nil =>
      intro sA sB h1 h2 h3
      exact ⟨h1, h2, h3⟩
  | cons a t ih =>
      intro sA sB h1 h2 h3
      simp only [List.foldl_cons]
      obtain ⟨j1, j2, j3⟩ := relaxOne_nongrid hf cur a sA sB h1 h2 h3
      exact ih _ _ j1 j2 j3

/-- Determinism modulo the obstacle pattern: the search loop's returned
value depends on the grid only through which cells are OBSTACLE. -/
theorem searchLoop_congr {w h : ℕ} {hf : Node → ℤ} {goal : Node} :
    ∀ (fuel : ℕ) (sA sB : SState),
      gridShape w h sA.grid → gridShape w h sB.grid →
      obstEquiv sA.grid sB.grid →
      sA.frontier = sB.frontier → sA.came = sB.came → sA.gsc = sB.gsc →
      (searchLoop w h hf goal fuel sA).1 = (searchLoop w h hf goal fuel sB).1 := by
  intro fuel
  induction fuel with
  | zero =>
      intro sA sB _ _ _ _ _ _
      rfl
  | succ f ih =>
      intro sA sB hsA hsB hobs hfr hca hgs
      obtain ⟨gA, frA, caA, gsA⟩ := sA
      obtain ⟨gB, frB, caB, gsB⟩ := sB
      simp only at hsA hsB hobs hfr hca hgs
      subst hfr
      subst hca
      subst hgs
      simp only [searchLoop]
      cases hm : minEntry frA with
      | none => rfl
      | some e =>
          simp only
          by_cases hg : e.2 = goal
          · rw [if_pos hg, if_pos hg]
            cases hr : reconGo (caA.length + 1) caA e.2 [e.2] with
            | some l => rfl
            | none => rfl
          · rw [if_neg hg, if_neg hg]
            set mA := if cellGet gA e.2 = START ∨ cellGet gA e.2 = GOAL then gA
              else cellSet gA e.2 VISITED with hmA
            set mB := if cellGet gB e.2 = START ∨ cellGet gB e.2 = GOAL then gB
              else cellSet gB e.2 VISITED with hmB
            have hobs2 : obstEquiv mA mB := markStep_obstEquiv hsA hsB hobs e.2
            have hnb : getNeighbors w h mA e.2 = getNeighbors w h mB e.2 :=
              getNeighbors_congr hobs2 e.2
            rw [hnb]
            have htrip := foldRelax_nongrid hf e.2 (getNeighbors w h mB e.2)
              ⟨mA, removeFirst frA e, caA, gsA⟩ ⟨mB, removeFirst frA e, caA, gsA⟩
              rfl rfl rfl
            refine ih _ _ ?_ ?_ ?_ ?_ ?_ ?_
            · rw [foldRelax_grid]
              exact markStep_shape hsA e.2
            · rw [foldRelax_grid]
              exact markStep_shape hsB e.2
            · rw [foldRelax_grid, foldRelax_grid]
              exact hobs2
            · exact htrip.1
            · exact htrip.2.1
            · exact htrip.2.2

/-- C3: A* and Dijkstra are deterministic and optimal.  Under the
documented plan preconditions (in-bounds non-OBSTACLE `s` and `t`):
two calls on costmaps with equal dimensions and equal obstacle patterns
(e.g. before and after a path reset restoring the map) return literally
the same result (`searchLoop_congr`); every returned path is a valid
4-connected path from `s` to `t` no longer than any other such path
over the call-time grid; and when both planners return, the two paths
have equal length. -/
theorem c3_deterministic_and_optimal (cm cm2 : Costmap) (s t : Node)
    (hs : validN cm.width cm.height cm.grid s)
    (ht : validN cm.width cm.height cm.grid t) :
    (Wf cm → Wf cm2 → cm2.width = cm.width → cm2.height = cm.height →
      obstEquiv cm.grid cm2.grid →
      ∀ fuel, (astarPlan fuel cm s t).1 = (astarPlan fuel cm2 s t).1 ∧
        (dijkstraPlan fuel cm s t).1 = (dijkstraPlan fuel cm2 s t).1) ∧
    (∀ fuel p, (astarPlan fuel cm s t).1 = some (some p) →
      validPath cm.width cm.height cm.grid s t p ∧
      ∀ q, validPath cm.width cm.height cm.grid s t q → p.length ≤ q.length) ∧
    (∀ fuel p, (dijkstraPlan fuel cm s t).1 = some (some p) →
      validPath cm.width cm.height cm.grid s t p ∧
      ∀ q, validPath cm.width cm.height cm.grid s t q → p.length ≤ q.length) ∧
    (∀ fuelA fuelD pa pd, (astarPlan fuelA cm s t).1 = some (some pa) →
      (dijkstraPlan fuelD cm s t).1 = some (some pd) →
      pa.length = pd.length) := by
  have hadmM : ∀ (u : Node) (l : List Node), List.Chain' adjStep (u :: l) →
      (u :: l).getLast? = some t →
      (fun n => manhattan n t) u ≤ (l.length : ℤ) :=
    fun u l hc hl => manhattan_admissible t l u hc hl
  have hfgM : (0 : ℤ) ≤ (fun n => manhattan n t) t := by
    simp only [manhattan]
    simp
  have hadmZ : ∀ (u : Node) (l : List Node), List.Chain' adjStep (u :: l) →
      (u :: l).getLast? = some t →
      (fun _ : Node => (0 : ℤ)) u ≤ (l.length : ℤ) :=
    fun u l _ _ => Int.natCast_nonneg l.length
  have hA : ∀ fuel p, (astarPlan fuel cm s t).1 = some (some p) →
      validPath cm.width cm.height cm.grid s t p ∧
      ∀ q, validPath cm.width cm.height cm.grid s t q → p.length ≤ q.length := by
    intro fuel p h1
    have h2 : astarPlan fuel cm s t = (some (some p), (astarPlan fuel cm s t).2) := by
      rw [← h1]
    have hv := searchLoop_valid fuel _ (coreInv_init cm.grid _ s)
      (validInv_init hs _) p _ h2
    have he := searchLoop_endpoints fuel _ (coreInv_init cm.grid _ s) p _ h2
    refine ⟨⟨hv.1, he.1, he.2, hv.2⟩, ?_⟩
    intro q hq
    exact searchLoop_optimal hadmM hfgM fuel _ (coreInv_init cm.grid _ s)
      (validInv_init hs _) (keyInv_init _ cm.grid s _ le_rfl)
      (freshInv_init cm.width cm.height cm.grid _ cm.grid s) p _ h2 q hq
  have hD : ∀ fuel p, (dijkstraPlan fuel cm s t).1 = some (some p) →
      validPath cm.width cm.height cm.grid s t p ∧
      ∀ q, validPath cm.width cm.height cm.grid s t q → p.length ≤ q.length := by
    intro fuel p h1
    have h2 : dijkstraPlan fuel cm s t =
        (some (some p), (dijkstraPlan fuel cm s t).2) := by
      rw [← h1]
    have hv := searchLoop_valid fuel _ (coreInv_init cm.grid _ s)
      (validInv_init hs _) p _ h2
    have he := searchLoop_endpoints fuel _ (coreInv_init cm.grid _ s) p _ h2
    refine ⟨⟨hv.1, he.1, he.2, hv.2⟩, ?_⟩
    intro q hq
    exact searchLoop_optimal hadmZ le_rfl fuel _ (coreInv_init cm.grid _ s)
      (validInv_init hs _) (keyInv_init _ cm.grid s _ le_rfl)
      (freshInv_init cm.width cm.height cm.grid _ cm.grid s) p _ h2 q hq
  refine ⟨?_, hA, hD, ?_⟩
  · intro hwf1 hwf2 hW hH hobs fuel
    have hsh2 : gridShape cm.width cm.height cm2.grid := by
      rw [← hW, ← hH]
      exact hwf2
    constructor
    · simp only [astarPlan]
      rw [hW, hH]
      exact searchLoop_congr fuel _ _ hwf1 hsh2 hobs rfl rfl rfl
    · simp only [dijkstraPlan]
      rw [hW, hH]
      exact searchLoop_congr fuel _ _ hwf1 hsh2 hobs rfl rfl rfl
  · intro fuelA fuelD pa pd ha hd
    exact le_antisymm ((hA fuelA pa ha).2 pd (hD fuelD pd hd).1)
      ((hD fuelD pd hd).2 pa (hA fuelA pa ha).1)

/-- Instantiation of the C3 theorem on the 4×1 strip: both planners
return the 3-node straight path, it is a valid path, it is no longer
than itself, and the two returned lengths agree. -/
theorem c3_deterministic_and_optimal_witness :
    (astarPlan 9 cm41 (0, 0) (2, 0)).1 = (astarPlan 9 cm41 (0, 0) (2, 0)).1 ∧
    validPath cm41.width cm41.height cm41.grid (0, 0) (2, 0)
      [(0, 0), (1, 0), (2, 0)] ∧
    ([((0 : ℤ), (0 : ℤ)), (1, 0), (2, 0)]).length ≤
      ([((0 : ℤ), (0 : ℤ)), (1, 0), (2, 0)]).length ∧
    ([((0 : ℤ), (0 : ℤ)), (1, 0), (2, 0)]).length =
      ([((0 : ℤ), (0 : ℤ)), (1, 0), (2, 0)]).length :=
  let H := c3_deterministic_and_optimal cm41 cm41 (0, 0) (2, 0)
    (by decide) (by decide)
  ⟨(H.1 (by decide) (by decide) rfl rfl (obstEquiv_refl cm41.grid) 9).1,
   (H.2.1 9 [(0, 0), (1, 0), (2, 0)] (by decide)).1,
   (H.2.1 9 [(0, 0), (1, 0), (2, 0)] (by decide)).2
     [(0, 0), (1, 0), (2, 0)] (H.2.1 9 [(0, 0), (1, 0), (2, 0)] (by decide)).1,
   H.2.2.2 9 9 [(0, 0), (1, 0), (2, 0)] [(0, 0), (1, 0), (2, 0)]
     (by decide) (by decide)⟩

end DiyCostmap
